import Mathlib

/-!
# R600 control-flow finalizer: a shallow embedding

Source: `lib/Target/R600/R600ControlFlowFinalizer.cpp`.

A basic block that is being rewritten in place is represented as a zipper:
the instructions in front of the iterator `I` (field `MBB` of `State`, already in
their final position) and the instructions from `I` to `MBB.end()` (the list the
scan still has to visit).  Every `BuildMI(MBB, MI, ...)` of the main loop inserts
in front of the instruction under the iterator, i.e. at the end of the first part,
so the position of an instruction in the first part never changes during the scan
and serves as its `MachineInstr *`.

`std::vector::back()` followed by `pop_back()` on an empty vector has no defined
result in C++; the embedding reports it as an error value.  The error value stands for
the absence of a defined behaviour, not for a failure of the pass: the source has no check
in front of `back()` and no failure path (its only `return` is `return false`).

`CurrentStack` and `MaxStack` are `unsigned` and wrap modulo `2 ^ 32`.  `CfCount`
and `AluInstCount` are `unsigned` as well, but they are only ever incremented, by
at most 3 per instruction of the block; they are kept as natural numbers (a block
would need more than `2 ^ 30` instructions to wrap them).
-/

namespace R600

/-- Opcodes named in the pass; every other opcode is `other n`. -/
inductive Opcode where
  | TEX_VTX_CONSTBUF | TEX_VTX_TEXBUF | TEX_LD | TEX_GET_TEXTURE_RESINFO
  | TEX_GET_GRADIENTS_H | TEX_GET_GRADIENTS_V | TEX_SET_GRADIENTS_H | TEX_SET_GRADIENTS_V
  | TEX_SAMPLE | TEX_SAMPLE_C | TEX_SAMPLE_L | TEX_SAMPLE_C_L | TEX_SAMPLE_LB
  | TEX_SAMPLE_C_LB | TEX_SAMPLE_G | TEX_SAMPLE_C_G | TXD | TXD_SHADOW
  | KILL | RETURN
  | CF_ALU_PUSH_BEFORE | CF_ALU | WHILELOOP | ENDLOOP | IF_PREDICATE_SET | ELSE | ENDIF
  | PREDICATED_BREAK | CONTINUE
  | CF_TC | CF_CALL_FS | WHILE_LOOP | END_LOOP | CF_JUMP | CF_ELSE | POP | LOOP_BREAK
  | CF_CONTINUE | STACK_SIZE
  | other (n : Nat)
  deriving DecidableEq

/-- A machine instruction: its opcode and its immediate operands (`int64_t`). -/
structure MachineInstr where
  opcode : Opcode
  operands : List Int
  deriving DecidableEq

/-- Errors of the embedding: `back()` on an empty stack, or a scan that has not reached
`MBB.end()` within the iterations it was given. -/
inductive Err where
  | emptyLoopStack
  | emptyIfThenElseStack
  | notTerminated
  deriving DecidableEq

/-- Lines 37-61. -/
def isFetch (MI : MachineInstr) : Bool :=
  match MI.opcode with
  | .TEX_VTX_CONSTBUF => true
  | .TEX_VTX_TEXBUF => true
  | .TEX_LD => true
  | .TEX_GET_TEXTURE_RESINFO => true
  | .TEX_GET_GRADIENTS_H => true
  | .TEX_GET_GRADIENTS_V => true
  | .TEX_SET_GRADIENTS_H => true
  | .TEX_SET_GRADIENTS_V => true
  | .TEX_SAMPLE => true
  | .TEX_SAMPLE_C => true
  | .TEX_SAMPLE_L => true
  | .TEX_SAMPLE_C_L => true
  | .TEX_SAMPLE_LB => true
  | .TEX_SAMPLE_C_LB => true
  | .TEX_SAMPLE_G => true
  | .TEX_SAMPLE_C_G => true
  | .TXD => true
  | .TXD_SHADOW => true
  | _ => false

/-- Lines 63-71. -/
def IsTrivialInst (MI : MachineInstr) : Bool :=
  match MI.opcode with
  | .KILL => true
  | .RETURN => true
  | _ => false

/-- The `for` loop of `MakeFetchClause` (lines 78-86), started at iterator `I` with
`AluInstCount = n`.  Result: the final `AluInstCount`, the instructions the iterator
has moved over, and the instructions from the returned iterator to `MBB.end()`. -/
def fetchClauseLoop (MaxFetchInst : Nat) :
    List MachineInstr → Nat → Nat × List MachineInstr × List MachineInstr
  | [], n => (n, [], [])
  | I :: rest, n =>
    if IsTrivialInst I then
      let r := fetchClauseLoop MaxFetchInst rest n
      (r.1, I :: r.2.1, r.2.2)
    else if !isFetch I then (n, [], I :: rest)
    else if n + 1 > MaxFetchInst then (n + 1, [], I :: rest)
    else
      let r := fetchClauseLoop MaxFetchInst rest (n + 1)
      (r.1, I :: r.2.1, r.2.2)

/-- Lines 73-92.  `front` holds the instructions in front of `ClauseHead`; the header is
inserted before `ClauseHead`.  Result: the instructions in front of the returned
iterator, and the instructions from it on. -/
def MakeFetchClause (MaxFetchInst : Nat) (front I : List MachineInstr) (CfAddress : Nat) :
    List MachineInstr × List MachineInstr :=
  let r := fetchClauseLoop MaxFetchInst I 0
  (front ++ ⟨.CF_TC, [(CfAddress : Int), (r.1 : Int)]⟩ :: r.2.1, r.2.2)

/-- Lines 93-95, on the instruction itself. -/
def CounterPropagateAddr (MI : MachineInstr) (Addr : Nat) : MachineInstr :=
  match MI.operands with
  | [] => MI
  | a :: rest => { MI with operands := ((Addr : Int) + a) :: rest }

/-- Lines 93-95, through the pointer `MI` (a position of the block). -/
def CounterPropagateAddrAt (MBB : List MachineInstr) (MI : Nat) (Addr : Nat) :
    List MachineInstr :=
  match MBB[MI]? with
  | some x => MBB.set MI (CounterPropagateAddr x Addr)
  | none => MBB

/-- Lines 96-103: the overload on a `std::set<MachineInstr *>`. -/
def CounterPropagateAddrSet (MBB : List MachineInstr) (MIs : List Nat) (Addr : Nat) :
    List MachineInstr :=
  MIs.foldl (fun B MI => CounterPropagateAddrAt B MI Addr) MBB

/-- The locals of `runOnMachineFunction` during the scan of one block.  `MBB` is the part
of the block in front of the iterator; the head of a stack is its `back()`. -/
structure State where
  MBB : List MachineInstr
  CfCount : Nat
  LoopStack : List (Nat × List Nat)
  IfThenElseStack : List Nat
  MaxStack : Nat
  CurrentStack : Nat
  deriving DecidableEq

/-- `CurrentStack++` on `unsigned`. -/
def incr32 (n : Nat) : Nat := (n + 1) % 2 ^ 32

/-- `CurrentStack--` on `unsigned`. -/
def decr32 (n : Nat) : Nat := (n + (2 ^ 32 - 1)) % 2 ^ 32

/-- Lines 139-241: the `switch` on the opcode of `MI`, after `I++`. -/
def lowerInstr (s : State) (MI : MachineInstr) : Except Err State :=
  match MI.opcode with
  | .CF_ALU_PUSH_BEFORE =>
    .ok { s with
      MBB := s.MBB ++ [MI]
      CurrentStack := incr32 s.CurrentStack
      MaxStack := max s.MaxStack (incr32 s.CurrentStack)
      CfCount := s.CfCount + 1 }
  | .CF_ALU =>
    .ok { s with MBB := s.MBB ++ [MI], CfCount := s.CfCount + 1 }
  | .WHILELOOP =>
    .ok { s with
      MBB := s.MBB ++ [⟨.WHILE_LOOP, [2]⟩]
      CurrentStack := incr32 s.CurrentStack
      MaxStack := max s.MaxStack (incr32 s.CurrentStack)
      LoopStack := (s.CfCount, List.insert s.MBB.length []) :: s.LoopStack
      CfCount := s.CfCount + 1 }
  | .ENDLOOP =>
    match s.LoopStack with
    | [] => .error .emptyLoopStack
    | Pair :: LoopStack =>
      .ok { s with
        MBB := CounterPropagateAddrSet s.MBB Pair.2 s.CfCount
                 ++ [⟨.END_LOOP, [((Pair.1 + 1 : Nat) : Int)]⟩]
        CurrentStack := decr32 s.CurrentStack
        LoopStack := LoopStack
        CfCount := s.CfCount + 1 }
  | .IF_PREDICATE_SET =>
    .ok { s with
      MBB := s.MBB ++ [⟨.CF_JUMP, [0, 0]⟩]
      IfThenElseStack := s.MBB.length :: s.IfThenElseStack
      CfCount := s.CfCount + 1 }
  | .ELSE =>
    match s.IfThenElseStack with
    | [] => .error .emptyIfThenElseStack
    | JumpInst :: IfThenElseStack =>
      .ok { s with
        MBB := CounterPropagateAddrAt s.MBB JumpInst s.CfCount ++ [⟨.CF_ELSE, [0, 1]⟩]
        IfThenElseStack := s.MBB.length :: IfThenElseStack
        CfCount := s.CfCount + 1 }
  | .ENDIF =>
    match s.IfThenElseStack with
    | [] => .error .emptyIfThenElseStack
    | IfOrElseInst :: IfThenElseStack =>
      .ok { s with
        MBB := CounterPropagateAddrAt s.MBB IfOrElseInst s.CfCount
                 ++ [⟨.POP, [((s.CfCount + 1 : Nat) : Int), 1]⟩]
        CurrentStack := decr32 s.CurrentStack
        IfThenElseStack := IfThenElseStack
        CfCount := s.CfCount + 1 }
  | .PREDICATED_BREAK =>
    match s.LoopStack with
    | [] => .error .emptyLoopStack
    | Pair :: LoopStack =>
      .ok { s with
        MBB := s.MBB ++ [⟨.CF_JUMP, [((s.CfCount + 3 : Nat) : Int), 1]⟩,
                         ⟨.LOOP_BREAK, [0]⟩,
                         ⟨.POP, [((s.CfCount + 3 : Nat) : Int), 1]⟩]
        CurrentStack := decr32 s.CurrentStack
        LoopStack := (Pair.1, List.insert (s.MBB.length + 1) Pair.2) :: LoopStack
        CfCount := s.CfCount + 3 }
  | .CONTINUE =>
    match s.LoopStack with
    | [] => .error .emptyLoopStack
    | Pair :: LoopStack =>
      .ok { s with
        MBB := s.MBB ++ [⟨.CF_CONTINUE, [0]⟩]
        LoopStack := (Pair.1, List.insert s.MBB.length Pair.2) :: LoopStack
        CfCount := s.CfCount + 1 }
  | _ => .ok { s with MBB := s.MBB ++ [MI] }

/-- Lines 131-241: one iteration of the inner `for` loop, entered with the iterator on
`I` and `rest` behind it. -/
def loopBody (MaxFetchInst : Nat) (s : State) (I : MachineInstr) (rest : List MachineInstr) :
    Except Err (State × List MachineInstr) :=
  if isFetch I then
    let r := MakeFetchClause MaxFetchInst s.MBB (I :: rest) 0
    .ok ({ s with MBB := r.1, CfCount := s.CfCount + 1 }, r.2)
  else
    match lowerInstr s I with
    | .ok s1 => .ok (s1, rest)
    | .error e => .error e

/-- Lines 130-242: at most `n` iterations of the inner `for` loop.  Result: the state and
the instructions from the iterator to `MBB.end()`. -/
def scan (MaxFetchInst : Nat) : Nat → State → List MachineInstr →
    Except Err (State × List MachineInstr)
  | 0, s, l => .ok (s, l)
  | _ + 1, s, [] => .ok (s, [])
  | n + 1, s, I :: rest =>
    match loopBody MaxFetchInst s I rest with
    | .ok (s1, rest1) => scan MaxFetchInst n s1 rest1
    | .error e => .error e

/-- The inner `for` loop run until `I == E`; `l.length` iterations are enough whenever
`MaxFetchInst` is positive. -/
def scanAll (MaxFetchInst : Nat) (s : State) (l : List MachineInstr) : Except Err State :=
  match scan MaxFetchInst l.length s l with
  | .ok (s1, []) => .ok s1
  | .ok (_, _ :: _) => .error .notTerminated
  | .error e => .error e

/-- Lines 121-129: the locals at the start of the inner loop and the block the loop scans
(`CF_CALL_FS` is inserted at `MBB.begin()` before the loop starts there). -/
def blockEntry (ShaderType MaxStack CurrentStack : Nat) (MBB : List MachineInstr) :
    State × List MachineInstr :=
  (⟨[], if ShaderType = 1 then 1 else 0, [], [], MaxStack, CurrentStack⟩,
   if ShaderType = 1 then ⟨.CF_CALL_FS, []⟩ :: MBB else MBB)

/-- Lines 120-246: the body of the loop over blocks, up to the end of the inner loop. -/
def scanBlock (MaxFetchInst ShaderType MaxStack CurrentStack : Nat) (MBB : List MachineInstr) :
    Except Err State :=
  scanAll MaxFetchInst (blockEntry ShaderType MaxStack CurrentStack MBB).1
    (blockEntry ShaderType MaxStack CurrentStack MBB).2

/-- Lines 120-246: the body of the loop over blocks.  Result: the rewritten block and the
values of `MaxStack` and `CurrentStack` when the block is left. -/
def runOnMachineBasicBlock (MaxFetchInst ShaderType MaxStack CurrentStack : Nat)
    (MBB : List MachineInstr) : Except Err (List MachineInstr × Nat × Nat) :=
  match scanBlock MaxFetchInst ShaderType MaxStack CurrentStack MBB with
  | .ok s => .ok (⟨.STACK_SIZE, [(s.MaxStack : Int)]⟩ :: s.MBB, s.MaxStack, s.CurrentStack)
  | .error e => .error e

/-- Lines 118-246: the loop over the blocks of the function. -/
def runOnBlocks (MaxFetchInst ShaderType : Nat) :
    Nat → Nat → List (List MachineInstr) → Except Err (List (List MachineInstr))
  | _, _, [] => .ok []
  | MaxStack, CurrentStack, MBB :: MF =>
    match runOnMachineBasicBlock MaxFetchInst ShaderType MaxStack CurrentStack MBB with
    | .ok (B, MaxStack1, CurrentStack1) =>
      match runOnBlocks MaxFetchInst ShaderType MaxStack1 CurrentStack1 MF with
      | .ok Bs => .ok (B :: Bs)
      | .error e => .error e
    | .error e => .error e

/-- Lines 115-249.  Result: the rewritten blocks and the returned `bool`. -/
def runOnMachineFunction (MaxFetchInst ShaderType : Nat) (MF : List (List MachineInstr)) :
    Except Err (List (List MachineInstr) × Bool) :=
  match runOnBlocks MaxFetchInst ShaderType 0 0 MF with
  | .ok Bs => .ok (Bs, false)
  | .error e => .error e

/-- Lines 106-113: the capacity chosen by the constructor from the device generation. -/
def MaxFetchInstOf (Generation HD4XXX : Nat) : Nat :=
  if Generation ≤ HD4XXX then 8 else 16

/-! ## Vocabulary of the statements -/

/-- A ghost value run along the instruction list. -/
def ghostRun {G : Type} (gstep : G → MachineInstr → Option G) : G → List MachineInstr → Option G
  | g, [] => some g
  | g, I :: rest =>
    match gstep g I with
    | some g1 => ghostRun gstep g1 rest
    | none => none

/-- The instructions some stack entry still points to. -/
def owned (s : State) : List Nat :=
  s.IfThenElseStack ++ (s.LoopStack.map Prod.snd).flatten

/-- Pointers held by the stacks are pairwise different and point into the block. -/
def Inv (s : State) : Prop :=
  (owned s).Nodup ∧ ∀ k ∈ owned s, k < s.MBB.length

instance (s : State) : Decidable (Inv s) := by
  unfold Inv; infer_instance

/-- The markers whose lowering touches the loop stack or the if/else stack. -/
def isStackMarker (MI : MachineInstr) : Bool :=
  match MI.opcode with
  | .WHILELOOP => true
  | .ENDLOOP => true
  | .IF_PREDICATE_SET => true
  | .ELSE => true
  | .ENDIF => true
  | .PREDICATED_BREAK => true
  | .CONTINUE => true
  | _ => false

/-- The markers at which the pass executes `CurrentStack++`. -/
def opensStack (MI : MachineInstr) : Bool :=
  match MI.opcode with
  | .CF_ALU_PUSH_BEFORE => true
  | .WHILELOOP => true
  | _ => false

/-- The markers at which the pass executes `CurrentStack--`. -/
def closesStack (MI : MachineInstr) : Bool :=
  match MI.opcode with
  | .ENDLOOP => true
  | .ENDIF => true
  | .PREDICATED_BREAK => true
  | _ => false

/-- The effect of one instruction on `(MaxStack, CurrentStack)`. -/
def stackStep (g : Nat × Nat) (MI : MachineInstr) : Nat × Nat :=
  if opensStack MI then (max g.1 (incr32 g.2), incr32 g.2)
  else if closesStack MI then (g.1, decr32 g.2)
  else g

/-- Number of `CurrentStack++` markers of a list. -/
def stackOpens (l : List MachineInstr) : Nat := l.countP opensStack

/-- Number of `CurrentStack--` markers of a list. -/
def stackCloses (l : List MachineInstr) : Nat := l.countP closesStack

/-- Depth of open ifs relative to a base: `none` when an `ELSE` or `ENDIF` would close an if
opened below the base. -/
def ifDepthStep (d : Nat) (MI : MachineInstr) : Option Nat :=
  match MI.opcode with
  | .IF_PREDICATE_SET => some (d + 1)
  | .ELSE => if d = 0 then none else some d
  | .ENDIF => if d = 0 then none else some (d - 1)
  | _ => some d

/-- Depth of open loops relative to a base: `none` when an `ENDLOOP` would close a loop
opened below the base. -/
def loopDepthStep (d : Nat) (MI : MachineInstr) : Option Nat :=
  match MI.opcode with
  | .WHILELOOP => some (d + 1)
  | .ENDLOOP => if d = 0 then none else some (d - 1)
  | _ => some d

/-- A list in which every `ELSE`/`ENDIF` closes an if opened in the list and every if opened
in the list is closed in it. -/
def ifBalanced (l : List MachineInstr) : Prop := ghostRun ifDepthStep 0 l = some 0

/-- A list in which every `ENDLOOP` closes a loop opened in the list and every loop opened in
the list is closed in it. -/
def loopBalanced (l : List MachineInstr) : Prop := ghostRun loopDepthStep 0 l = some 0

instance (l : List MachineInstr) : Decidable (ifBalanced l) := by
  unfold ifBalanced; infer_instance

instance (l : List MachineInstr) : Decidable (loopBalanced l) := by
  unfold loopBalanced; infer_instance

/-- Position at which the lowering of a `CONTINUE` or `PREDICATED_BREAK` met in state `s`
puts the `CF_CONTINUE`, respectively the `LOOP_BREAK` (behind the `CF_JUMP`). -/
def exitIndex (s : State) (MI : MachineInstr) : Nat :=
  if MI.opcode = .CONTINUE then s.MBB.length else s.MBB.length + 1

/-- Native opcode that leaves the loop for a `CONTINUE` or `PREDICATED_BREAK`. -/
def exitOpcode (MI : MachineInstr) : Opcode :=
  if MI.opcode = .CONTINUE then .CF_CONTINUE else .LOOP_BREAK

/-- The stack a marker reads with `back()` and finds empty, if any. -/
def underflow (s : State) (MI : MachineInstr) : Option Err :=
  match MI.opcode with
  | .ENDLOOP => if s.LoopStack = [] then some .emptyLoopStack else none
  | .PREDICATED_BREAK => if s.LoopStack = [] then some .emptyLoopStack else none
  | .CONTINUE => if s.LoopStack = [] then some .emptyLoopStack else none
  | .ELSE => if s.IfThenElseStack = [] then some .emptyIfThenElseStack else none
  | .ENDIF => if s.IfThenElseStack = [] then some .emptyIfThenElseStack else none
  | _ => none

/-- Sizes of the loop stack and of the if/else stack after an instruction, given the sizes
before it; `none` when the instruction reads an empty stack. -/
def depthStep (d : Nat × Nat) (MI : MachineInstr) : Option (Nat × Nat) :=
  match MI.opcode with
  | .WHILELOOP => some (d.1 + 1, d.2)
  | .ENDLOOP => if d.1 = 0 then none else some (d.1 - 1, d.2)
  | .IF_PREDICATE_SET => some (d.1, d.2 + 1)
  | .ELSE => if d.2 = 0 then none else some d
  | .ENDIF => if d.2 = 0 then none else some (d.1, d.2 - 1)
  | .PREDICATED_BREAK => if d.1 = 0 then none else some d
  | .CONTINUE => if d.1 = 0 then none else some d
  | _ => some d

/-- Sizes of the two stacks of a state. -/
def stackSizes (s : State) : Nat × Nat := (s.LoopStack.length, s.IfThenElseStack.length)

/-- An open construct of the structured program. -/
inductive Nest where
  | loop
  | ifThen
  | ifElse
  deriving DecidableEq

/-- Proper nesting: the open constructs after an instruction, given those before it; `none`
when the instruction does not fit the innermost open construct, or when a break or
continue is outside every loop. -/
def nestStep (st : List Nest) (MI : MachineInstr) : Option (List Nest) :=
  match MI.opcode with
  | .WHILELOOP => some (.loop :: st)
  | .ENDLOOP =>
    match st with
    | .loop :: t => some t
    | _ => none
  | .IF_PREDICATE_SET => some (.ifThen :: st)
  | .ELSE =>
    match st with
    | .ifThen :: t => some (.ifElse :: t)
    | _ => none
  | .ENDIF =>
    match st with
    | .ifThen :: t => some t
    | .ifElse :: t => some t
    | _ => none
  | .PREDICATED_BREAK => if .loop ∈ st then some st else none
  | .CONTINUE => if .loop ∈ st then some st else none
  | _ => some st

/-- A block whose markers are balanced and properly nested, with every break and continue
inside a loop. -/
def wellFormed (l : List MachineInstr) : Prop := ghostRun nestStep [] l = some []

instance (l : List MachineInstr) : Decidable (wellFormed l) := by
  unfold wellFormed; infer_instance

/-- Number of instructions of a list with a given opcode. -/
def countOp (op : Opcode) (l : List MachineInstr) : Nat :=
  l.countP (fun MI => decide (MI.opcode = op))

/-- The locals of the scan that are declared inside the loop over the blocks, with the
block: everything but `MaxStack` and `CurrentStack`. -/
def blockLocals (s : State) :
    List MachineInstr × Nat × List (Nat × List Nat) × List Nat :=
  (s.MBB, s.CfCount, s.LoopStack, s.IfThenElseStack)

/-- Opcodes of the instructions the lowering of `MI` leaves in the block. -/
def lowerOpcodes (MI : MachineInstr) : List Opcode :=
  match MI.opcode with
  | .WHILELOOP => [.WHILE_LOOP]
  | .ENDLOOP => [.END_LOOP]
  | .IF_PREDICATE_SET => [.CF_JUMP]
  | .ELSE => [.CF_ELSE]
  | .ENDIF => [.POP]
  | .PREDICATED_BREAK => [.CF_JUMP, .LOOP_BREAK, .POP]
  | .CONTINUE => [.CF_CONTINUE]
  | op => [op]

/-- The control-flow-level opcodes of an output block. -/
def cfLevel (op : Opcode) : Bool :=
  match op with
  | .CF_CALL_FS => true
  | .CF_TC => true
  | .CF_ALU => true
  | .CF_ALU_PUSH_BEFORE => true
  | .WHILE_LOOP => true
  | .END_LOOP => true
  | .CF_JUMP => true
  | .CF_ELSE => true
  | .POP => true
  | .LOOP_BREAK => true
  | .CF_CONTINUE => true
  | _ => false

/-- Number of control-flow-level instructions of a list. -/
def cfCount (B : List MachineInstr) : Nat := B.countP (fun MI => cfLevel MI.opcode)

/-- The native control-flow opcodes, which only the pass is expected to produce. -/
def isNativeCF (MI : MachineInstr) : Bool :=
  match MI.opcode with
  | .CF_CALL_FS => true
  | .CF_TC => true
  | .WHILE_LOOP => true
  | .END_LOOP => true
  | .CF_JUMP => true
  | .CF_ELSE => true
  | .POP => true
  | .LOOP_BREAK => true
  | .CF_CONTINUE => true
  | _ => false

/-- The documented change of `CfCount` by one iteration of the scan that starts at `MI`:
1 for a fetch clause, an ALU marker, loop-start, loop-end, if-predicate-set, else, endif,
continue; 3 for a predicated-break; 0 otherwise. -/
def cfDelta (MI : MachineInstr) : Nat :=
  if isFetch MI then 1
  else
    match MI.opcode with
    | .CF_ALU_PUSH_BEFORE => 1
    | .CF_ALU => 1
    | .WHILELOOP => 1
    | .ENDLOOP => 1
    | .IF_PREDICATE_SET => 1
    | .ELSE => 1
    | .ENDIF => 1
    | .PREDICATED_BREAK => 3
    | .CONTINUE => 1
    | _ => 0

/-- The native instruction that the lowering of an `IF_PREDICATE_SET` (a `CF_JUMP` with
second operand 0) or of an `ELSE` (a `CF_ELSE` with second operand 1) pushes on the if/else
stack, with address operand `a`. -/
def ifNative (m : MachineInstr) (a : Int) : MachineInstr :=
  if m.opcode = .ELSE then ⟨.CF_ELSE, [a, 1]⟩ else ⟨.CF_JUMP, [a, 0]⟩

/-- The instructions of a block that are not structural markers, in their order. -/
def payload (l : List MachineInstr) : List MachineInstr :=
  l.filter (fun MI => !isStackMarker MI)

/-- The instructions of `B` at the positions marked `true` in `keep`. -/
def selected (B : List MachineInstr) (keep : List Bool) : List MachineInstr :=
  ((B.zip keep).filter (fun p => p.2)).map Prod.fst

/-- The positions marked in `keep` hold the instructions `P`, and no stack points to any of
them. -/
def Keeps (s : State) (keep : List Bool) (P : List MachineInstr) : Prop :=
  Inv s ∧ keep.length = s.MBB.length ∧ (∀ k, keep[k]? = some true → k ∉ owned s)
    ∧ selected s.MBB keep = P

/-- The values of `MaxStack` and `CurrentStack` when the loop over the blocks has processed
the blocks `MF`, entered with the given values. -/
def stackAfter (MaxFetchInst ShaderType : Nat) :
    Nat → Nat → List (List MachineInstr) → Except Err (Nat × Nat)
  | MaxStack, CurrentStack, [] => .ok (MaxStack, CurrentStack)
  | MaxStack, CurrentStack, MBB :: MF =>
    match runOnMachineBasicBlock MaxFetchInst ShaderType MaxStack CurrentStack MBB with
    | .ok (_, MaxStack1, CurrentStack1) => stackAfter MaxFetchInst ShaderType MaxStack1 CurrentStack1 MF
    | .error e => .error e

/-- What a caller can observe of a call of the pass: it returns, with the blocks it has
rewritten and its `bool`, or it fails, producing no output. -/
inductive Outcome where
  | returns (MF : List (List MachineInstr)) (Changed : Bool)
  | fails
  deriving DecidableEq

/-- The outcomes the language definition allows for a call of the pass.  The source has no
failure path of its own: where every `back()` is applied to a non-empty vector, the call
returns the value of the embedding.  Where a `back()` is applied to an empty vector the
behaviour is undefined: the language puts no requirement on the call, so no outcome is
excluded.  A scan that is not over within the iterations it was given stands for a call
that does not return. -/
def allowed (MaxFetchInst ShaderType : Nat) (MF : List (List MachineInstr)) (o : Outcome) :
    Prop :=
  match runOnMachineFunction MaxFetchInst ShaderType MF with
  | .ok (Bs, Changed) => o = .returns Bs Changed
  | .error .notTerminated => o = .fails
  | .error _ => True

instance (MaxFetchInst ShaderType : Nat) (MF : List (List MachineInstr)) (o : Outcome) :
    Decidable (allowed MaxFetchInst ShaderType MF o) := by
  unfold allowed
  split <;> infer_instance

end R600

/-!
# Internalize: a shallow embedding

Source: `lib/Transforms/IPO/Internalize.cpp`.

A module is the three symbol lists the pass iterates over.  Of a global value the pass
reads the name, `isDeclaration()` and the linkage, and writes the linkage.  The linkage
enumeration is declared outside the two source files: it is the type parameter `L`, and
the enumerator `GlobalValue::InternalLinkage` is the parameter `InternalLinkage`.
`std::set<std::string>` is a list of names, used through membership only.
`M.getFunction` looks a name up in the symbol table of the module, where a name stands for
one global value: it is the first function of that name in the list of functions.  The call-graph
update and the statistics counters do not influence the linkage or the returned flag and
are left out.
-/

namespace Internalize

/-- A function, global variable or alias, as far as the pass looks at it. -/
structure GlobalValue (L : Type) where
  Name : String
  isDeclaration : Bool
  Linkage : L
  deriving DecidableEq

/-- The symbol lists of a module (`M.begin()`, `M.global_begin()`, `M.alias_begin()`). -/
structure Module (L : Type) where
  functions : List (GlobalValue L)
  globals : List (GlobalValue L)
  aliases : List (GlobalValue L)
  deriving DecidableEq

/-- The fields of `InternalizePass` (lines 46-50), after its constructor has run. -/
structure InternalizePass where
  ExternalNames : List String
  AllButMain : Bool
  deriving DecidableEq

/-- The accessor `hasInternalLinkage()`: the linkage is `InternalLinkage`. -/
def hasInternalLinkage {L : Type} [DecidableEq L] (InternalLinkage : L) (I : GlobalValue L) :
    Bool :=
  decide (I.Linkage = InternalLinkage)

/-- The call `setLinkage(...)`. -/
def setLinkage {L : Type} (I : GlobalValue L) (Linkage : L) : GlobalValue L :=
  { I with Linkage := Linkage }

/-- The lookup `M.getFunction(Name)`. -/
def getFunction {L : Type} (M : Module L) (Name : String) : Option (GlobalValue L) :=
  M.functions.find? (fun F => decide (F.Name = Name))

/-- The condition of the three loops (lines 124-126, 151-152, 162-163). -/
def toInternalize {L : Type} [DecidableEq L] (InternalLinkage : L) (ExternalNames : List String)
    (I : GlobalValue L) : Bool :=
  !I.isDeclaration && !hasInternalLinkage InternalLinkage I && !decide (I.Name ∈ ExternalNames)

/-- One of the three loops (lines 123-133, 149-157, 160-168), entered with the current value
of `Changed`.  Result: the symbols after the loop and `Changed`. -/
def internalizeLoop {L : Type} [DecidableEq L] (InternalLinkage : L)
    (ExternalNames : List String) :
    List (GlobalValue L) → Bool → List (GlobalValue L) × Bool
  | [], Changed => ([], Changed)
  | I :: rest, Changed =>
    if toInternalize InternalLinkage ExternalNames I then
      let r := internalizeLoop InternalLinkage ExternalNames rest true
      (setLinkage I InternalLinkage :: r.1, r.2)
    else
      let r := internalizeLoop InternalLinkage ExternalNames rest Changed
      (I :: r.1, r.2)

/-- The names inserted at lines 137-147, in the order of the insertions. -/
def anchorNames : List String :=
  ["llvm.used", "llvm.dbg.compile_units", "llvm.dbg.global_variables",
   "llvm.dbg.subprograms", "llvm.global_ctors", "llvm.global_dtors", "llvm.noinline",
   "llvm.global.annotations"]

/-- Lines 120-170: the pass from `bool Changed = false` on, with the set `ExternalNames` it
has at that point. -/
def internalizeModule {L : Type} [DecidableEq L] (InternalLinkage : L)
    (ExternalNames : List String) (M : Module L) : Module L × Bool :=
  let f := internalizeLoop InternalLinkage ExternalNames M.functions false
  let ExternalNames1 := anchorNames.foldl (fun S n => List.insert n S) ExternalNames
  let g := internalizeLoop InternalLinkage ExternalNames1 M.globals f.2
  let a := internalizeLoop InternalLinkage ExternalNames1 M.aliases g.2
  (⟨f.1, g.1, a.1⟩, a.2)

/-- Lines 101-171.  Result: the module after the pass and the returned `bool`. -/
def runOnModule {L : Type} [DecidableEq L] (InternalLinkage : L) (P : InternalizePass)
    (M : Module L) : Module L × Bool :=
  if P.ExternalNames.isEmpty then
    if !P.AllButMain then (M, false)
    else
      match getFunction M "main" with
      | none => (M, false)
      | some MainFunc =>
        if MainFunc.isDeclaration then (M, false)
        else internalizeModule InternalLinkage (List.insert MainFunc.Name P.ExternalNames) M
  else internalizeModule InternalLinkage P.ExternalNames M

/-! ### The contract, in the words of the specification -/

/-- A module that defines `main`. -/
def specMainDefined {L : Type} (M : Module L) : Bool :=
  match getFunction M "main" with
  | some F => !F.isDeclaration
  | none => false

/-- The pass has nothing to go by: no names were given, and all-but-main mode is off or no
`main` is defined. -/
def specNothingToDo {L : Type} (P : InternalizePass) (M : Module L) : Bool :=
  P.ExternalNames.isEmpty && (!P.AllButMain || !specMainDefined M)

/-- The preserved names: those given, or `main` when none were given; for global variables
and aliases (`anchors = true`) also the reserved anchor names. -/
def specPreserved (P : InternalizePass) (anchors : Bool) (n : String) : Bool :=
  (decide (n ∈ P.ExternalNames) || (P.ExternalNames.isEmpty && decide (n = "main")))
    || (anchors && decide (n ∈ anchorNames))

/-- The symbols that get internal linkage: defined, not already internal, not preserved. -/
def specInternalized {L : Type} [DecidableEq L] (InternalLinkage : L) (P : InternalizePass)
    (anchors : Bool) (I : GlobalValue L) : Bool :=
  !I.isDeclaration && !decide (I.Linkage = InternalLinkage) && !specPreserved P anchors I.Name

/-- The linkage contract on one symbol. -/
def specLinkage {L : Type} [DecidableEq L] (InternalLinkage : L) (P : InternalizePass)
    (anchors : Bool) (I : GlobalValue L) : GlobalValue L :=
  if specInternalized InternalLinkage P anchors I then { I with Linkage := InternalLinkage } else I

end Internalize

namespace R600

/-! ## The fetch-clause loop -/

theorem fetchClauseLoop_append (C : Nat) (l : List MachineInstr) (n : Nat) :
    (fetchClauseLoop C l n).2.1 ++ (fetchClauseLoop C l n).2.2 = l := by
  induction l generalizing n with
  | nil => simp [fetchClauseLoop]
  | cons I rest ih =>
    unfold fetchClauseLoop
    split_ifs <;> simp [ih]

theorem fetchClauseLoop_length_le (C : Nat) (l : List MachineInstr) (n : Nat) :
    (fetchClauseLoop C l n).2.2.length ≤ l.length := by
  have h := congrArg List.length (fetchClauseLoop_append C l n)
  rw [List.length_append] at h
  omega

theorem fetchClauseLoop_passed (C : Nat) (l : List MachineInstr) (n : Nat) :
    ∀ I ∈ (fetchClauseLoop C l n).2.1, isFetch I = true ∨ IsTrivialInst I = true := by
  induction l generalizing n with
  | nil => simp [fetchClauseLoop]
  | cons I rest ih =>
    unfold fetchClauseLoop
    split_ifs with h1 h2 h3
    · intro J hJ
      simp only [List.mem_cons] at hJ
      rcases hJ with rfl | hJ
      · exact Or.inr h1
      · exact ih n J hJ
    · simp
    · simp
    · intro J hJ
      simp only [List.mem_cons] at hJ
      rcases hJ with rfl | hJ
      · left; simpa using h2
      · exact ih (n + 1) J hJ

/-- A fetch instruction met with `AluInstCount < MaxFetchInst` is moved over. -/
theorem fetchClauseLoop_progress (C : Nat) (I : MachineInstr) (rest : List MachineInstr)
    (n : Nat) (hI : isFetch I = true) (hn : n < C) :
    (fetchClauseLoop C (I :: rest) n).2.2.length ≤ rest.length := by
  unfold fetchClauseLoop
  split_ifs with h1 h2 h3
  · exact fetchClauseLoop_length_le C rest n
  · simp [hI] at h2
  · omega
  · exact fetchClauseLoop_length_le C rest (n + 1)

/-! ## The scan of a block -/

theorem MakeFetchClause_snd (C : Nat) (front l : List MachineInstr) (a : Nat) :
    (MakeFetchClause C front l a).2 = (fetchClauseLoop C l 0).2.2 := rfl

theorem MakeFetchClause_fst (C : Nat) (front l : List MachineInstr) (a : Nat) :
    (MakeFetchClause C front l a).1 =
      front ++ ⟨.CF_TC, [(a : Int), ((fetchClauseLoop C l 0).1 : Int)]⟩
        :: (fetchClauseLoop C l 0).2.1 := rfl

theorem loopBody_fetch (C : Nat) (s : State) (I : MachineInstr) (rest : List MachineInstr)
    (hI : isFetch I = true) :
    loopBody C s I rest =
      .ok ({ s with MBB := (MakeFetchClause C s.MBB (I :: rest) 0).1, CfCount := s.CfCount + 1 },
           (fetchClauseLoop C (I :: rest) 0).2.2) := by
  simp [loopBody, hI, MakeFetchClause]

theorem loopBody_other (C : Nat) (s : State) (I : MachineInstr) (rest : List MachineInstr)
    (hI : isFetch I = false) :
    loopBody C s I rest =
      match lowerInstr s I with
      | .ok s1 => .ok (s1, rest)
      | .error e => .error e := by
  simp [loopBody, hI]

/-- With a positive capacity every iteration moves the iterator forward. -/
theorem loopBody_length (C : Nat) (hC : 0 < C) (s s1 : State) (I : MachineInstr)
    (rest rest1 : List MachineInstr) (h : loopBody C s I rest = .ok (s1, rest1)) :
    rest1.length ≤ rest.length := by
  cases hI : isFetch I with
  | true =>
    rw [loopBody_fetch C s I rest hI] at h
    injection h with h
    injection h with _ h2
    rw [← h2]
    exact fetchClauseLoop_progress C I rest 0 hI hC
  | false =>
    rw [loopBody_other C s I rest hI] at h
    cases hl : lowerInstr s I with
    | ok s2 =>
      rw [hl] at h
      injection h with h
      injection h with _ h2
      rw [← h2]
    | error e => rw [hl] at h; cases h

theorem scan_fuel (C : Nat) (hC : 0 < C) :
    ∀ (n m : Nat) (s : State) (l : List MachineInstr), l.length ≤ n → l.length ≤ m →
      scan C n s l = scan C m s l := by
  intro n
  induction n with
  | zero =>
    intro m s l hn hm
    have : l = [] := List.length_eq_zero.mp (by omega)
    subst this
    cases m <;> rfl
  | succ n ih =>
    intro m s l hn hm
    cases l with
    | nil => cases m <;> rfl
    | cons I rest =>
      cases m with
      | zero => simp at hm
      | succ m =>
        simp only [scan]
        cases hb : loopBody C s I rest with
        | error e => rfl
        | ok p =>
          obtain ⟨s1, rest1⟩ := p
          have hlen := loopBody_length C hC s s1 I rest rest1 hb
          simp only [List.length_cons] at hn hm
          exact ih m s1 rest1 (by omega) (by omega)

theorem scan_done (C : Nat) (hC : 0 < C) :
    ∀ (n : Nat) (s s1 : State) (l l1 : List MachineInstr), l.length ≤ n →
      scan C n s l = .ok (s1, l1) → l1 = [] := by
  intro n
  induction n with
  | zero =>
    intro s s1 l l1 hn h
    have : l = [] := List.length_eq_zero.mp (by omega)
    subst this
    simp only [scan] at h
    injection h with h
    injection h with _ h2
    exact h2.symm
  | succ n ih =>
    intro s s1 l l1 hn h
    cases l with
    | nil =>
      simp only [scan] at h
      injection h with h
      injection h with _ h2
      exact h2.symm
    | cons I rest =>
      simp only [scan] at h
      cases hb : loopBody C s I rest with
      | error e => rw [hb] at h; cases h
      | ok p =>
        obtain ⟨s2, rest2⟩ := p
        rw [hb] at h
        have hlen := loopBody_length C hC s s2 I rest rest2 hb
        simp only [List.length_cons] at hn
        exact ih s2 s1 rest2 l1 (by omega) h

theorem scanAll_nil (C : Nat) (s : State) : scanAll C s [] = .ok s := rfl

theorem scanAll_eq_scan (C : Nat) (hC : 0 < C) (n : Nat) (s : State) (l : List MachineInstr)
    (hn : l.length ≤ n) :
    scanAll C s l =
      match scan C n s l with
      | .ok (s1, _) => .ok s1
      | .error e => .error e := by
  unfold scanAll
  rw [scan_fuel C hC l.length n s l (le_refl _) hn]
  cases h : scan C n s l with
  | error e => rfl
  | ok p =>
    obtain ⟨s1, l1⟩ := p
    have := scan_done C hC n s s1 l l1 hn h
    subst this
    rfl

theorem scanAll_cons (C : Nat) (hC : 0 < C) (s : State) (I : MachineInstr)
    (rest : List MachineInstr) :
    scanAll C s (I :: rest) =
      match loopBody C s I rest with
      | .ok (s1, rest1) => scanAll C s1 rest1
      | .error e => .error e := by
  rw [scanAll_eq_scan C hC (rest.length + 1) s (I :: rest) (by simp)]
  simp only [scan]
  cases hb : loopBody C s I rest with
  | error e => rfl
  | ok p =>
    obtain ⟨s1, rest1⟩ := p
    have hlen := loopBody_length C hC s s1 I rest rest1 hb
    simp only []
    rw [scanAll_eq_scan C hC rest.length s1 rest1 hlen]

theorem scanAll_cons_fetch (C : Nat) (hC : 0 < C) (s : State) (I : MachineInstr)
    (rest : List MachineInstr) (hI : isFetch I = true) :
    scanAll C s (I :: rest) =
      scanAll C { s with MBB := (MakeFetchClause C s.MBB (I :: rest) 0).1,
                         CfCount := s.CfCount + 1 }
        (fetchClauseLoop C (I :: rest) 0).2.2 := by
  rw [scanAll_cons C hC, loopBody_fetch C s I rest hI]

theorem scanAll_cons_other (C : Nat) (hC : 0 < C) (s : State) (I : MachineInstr)
    (rest : List MachineInstr) (hI : isFetch I = false) :
    scanAll C s (I :: rest) =
      match lowerInstr s I with
      | .ok s1 => scanAll C s1 rest
      | .error e => .error e := by
  rw [scanAll_cons C hC, loopBody_other C s I rest hI]
  cases lowerInstr s I <;> rfl

/-! ## Splitting a scan at an instruction that is neither fetch nor trivial -/

theorem fetchClauseLoop_append_boundary (C : Nat) (l1 l2 : List MachineInstr) (n : Nat)
    (hb : ∀ m ∈ l2.head?, isFetch m = false ∧ IsTrivialInst m = false) :
    fetchClauseLoop C (l1 ++ l2) n =
      ((fetchClauseLoop C l1 n).1, (fetchClauseLoop C l1 n).2.1,
       (fetchClauseLoop C l1 n).2.2 ++ l2) := by
  induction l1 generalizing n with
  | nil =>
    cases l2 with
    | nil => simp [fetchClauseLoop]
    | cons m l2 =>
      have := hb m (by simp)
      simp [fetchClauseLoop, this.1, this.2]
  | cons I rest ih =>
    simp only [List.cons_append]
    unfold fetchClauseLoop
    split_ifs with h1 h2 h3
    · simp [ih n]
    · simp
    · simp
    · simp [ih (n + 1)]

theorem scanAll_append (C : Nat) (hC : 0 < C) (l2 : List MachineInstr)
    (hb : ∀ m ∈ l2.head?, isFetch m = false ∧ IsTrivialInst m = false) :
    ∀ (k : Nat) (l1 : List MachineInstr) (s : State), l1.length ≤ k →
      scanAll C s (l1 ++ l2) =
        match scanAll C s l1 with
        | .ok s1 => scanAll C s1 l2
        | .error e => .error e := by
  intro k
  induction k with
  | zero =>
    intro l1 s hk
    have : l1 = [] := List.length_eq_zero.mp (by omega)
    subst this
    simp [scanAll_nil]
  | succ k ih =>
    intro l1 s hk
    cases l1 with
    | nil => simp [scanAll_nil]
    | cons I rest =>
      simp only [List.cons_append]
      cases hI : isFetch I with
      | true =>
        rw [scanAll_cons_fetch C hC s I (rest ++ l2) hI, scanAll_cons_fetch C hC s I rest hI]
        have hf := fetchClauseLoop_append_boundary C (I :: rest) l2 0 hb
        simp only [List.cons_append] at hf
        have hlen := fetchClauseLoop_progress C I rest 0 hI hC
        simp only [List.length_cons] at hk
        simp only [MakeFetchClause_fst, hf]
        exact ih _ _ (by omega)
      | false =>
        rw [scanAll_cons_other C hC s I (rest ++ l2) hI, scanAll_cons_other C hC s I rest hI]
        cases lowerInstr s I with
        | error e => rfl
        | ok s1 =>
          simp only [List.length_cons] at hk
          exact ih rest s1 (by omega)

/-- The scan of `l1 ++ m :: l2`, where `m` is neither a fetch nor a trivial instruction,
is the scan of `l1` followed by the scan of `m :: l2` from the state reached. -/
theorem scanAll_append_cons (C : Nat) (hC : 0 < C) (l1 l2 : List MachineInstr) (m : MachineInstr)
    (s : State) (hm1 : isFetch m = false) (hm2 : IsTrivialInst m = false) :
    scanAll C s (l1 ++ m :: l2) =
      match scanAll C s l1 with
      | .ok s1 => scanAll C s1 (m :: l2)
      | .error e => .error e :=
  scanAll_append C hC (m :: l2) (by simp [hm1, hm2]) l1.length l1 s (le_refl _)

/-! ## Lifting a step invariant to the scan -/

theorem ghostRun_append_skip {G : Type} (gstep : G → MachineInstr → Option G)
    (hskip : ∀ g I, isFetch I = true ∨ IsTrivialInst I = true → gstep g I = some g)
    (l1 l2 : List MachineInstr) (g : G)
    (h1 : ∀ I ∈ l1, isFetch I = true ∨ IsTrivialInst I = true) :
    ghostRun gstep g (l1 ++ l2) = ghostRun gstep g l2 := by
  induction l1 with
  | nil => rfl
  | cons I rest ih =>
    simp only [List.cons_append, ghostRun]
    rw [hskip g I (h1 I (by simp))]
    exact ih (fun J hJ => h1 J (by simp [hJ]))

theorem scanAll_ghost {G : Type} (C : Nat) (hC : 0 < C) (gstep : G → MachineInstr → Option G)
    (R : G → State → Prop)
    (hskip : ∀ g I, isFetch I = true ∨ IsTrivialInst I = true → gstep g I = some g)
    (hclause : ∀ g s extra c, R g s → R g { s with MBB := s.MBB ++ extra, CfCount := c })
    (hstep : ∀ g g1 s s1 I, isFetch I = false → R g s → lowerInstr s I = .ok s1 →
      gstep g I = some g1 → R g1 s1) :
    ∀ (k : Nat) (l : List MachineInstr) (g g1 : G) (s s1 : State), l.length ≤ k → R g s →
      scanAll C s l = .ok s1 → ghostRun gstep g l = some g1 → R g1 s1 := by
  intro k
  induction k with
  | zero =>
    intro l g g1 s s1 hk hR hs hg
    have : l = [] := List.length_eq_zero.mp (by omega)
    subst this
    simp only [scanAll_nil, ghostRun] at hs hg
    cases hs; cases hg
    exact hR
  | succ k ih =>
    intro l g g1 s s1 hk hR hs hg
    cases l with
    | nil =>
      simp only [scanAll_nil, ghostRun] at hs hg
      cases hs; cases hg
      exact hR
    | cons I rest =>
      simp only [List.length_cons] at hk
      cases hI : isFetch I with
      | true =>
        rw [scanAll_cons_fetch C hC s I rest hI] at hs
        have happ := fetchClauseLoop_append C (I :: rest) 0
        have hpassed := fetchClauseLoop_passed C (I :: rest) 0
        have hlen := fetchClauseLoop_progress C I rest 0 hI hC
        rw [← happ, ghostRun_append_skip gstep hskip _ _ g hpassed] at hg
        refine ih _ g g1 _ s1 (by omega) ?_ hs hg
        rw [MakeFetchClause_fst]
        exact hclause g s _ _ hR
      | false =>
        rw [scanAll_cons_other C hC s I rest hI] at hs
        simp only [ghostRun] at hg
        cases hl : lowerInstr s I with
        | error e => rw [hl] at hs; cases hs
        | ok s2 =>
          rw [hl] at hs
          cases hgs : gstep g I with
          | none => rw [hgs] at hg; cases hg
          | some g2 =>
            rw [hgs] at hg
            exact ih rest g2 g1 s2 s1 (by omega) (hstep g g2 s s2 I hI hR hl hgs) hs hg

/-! ## Back-patching -/

theorem length_CounterPropagateAddrAt (B : List MachineInstr) (i a : Nat) :
    (CounterPropagateAddrAt B i a).length = B.length := by
  unfold CounterPropagateAddrAt
  split <;> simp

theorem getElem?_CounterPropagateAddrAt_ne (B : List MachineInstr) (i a k : Nat) (h : k ≠ i) :
    (CounterPropagateAddrAt B i a)[k]? = B[k]? := by
  unfold CounterPropagateAddrAt
  split
  · rw [List.getElem?_set]
    simp [Ne.symm h]
  · rfl

theorem getElem?_CounterPropagateAddrAt_self (B : List MachineInstr) (i a : Nat) :
    (CounterPropagateAddrAt B i a)[i]? = (B[i]?).map (fun x => CounterPropagateAddr x a) := by
  unfold CounterPropagateAddrAt
  split
  next x hx =>
    rw [List.getElem?_set]
    have hlt : i < B.length := by
      by_contra hc
      rw [List.getElem?_eq_none (by omega)] at hx
      cases hx
    simp [hlt, hx]
  next hx => simp [hx]

theorem length_CounterPropagateAddrSet (MIs : List Nat) (B : List MachineInstr) (a : Nat) :
    (CounterPropagateAddrSet B MIs a).length = B.length := by
  unfold CounterPropagateAddrSet
  induction MIs generalizing B with
  | nil => rfl
  | cons i rest ih =>
    simp only [List.foldl_cons]
    rw [ih, length_CounterPropagateAddrAt]

theorem getElem?_CounterPropagateAddrSet_not_mem (MIs : List Nat) (B : List MachineInstr)
    (a k : Nat) (h : k ∉ MIs) :
    (CounterPropagateAddrSet B MIs a)[k]? = B[k]? := by
  unfold CounterPropagateAddrSet
  induction MIs generalizing B with
  | nil => rfl
  | cons i rest ih =>
    simp only [List.foldl_cons]
    simp only [List.mem_cons, not_or] at h
    rw [ih _ h.2, getElem?_CounterPropagateAddrAt_ne B i a k h.1]

theorem getElem?_CounterPropagateAddrSet_mem (MIs : List Nat) (B : List MachineInstr)
    (a k : Nat) (h : k ∈ MIs) (hnd : MIs.Nodup) :
    (CounterPropagateAddrSet B MIs a)[k]? = (B[k]?).map (fun x => CounterPropagateAddr x a) := by
  induction MIs generalizing B with
  | nil => cases h
  | cons i rest ih =>
    have hcons : CounterPropagateAddrSet B (i :: rest) a =
        CounterPropagateAddrSet (CounterPropagateAddrAt B i a) rest a := rfl
    rw [hcons]
    rw [List.nodup_cons] at hnd
    simp only [List.mem_cons] at h
    rcases h with rfl | h
    · rw [getElem?_CounterPropagateAddrSet_not_mem rest _ a k hnd.1,
        getElem?_CounterPropagateAddrAt_self]
    · have hne : k ≠ i := fun hki => hnd.1 (hki ▸ h)
      rw [ih _ h hnd.2, getElem?_CounterPropagateAddrAt_ne B i a k hne]

/-! ## The shape of one lowering step -/

theorem owned_mk (B : List MachineInstr) (c : Nat) (L : List (Nat × List Nat)) (T : List Nat)
    (m x : Nat) : owned ⟨B, c, L, T, m, x⟩ = T ++ (L.map Prod.snd).flatten := rfl

theorem lowerInstr_cases (B : List MachineInstr) (c : Nat) (L : List (Nat × List Nat))
    (T : List Nat) (m x : Nat) (I : MachineInstr) (s1 : State)
    (h : lowerInstr ⟨B, c, L, T, m, x⟩ I = .ok s1) :
    (isStackMarker I = false ∧ ∃ c1 m1 x1, s1 = ⟨B ++ [I], c1, L, T, m1, x1⟩)
    ∨ (I.opcode = .WHILELOOP ∧
        s1 = ⟨B ++ [⟨.WHILE_LOOP, [2]⟩], c + 1, (c, [B.length]) :: L, T,
              max m (incr32 x), incr32 x⟩)
    ∨ (I.opcode = .ENDLOOP ∧ ∃ P LS, L = P :: LS ∧
        s1 = ⟨CounterPropagateAddrSet B P.2 c ++ [⟨.END_LOOP, [((P.1 + 1 : Nat) : Int)]⟩],
              c + 1, LS, T, m, decr32 x⟩)
    ∨ (I.opcode = .IF_PREDICATE_SET ∧
        s1 = ⟨B ++ [⟨.CF_JUMP, [0, 0]⟩], c + 1, L, B.length :: T, m, x⟩)
    ∨ (I.opcode = .ELSE ∧ ∃ J TS, T = J :: TS ∧
        s1 = ⟨CounterPropagateAddrAt B J c ++ [⟨.CF_ELSE, [0, 1]⟩], c + 1, L,
              B.length :: TS, m, x⟩)
    ∨ (I.opcode = .ENDIF ∧ ∃ J TS, T = J :: TS ∧
        s1 = ⟨CounterPropagateAddrAt B J c ++ [⟨.POP, [((c + 1 : Nat) : Int), 1]⟩], c + 1, L,
              TS, m, decr32 x⟩)
    ∨ (I.opcode = .PREDICATED_BREAK ∧ ∃ P LS, L = P :: LS ∧
        s1 = ⟨B ++ [⟨.CF_JUMP, [((c + 3 : Nat) : Int), 1]⟩, ⟨.LOOP_BREAK, [0]⟩,
                    ⟨.POP, [((c + 3 : Nat) : Int), 1]⟩],
              c + 3, (P.1, List.insert (B.length + 1) P.2) :: LS, T, m, decr32 x⟩)
    ∨ (I.opcode = .CONTINUE ∧ ∃ P LS, L = P :: LS ∧
        s1 = ⟨B ++ [⟨.CF_CONTINUE, [0]⟩], c + 1,
              (P.1, List.insert B.length P.2) :: LS, T, m, x⟩) := by
  unfold lowerInstr at h
  split at h
  · rename_i hop
    injection h with h
    exact Or.inl ⟨by simp [isStackMarker, hop], _, _, _, h.symm⟩
  · rename_i hop
    injection h with h
    exact Or.inl ⟨by simp [isStackMarker, hop], _, _, _, h.symm⟩
  · rename_i hop
    injection h with h
    exact Or.inr (Or.inl ⟨hop, by rw [← h]; simp⟩)
  · rename_i hop
    split at h
    · cases h
    · rename_i P LS hL
      injection h with h
      exact Or.inr (Or.inr (Or.inl ⟨hop, P, LS, hL, h.symm⟩))
  · rename_i hop
    injection h with h
    exact Or.inr (Or.inr (Or.inr (Or.inl ⟨hop, h.symm⟩)))
  · rename_i hop
    split at h
    · cases h
    · rename_i J TS hT
      injection h with h
      exact Or.inr (Or.inr (Or.inr (Or.inr (Or.inl ⟨hop, J, TS, hT, h.symm⟩))))
  · rename_i hop
    split at h
    · cases h
    · rename_i J TS hT
      injection h with h
      exact Or.inr (Or.inr (Or.inr (Or.inr (Or.inr (Or.inl ⟨hop, J, TS, hT, h.symm⟩)))))
  · rename_i hop
    split at h
    · cases h
    · rename_i P LS hL
      injection h with h
      exact Or.inr (Or.inr (Or.inr (Or.inr (Or.inr (Or.inr (Or.inl ⟨hop, P, LS, hL, h.symm⟩))))))
  · rename_i hop
    split at h
    · cases h
    · rename_i P LS hL
      injection h with h
      exact Or.inr (Or.inr (Or.inr (Or.inr (Or.inr (Or.inr (Or.inr ⟨hop, P, LS, hL, h.symm⟩))))))
  · rename_i h1 h2 h3 h4 h5 h6 h7 h8 h9
    injection h with h
    refine Or.inl ⟨?_, _, _, _, h.symm⟩
    unfold isStackMarker
    split <;> first | rfl | contradiction

/-! ## Pointers held by the stacks stay distinct and valid -/

theorem nodup_fresh_cons (j : Nat) (F : List Nat) (n : Nat) (hnd : F.Nodup)
    (hlt : ∀ k ∈ F, k < n) (hj : n ≤ j) : (j :: F).Nodup := by
  rw [List.nodup_cons]
  exact ⟨fun hm => by have := hlt j hm; omega, hnd⟩

theorem nodup_fresh_middle (j : Nat) (T F : List Nat) (n : Nat) (hnd : (T ++ F).Nodup)
    (hlt : ∀ k ∈ T ++ F, k < n) (hj : n ≤ j) : (T ++ j :: F).Nodup := by
  rw [List.nodup_middle, List.nodup_cons]
  exact ⟨fun hm => by have := hlt j hm; omega, hnd⟩

theorem insert_fresh (j : Nat) (P : List Nat) (n : Nat) (hlt : ∀ k ∈ P, k < n) (hj : n ≤ j) :
    List.insert j P = j :: P :=
  List.insert_of_not_mem (fun hm => by have := hlt j hm; omega)

theorem lowerInstr_Inv (s s1 : State) (I : MachineInstr) (h : lowerInstr s I = .ok s1)
    (hinv : Inv s) : Inv s1 := by
  obtain ⟨B, c, L, T, m, x⟩ := s
  obtain ⟨hnd, hlt⟩ := hinv
  simp only [owned_mk] at hnd hlt
  rcases lowerInstr_cases B c L T m x I s1 h with
    ⟨-, c1, m1, x1, rfl⟩ | ⟨-, rfl⟩ | ⟨-, P, LS, rfl, rfl⟩ | ⟨-, rfl⟩ | ⟨-, J, TS, rfl, rfl⟩ |
    ⟨-, J, TS, rfl, rfl⟩ | ⟨-, P, LS, rfl, rfl⟩ | ⟨-, P, LS, rfl, rfl⟩
  · refine ⟨hnd, fun k hk => ?_⟩
    have := hlt k hk
    simp only [List.length_append, List.length_singleton]
    omega
  · constructor
    · simp only [owned_mk, List.map_cons, List.flatten_cons, List.singleton_append]
      exact nodup_fresh_middle _ _ _ _ hnd hlt (le_refl _)
    · intro k hk
      simp only [owned_mk, List.map_cons, List.flatten_cons, List.singleton_append,
        List.mem_append, List.mem_cons] at hk
      simp only [List.length_append, List.length_singleton]
      rcases hk with hk | rfl | hk
      · have := hlt k (List.mem_append_left _ hk); omega
      · omega
      · have := hlt k (List.mem_append_right _ hk); omega
  · simp only [List.map_cons, List.flatten_cons] at hnd hlt
    constructor
    · simp only [owned_mk]
      exact hnd.sublist (List.Sublist.append_left (List.sublist_append_right _ _) _)
    · intro k hk
      simp only [owned_mk, List.mem_append] at hk
      simp only [List.length_append, length_CounterPropagateAddrSet, List.length_singleton]
      have := hlt k (by
        simp only [List.mem_append]
        rcases hk with hk | hk
        · exact Or.inl hk
        · exact Or.inr (Or.inr hk))
      omega
  · constructor
    · simp only [owned_mk, List.cons_append]
      exact nodup_fresh_cons _ _ _ hnd hlt (le_refl _)
    · intro k hk
      simp only [owned_mk, List.cons_append, List.mem_cons] at hk
      simp only [List.length_append, List.length_singleton]
      rcases hk with rfl | hk
      · omega
      · have := hlt k hk; omega
  · rw [List.cons_append, List.nodup_cons] at hnd
    have hlt2 : ∀ k ∈ TS ++ (L.map Prod.snd).flatten, k < B.length :=
      fun k hk => hlt k (by simp only [List.cons_append, List.mem_cons]; exact Or.inr hk)
    constructor
    · simp only [owned_mk, List.cons_append]
      exact nodup_fresh_cons _ _ _ hnd.2 hlt2 (le_refl _)
    · intro k hk
      simp only [owned_mk, List.cons_append, List.mem_cons] at hk
      simp only [List.length_append, length_CounterPropagateAddrAt, List.length_singleton]
      rcases hk with rfl | hk
      · omega
      · have := hlt2 k hk; omega
  · rw [List.cons_append, List.nodup_cons] at hnd
    have hlt2 : ∀ k ∈ TS ++ (L.map Prod.snd).flatten, k < B.length :=
      fun k hk => hlt k (by simp only [List.cons_append, List.mem_cons]; exact Or.inr hk)
    constructor
    · simp only [owned_mk]
      exact hnd.2
    · intro k hk
      simp only [owned_mk] at hk
      simp only [List.length_append, length_CounterPropagateAddrAt, List.length_singleton]
      have := hlt2 k hk; omega
  · simp only [List.map_cons, List.flatten_cons] at hnd hlt
    have hP : ∀ k ∈ P.2, k < B.length :=
      fun k hk => hlt k (List.mem_append_right _ (List.mem_append_left _ hk))
    constructor
    · simp only [owned_mk, List.map_cons, List.flatten_cons]
      rw [insert_fresh _ _ B.length hP (by omega), List.cons_append]
      exact nodup_fresh_middle _ _ _ _ hnd hlt (by omega)
    · intro k hk
      simp only [owned_mk, List.map_cons, List.flatten_cons] at hk
      rw [insert_fresh _ _ B.length hP (by omega), List.cons_append] at hk
      simp only [List.mem_append, List.mem_cons] at hk
      simp only [List.length_append, List.length_cons, List.length_nil]
      rcases hk with hk | rfl | hk | hk
      · have := hlt k (List.mem_append_left _ hk); omega
      · omega
      · have := hP k hk; omega
      · have := hlt k (List.mem_append_right _ (List.mem_append_right _ hk)); omega
  · simp only [List.map_cons, List.flatten_cons] at hnd hlt
    have hP : ∀ k ∈ P.2, k < B.length :=
      fun k hk => hlt k (List.mem_append_right _ (List.mem_append_left _ hk))
    constructor
    · simp only [owned_mk, List.map_cons, List.flatten_cons]
      rw [insert_fresh _ _ B.length hP (by omega), List.cons_append]
      exact nodup_fresh_middle _ _ _ _ hnd hlt (by omega)
    · intro k hk
      simp only [owned_mk, List.map_cons, List.flatten_cons] at hk
      rw [insert_fresh _ _ B.length hP (by omega), List.cons_append] at hk
      simp only [List.mem_append, List.mem_cons] at hk
      simp only [List.length_append, List.length_cons, List.length_nil]
      rcases hk with hk | rfl | hk | hk
      · have := hlt k (List.mem_append_left _ hk); omega
      · omega
      · have := hP k hk; omega
      · have := hlt k (List.mem_append_right _ (List.mem_append_right _ hk)); omega

/-! ## Blocks of contiguous fetch instructions -/

theorem isTrivial_of_isFetch (I : MachineInstr) (h : isFetch I = true) :
    IsTrivialInst I = false := by
  unfold isFetch at h
  unfold IsTrivialInst
  split at h <;> simp_all

theorem fetchClauseLoop_allFetch (C : Nat) (l : List MachineInstr) (n : Nat)
    (hl : ∀ I ∈ l, isFetch I = true) (hn : n ≤ C) :
    fetchClauseLoop C l n = (min (n + l.length) (C + 1), l.take (C - n), l.drop (C - n)) := by
  induction l generalizing n with
  | nil => simp [fetchClauseLoop]; omega
  | cons I rest ih =>
    have hI := hl I (by simp)
    have hrest : ∀ J ∈ rest, isFetch J = true := fun J hJ => hl J (by simp [hJ])
    unfold fetchClauseLoop
    rw [isTrivial_of_isFetch I hI, hI]
    by_cases hc : n + 1 > C
    · have : C - n = 0 := by omega
      simp [hc, this]
      omega
    · have h1 : C - n = (C - (n + 1)) + 1 := by omega
      simp only [Bool.false_eq_true, if_false, Bool.not_true, hc]
      rw [ih (n + 1) hrest (by omega), h1]
      simp only [List.take_succ_cons, List.drop_succ_cons, List.length_cons]
      congr 1
      omega

theorem ceil_step (N C : Nat) (hC : 0 < C) (hN : 0 < N) :
    (N + C - 1) / C = (N - C + C - 1) / C + 1 := by
  by_cases h : C ≤ N
  · have : N + C - 1 = (N - C + C - 1) + C := by omega
    rw [this, Nat.add_div_right _ hC]
  · have h1 : N - C + C - 1 = C - 1 := by omega
    rw [h1, Nat.div_eq_of_lt (by omega : C - 1 < C)]
    have h2 : N + C - 1 = (N - 1) + C := by omega
    rw [h2, Nat.add_div_right _ hC, Nat.div_eq_of_lt (by omega : N - 1 < C)]

theorem scanAll_allFetch (C : Nat) (hC : 0 < C) :
    ∀ (k : Nat) (l : List MachineInstr) (s : State), l.length ≤ k →
      (∀ I ∈ l, isFetch I = true) →
      ∃ s1, scanAll C s l = .ok s1
        ∧ s1.CfCount = s.CfCount + (l.length + C - 1) / C
        ∧ s1.MBB.length = s.MBB.length + l.length + (l.length + C - 1) / C
        ∧ (∀ j, j < s.MBB.length → s1.MBB[j]? = s.MBB[j]?)
        ∧ (s1.MBB.filter (fun MI => decide (MI.opcode = .CF_TC))).length
            = (s.MBB.filter (fun MI => decide (MI.opcode = .CF_TC))).length
              + (l.length + C - 1) / C
        ∧ (∀ q, q < (l.length + C - 1) / C →
            (∃ cnt : Nat, s1.MBB[s.MBB.length + q * (C + 1)]? = some ⟨.CF_TC, [0, (cnt : Int)]⟩)
            ∧ ∀ i, i < C → q * C + i < l.length →
                s1.MBB[s.MBB.length + q * (C + 1) + 1 + i]? = l[q * C + i]?) := by
  intro k
  induction k with
  | zero =>
    intro l s hk _
    have : l = [] := List.length_eq_zero.mp (by omega)
    subst this
    refine ⟨s, rfl, ?_, ?_, fun _ _ => rfl, ?_, ?_⟩
    · simp [Nat.div_eq_of_lt (by omega : C - 1 < C)]
    · simp [Nat.div_eq_of_lt (by omega : C - 1 < C)]
    · simp [Nat.div_eq_of_lt (by omega : C - 1 < C)]
    · intro q hq
      simp [Nat.div_eq_of_lt (by omega : C - 1 < C)] at hq
  | succ k ih =>
    intro l s hk hl
    cases l with
    | nil =>
      refine ⟨s, rfl, ?_, ?_, fun _ _ => rfl, ?_, ?_⟩
      · simp [Nat.div_eq_of_lt (by omega : C - 1 < C)]
      · simp [Nat.div_eq_of_lt (by omega : C - 1 < C)]
      · simp [Nat.div_eq_of_lt (by omega : C - 1 < C)]
      · intro q hq
        simp [Nat.div_eq_of_lt (by omega : C - 1 < C)] at hq
    | cons I rest =>
      have hI := hl I (by simp)
      rw [scanAll_cons_fetch C hC s I rest hI, MakeFetchClause_fst,
        fetchClauseLoop_allFetch C (I :: rest) 0 hl (Nat.zero_le _)]
      simp only [Nat.sub_zero]
      set l := I :: rest with hldef
      have hlen : 0 < l.length := by simp [hldef]
      have hdrop : (l.drop C).length ≤ k := by
        simp only [List.length_drop]
        simp only [hldef, List.length_cons] at hk ⊢
        omega
      have hdropF : ∀ J ∈ l.drop C, isFetch J = true :=
        fun J hJ => hl J (List.mem_of_mem_drop hJ)
      obtain ⟨s1, hs1, hcf, hlen1, hframe, hfilt, hpos⟩ := ih (l.drop C)
        { s with MBB := s.MBB ++ ⟨.CF_TC, [((0 : Nat) : Int), ((min (0 + l.length) (C + 1) : Nat) : Int)]⟩
                          :: l.take C,
                 CfCount := s.CfCount + 1 } hdrop hdropF
      have hceil := ceil_step l.length C hC hlen
      simp only [List.length_drop] at hcf hlen1 hfilt hpos
      simp only [List.length_append, List.length_cons, List.length_take] at hlen1 hframe hpos
      have hfetchNot : ∀ J ∈ l.take C, ¬ (J.opcode = .CF_TC) := by
        intro J hJ hop
        have := hl J (List.mem_of_mem_take hJ)
        simp [isFetch, hop] at this
      refine ⟨s1, hs1, ?_, ?_, ?_, ?_, ?_⟩
      · rw [hcf, hceil]; omega
      · rw [hlen1, hceil]; omega
      · intro j hj
        rw [hframe j (by omega), List.getElem?_append_left hj]
      · rw [hfilt, hceil]
        simp only [List.filter_append, List.length_append, List.filter_cons, decide_True,
          if_true, List.length_cons]
        have : (l.take C).filter (fun MI => decide (MI.opcode = .CF_TC)) = [] := by
          rw [List.filter_eq_nil_iff]
          intro J hJ
          simpa using hfetchNot J hJ
        rw [this]
        simp only [List.length_nil]
        omega
      · intro q hq
        rw [hceil] at hq
        cases q with
        | zero =>
          constructor
          · refine ⟨min (0 + l.length) (C + 1), ?_⟩
            rw [hframe _ (by omega)]
            simp only [Nat.zero_mul, Nat.add_zero]
            rw [List.getElem?_append_right (le_refl _), Nat.sub_self, List.getElem?_cons_zero]
            simp
          · intro i hi hil
            rw [hframe _ (by omega)]
            simp only [Nat.zero_mul, Nat.add_zero, Nat.zero_add]
            rw [List.getElem?_append_right (by omega)]
            have : s.MBB.length + 1 + i - s.MBB.length = i + 1 := by omega
            rw [this, List.getElem?_cons_succ, List.getElem?_take_of_lt hi]
        | succ q =>
          have hq1 : q < (l.length - C + C - 1) / C := by omega
          have hNC : C < l.length := by
            by_contra hc
            have h0 : l.length - C + C - 1 = C - 1 := by omega
            rw [h0, Nat.div_eq_of_lt (by omega : C - 1 < C)] at hq1
            omega
          obtain ⟨⟨cnt, hh⟩, hf⟩ := hpos q hq1
          have hmin : min C l.length = C := by omega
          rw [hmin] at hh hf
          have e1 : (q + 1) * (C + 1) = q * (C + 1) + (C + 1) := Nat.succ_mul _ _
          have e2 : (q + 1) * C = q * C + C := Nat.succ_mul _ _
          constructor
          · refine ⟨cnt, ?_⟩
            rw [← hh]
            congr 1
            omega
          · intro i hi hil
            have := hf i hi (by omega)
            rw [List.getElem?_drop] at this
            rw [e1, e2]
            have e3 : s.MBB.length + (q * (C + 1) + (C + 1)) + 1 + i =
                s.MBB.length + (C + 1) + q * (C + 1) + 1 + i := by omega
            have e4 : q * C + C + i = C + (q * C + i) := by omega
            rw [e3, e4]
            exact this

/-! ## The stack counters -/

theorem lowerInstr_counters (s s1 : State) (I : MachineInstr) (h : lowerInstr s I = .ok s1) :
    (s1.MaxStack, s1.CurrentStack) = stackStep (s.MaxStack, s.CurrentStack) I := by
  unfold lowerInstr at h
  split at h
  · rename_i hop; injection h with h; subst h; simp [stackStep, opensStack, hop]
  · rename_i hop; injection h with h; subst h; simp [stackStep, opensStack, closesStack, hop]
  · rename_i hop; injection h with h; subst h; simp [stackStep, opensStack, hop]
  · rename_i hop
    split at h
    · cases h
    · injection h with h; subst h; simp [stackStep, opensStack, closesStack, hop]
  · rename_i hop; injection h with h; subst h; simp [stackStep, opensStack, closesStack, hop]
  · rename_i hop
    split at h
    · cases h
    · injection h with h; subst h; simp [stackStep, opensStack, closesStack, hop]
  · rename_i hop
    split at h
    · cases h
    · injection h with h; subst h; simp [stackStep, opensStack, closesStack, hop]
  · rename_i hop
    split at h
    · cases h
    · injection h with h; subst h; simp [stackStep, opensStack, closesStack, hop]
  · rename_i hop
    split at h
    · cases h
    · injection h with h; subst h; simp [stackStep, opensStack, closesStack, hop]
  · rename_i h1 h2 h3 h4 h5 h6 h7 h8 h9
    injection h with h; subst h
    have ho : opensStack I = false := by
      unfold opensStack; split <;> first | rfl | contradiction
    have hc : closesStack I = false := by
      unfold closesStack; split <;> first | rfl | contradiction
    simp [stackStep, ho, hc]

theorem stackStep_skip (g : Nat × Nat) (I : MachineInstr)
    (h : isFetch I = true ∨ IsTrivialInst I = true) : stackStep g I = g := by
  have ho : opensStack I = false := by
    unfold opensStack
    rcases h with h | h
    · unfold isFetch at h; split at h <;> simp_all
    · unfold IsTrivialInst at h; split at h <;> simp_all
  have hc : closesStack I = false := by
    unfold closesStack
    rcases h with h | h
    · unfold isFetch at h; split at h <;> simp_all
    · unfold IsTrivialInst at h; split at h <;> simp_all
  simp [stackStep, ho, hc]

/-- The counters at the end of a scan are the fold of `stackStep` over the block. -/
theorem scanAll_counters (C : Nat) (hC : 0 < C) (l : List MachineInstr) (s s1 : State)
    (h : scanAll C s l = .ok s1) :
    (s1.MaxStack, s1.CurrentStack) = l.foldl stackStep (s.MaxStack, s.CurrentStack) := by
  have key := scanAll_ghost C hC (fun g I => some (stackStep g I))
    (fun g s => (s.MaxStack, s.CurrentStack) = g)
    (fun g I hI => by show some (stackStep g I) = some g; rw [stackStep_skip g I hI])
    (fun g s extra c hR => hR)
    (fun g g1 s s1 I _ hR hl hg => by
      injection hg with hg
      rw [← hg, ← hR]
      exact lowerInstr_counters s s1 I hl)
  have hrun : ∀ (l : List MachineInstr) (g : Nat × Nat),
      ghostRun (fun g I => some (stackStep g I)) g l = some (l.foldl stackStep g) := by
    intro l
    induction l with
    | nil => intro g; rfl
    | cons I rest ih => intro g; simp only [ghostRun, List.foldl_cons]; exact ih _
  exact key l.length l (s.MaxStack, s.CurrentStack) _ s s1 (le_refl _) rfl h (hrun l _)

theorem foldl_stackStep_max_le (l : List MachineInstr) (g : Nat × Nat) :
    g.1 ≤ (l.foldl stackStep g).1 := by
  induction l generalizing g with
  | nil => exact le_refl _
  | cons I rest ih =>
    simp only [List.foldl_cons]
    refine le_trans ?_ (ih _)
    unfold stackStep
    split_ifs <;> simp

theorem closesStack_of_opensStack (I : MachineInstr) (h : opensStack I = true) :
    closesStack I = false := by
  unfold opensStack at h
  unfold closesStack
  split at h <;> simp_all

theorem stackStep_exact (g : Nat × Nat) (I : MachineInstr) (hg : g.2 ≤ g.1)
    (h1 : closesStack I = true → 0 < g.2) (h2 : g.2 + 1 < 2 ^ 32) :
    (stackStep g I).2 + (if closesStack I = true then 1 else 0)
        = g.2 + (if opensStack I = true then 1 else 0)
      ∧ (stackStep g I).2 ≤ (stackStep g I).1 := by
  cases ho : opensStack I with
  | true =>
    have hc := closesStack_of_opensStack I ho
    have e : (g.2 + 1) % 2 ^ 32 = g.2 + 1 := Nat.mod_eq_of_lt h2
    simp only [stackStep, ho, hc, incr32, e, if_true, Bool.false_eq_true, if_false]
    exact ⟨by simp, by simp⟩
  | false =>
    cases hc : closesStack I with
    | true =>
      have hpos := h1 hc
      have e : (g.2 + (2 ^ 32 - 1)) % 2 ^ 32 = g.2 - 1 := by
        have e1 : g.2 + (2 ^ 32 - 1) = (g.2 - 1) + 2 ^ 32 := by omega
        rw [e1, Nat.add_mod_right]
        exact Nat.mod_eq_of_lt (by omega)
      simp only [stackStep, ho, hc, decr32, e, Bool.false_eq_true, if_false, if_true]
      constructor <;> omega
    | false => simp [stackStep, ho, hc, hg]

/-- Without a decrement at zero the counters are exact and below the high-water mark. -/
theorem foldl_stackStep_exact (l : List MachineInstr) (g : Nat × Nat) (hg : g.2 ≤ g.1)
    (hunder : ∀ p q, l = p ++ q → stackCloses p ≤ g.2 + stackOpens p)
    (hover : g.2 + l.length < 2 ^ 32) :
    (l.foldl stackStep g).2 + stackCloses l = g.2 + stackOpens l
      ∧ (l.foldl stackStep g).2 ≤ (l.foldl stackStep g).1 := by
  induction l generalizing g with
  | nil => simp [stackCloses, stackOpens, hg]
  | cons I rest ih =>
    simp only [List.foldl_cons]
    have h1 := hunder [I] rest rfl
    simp only [stackCloses, stackOpens, List.countP_cons, List.countP_nil, Nat.zero_add,
      List.length_cons] at h1 hover ⊢
    have hstep := stackStep_exact g I hg (fun hc => by
      have ho : opensStack I = false := by
        cases ho : opensStack I with
        | false => rfl
        | true => rw [closesStack_of_opensStack I ho] at hc; cases hc
      simp only [hc, ho, if_true, Bool.false_eq_true, if_false] at h1
      omega) (by omega)
    have hle : (stackStep g I).2 ≤ g.2 + 1 := by
      have := hstep.1
      split_ifs at this <;> omega
    have hih := ih (stackStep g I) hstep.2
      (fun p q hpq => by
        have := hunder (I :: p) q (by rw [hpq]; rfl)
        have h3 := hstep.1
        simp only [stackCloses, stackOpens, List.countP_cons] at this ⊢
        omega)
      (by omega)
    simp only [stackCloses, stackOpens] at hih
    have h3 := hstep.1
    constructor
    · omega
    · exact hih.2

theorem stackStep_mod (g : Nat × Nat) (I : MachineInstr) :
    ((stackStep g I).2 + (if closesStack I = true then 1 else 0)) % 2 ^ 32
      = (g.2 + (if opensStack I = true then 1 else 0)) % 2 ^ 32 := by
  cases ho : opensStack I with
  | true =>
    have hc := closesStack_of_opensStack I ho
    simp [stackStep, ho, hc, incr32]
  | false =>
    cases hc : closesStack I with
    | true =>
      simp only [stackStep, ho, hc, decr32, Bool.false_eq_true, if_false, if_true]
      omega
    | false => simp [stackStep, ho, hc]

/-- The counter modulo `2 ^ 32`, whatever the block. -/
theorem foldl_stackStep_mod (l : List MachineInstr) (g : Nat × Nat) :
    ((l.foldl stackStep g).2 + stackCloses l) % 2 ^ 32 = (g.2 + stackOpens l) % 2 ^ 32 := by
  induction l generalizing g with
  | nil => simp [stackCloses, stackOpens]
  | cons I rest ih =>
    simp only [List.foldl_cons]
    have hih := ih (stackStep g I)
    have hstep := stackStep_mod g I
    simp only [stackCloses, stackOpens, List.countP_cons] at hih ⊢
    omega

theorem foldl_stackStep_lt (l : List MachineInstr) (g : Nat × Nat) (hg : g.2 < 2 ^ 32) :
    (l.foldl stackStep g).2 < 2 ^ 32 := by
  induction l generalizing g with
  | nil => exact hg
  | cons I rest ih =>
    simp only [List.foldl_cons]
    apply ih
    unfold stackStep
    split_ifs
    · exact Nat.mod_lt _ (by norm_num)
    · exact Nat.mod_lt _ (by norm_num)
    · exact hg

/-- One step of the counters when `CurrentStack` wraps in neither direction. -/
theorem stackStep_inRange (g : Nat × Nat) (I : MachineInstr) (hg : g.2 ≤ g.1)
    (h0 : g.2 < 2 ^ 32) (h1 : closesStack I = true → 0 < g.2)
    (h2 : opensStack I = true → g.2 + 1 < 2 ^ 32) :
    (stackStep g I).2 + (if closesStack I = true then 1 else 0)
        = g.2 + (if opensStack I = true then 1 else 0)
      ∧ (stackStep g I).2 ≤ (stackStep g I).1 := by
  by_cases hot : opensStack I = true
  · exact stackStep_exact g I hg h1 (h2 hot)
  · have ho : opensStack I = false := by simpa using hot
    cases hc : closesStack I with
    | true =>
      have hpos := h1 hc
      have e : (g.2 + (2 ^ 32 - 1)) % 2 ^ 32 = g.2 - 1 := by
        have e1 : g.2 + (2 ^ 32 - 1) = (g.2 - 1) + 2 ^ 32 := by omega
        rw [e1, Nat.add_mod_right]
        exact Nat.mod_eq_of_lt (by omega)
      simp only [stackStep, ho, hc, decr32, e, Bool.false_eq_true, if_false, if_true]
      constructor <;> omega
    | false => simp [stackStep, ho, hc, hg]

/-- While `CurrentStack` wraps in neither direction the counters are exact and below the
high-water mark. -/
theorem foldl_stackStep_inRange (l : List MachineInstr) (g : Nat × Nat) (hg : g.2 ≤ g.1)
    (hrange : ∀ p q, l = p ++ q →
      stackCloses p ≤ g.2 + stackOpens p ∧ g.2 + stackOpens p < 2 ^ 32 + stackCloses p) :
    (l.foldl stackStep g).2 + stackCloses l = g.2 + stackOpens l
      ∧ (l.foldl stackStep g).2 ≤ (l.foldl stackStep g).1 := by
  induction l generalizing g with
  | nil => simp [stackCloses, stackOpens, hg]
  | cons I rest ih =>
    simp only [List.foldl_cons]
    have h0 := hrange [] (I :: rest) rfl
    have h1 := hrange [I] rest rfl
    simp only [stackCloses, stackOpens, List.countP_cons, List.countP_nil, Nat.zero_add,
      Nat.add_zero] at h0 h1 ⊢
    have hoc : opensStack I = true → closesStack I = false := closesStack_of_opensStack I
    have hstep := stackStep_inRange g I hg (by omega)
      (fun hc => by
        have ho : opensStack I = false := by
          cases ho : opensStack I with
          | false => rfl
          | true => rw [hoc ho] at hc; cases hc
        simp only [hc, ho, if_true, Bool.false_eq_true, if_false] at h1
        omega)
      (fun ho => by
        simp only [ho, hoc ho, if_true, Bool.false_eq_true, if_false] at h1
        omega)
    have hih := ih (stackStep g I) hstep.2
      (fun p q hpq => by
        have := hrange (I :: p) q (by rw [hpq]; rfl)
        have h3 := hstep.1
        simp only [stackCloses, stackOpens, List.countP_cons] at this ⊢
        omega)
    simp only [stackCloses, stackOpens] at hih
    have h3 := hstep.1
    constructor
    · omega
    · exact hih.2

/-! ## Consequences of distinct pointers -/

theorem getElem?_append_of_some {α : Type} (B extra : List α) (k : Nat) (v : α)
    (h : B[k]? = some v) : (B ++ extra)[k]? = some v := by
  have hlt : k < B.length := by
    by_contra hc
    rw [List.getElem?_eq_none (by omega)] at h
    cases h
  rw [List.getElem?_append_left hlt, h]

theorem lt_of_getElem?_some {α : Type} (B : List α) (k : Nat) (v : α)
    (h : B[k]? = some v) : k < B.length := by
  by_contra hc
  rw [List.getElem?_eq_none (by omega)] at h
  cases h

theorem not_mem_head_set (T : List Nat) (P : Nat × List Nat) (LS : List (Nat × List Nat))
    (hnd : (T ++ ((P :: LS).map Prod.snd).flatten).Nodup) (k : Nat)
    (hk : k ∈ T ∨ ∃ e ∈ LS, k ∈ e.2) : k ∉ P.2 := by
  simp only [List.map_cons, List.flatten_cons] at hnd
  intro hP
  rcases hk with hk | ⟨e, he, hke⟩
  · exact (List.nodup_append.mp hnd).2.2 hk (List.mem_append_left _ hP)
  · have h2 := (List.nodup_append.mp hnd).2.1
    refine (List.nodup_append.mp h2).2.2 hP ?_
    rw [List.mem_flatten]
    exact ⟨e.2, List.mem_map.mpr ⟨e, he, rfl⟩, hke⟩

theorem ne_head_pointer (J : Nat) (TS : List Nat) (L : List (Nat × List Nat))
    (hnd : ((J :: TS) ++ (L.map Prod.snd).flatten).Nodup) (k : Nat)
    (hk : k ∈ TS ∨ ∃ e ∈ L, k ∈ e.2) : k ≠ J := by
  rw [List.cons_append, List.nodup_cons] at hnd
  rintro rfl
  apply hnd.1
  rcases hk with hk | ⟨e, he, hke⟩
  · exact List.mem_append_left _ hk
  · refine List.mem_append_right _ ?_
    rw [List.mem_flatten]
    exact ⟨e.2, List.mem_map.mpr ⟨e, he, rfl⟩, hke⟩

/-! ## An if/else stack entry below the entries of a balanced list is kept -/

theorem ifDepthStep_plain (d : Nat) (I : MachineInstr) (h : isStackMarker I = false) :
    ifDepthStep d I = some d := by
  unfold isStackMarker at h
  unfold ifDepthStep
  split at h <;> simp_all

theorem lowerInstr_ifFrame (j : Nat) (S : List Nat) (v : MachineInstr) (d d1 : Nat)
    (s s1 : State) (I : MachineInstr)
    (hR : Inv s ∧ s.IfThenElseStack.drop d = j :: S ∧ s.MBB[j]? = some v)
    (h : lowerInstr s I = .ok s1) (hg : ifDepthStep d I = some d1) :
    Inv s1 ∧ s1.IfThenElseStack.drop d1 = j :: S ∧ s1.MBB[j]? = some v := by
  refine ⟨lowerInstr_Inv s s1 I h hR.1, ?_⟩
  obtain ⟨⟨hnd, -⟩, hdrop, hv⟩ := hR
  obtain ⟨B, c, L, T, m, x⟩ := s
  simp only [owned_mk] at hnd
  simp only at hdrop hv
  have hjT : j ∈ T := List.mem_of_mem_drop (by rw [hdrop]; simp)
  rcases lowerInstr_cases B c L T m x I s1 h with
    ⟨hop, c1, m1, x1, rfl⟩ | ⟨hop, rfl⟩ | ⟨hop, P, LS, rfl, rfl⟩ | ⟨hop, rfl⟩ |
    ⟨hop, J, TS, rfl, rfl⟩ | ⟨hop, J, TS, rfl, rfl⟩ | ⟨hop, P, LS, rfl, rfl⟩ |
    ⟨hop, P, LS, rfl, rfl⟩
  · rw [ifDepthStep_plain d I hop] at hg
    injection hg with hg; subst hg
    exact ⟨hdrop, getElem?_append_of_some _ _ _ _ hv⟩
  · simp only [ifDepthStep, hop] at hg
    injection hg with hg; subst hg
    exact ⟨hdrop, getElem?_append_of_some _ _ _ _ hv⟩
  · simp only [ifDepthStep, hop] at hg
    injection hg with hg; subst hg
    refine ⟨hdrop, getElem?_append_of_some _ _ _ _ ?_⟩
    rw [getElem?_CounterPropagateAddrSet_not_mem _ _ _ _
      (not_mem_head_set T P LS hnd j (Or.inl hjT))]
    exact hv
  · simp only [ifDepthStep, hop] at hg
    injection hg with hg; subst hg
    exact ⟨by simpa using hdrop, getElem?_append_of_some _ _ _ _ hv⟩
  · simp only [ifDepthStep, hop] at hg
    split_ifs at hg with hd
    injection hg with hg; subst hg
    obtain ⟨d0, rfl⟩ := Nat.exists_eq_succ_of_ne_zero hd
    simp only [List.drop_succ_cons] at hdrop ⊢
    have hjTS : j ∈ TS := List.mem_of_mem_drop (by rw [hdrop]; simp)
    refine ⟨hdrop, getElem?_append_of_some _ _ _ _ ?_⟩
    rw [getElem?_CounterPropagateAddrAt_ne _ _ _ _ (ne_head_pointer J TS L hnd j (Or.inl hjTS))]
    exact hv
  · simp only [ifDepthStep, hop] at hg
    split_ifs at hg with hd
    injection hg with hg; subst hg
    obtain ⟨d0, rfl⟩ := Nat.exists_eq_succ_of_ne_zero hd
    simp only [List.drop_succ_cons, Nat.add_sub_cancel] at hdrop ⊢
    have hjTS : j ∈ TS := List.mem_of_mem_drop (by rw [hdrop]; simp)
    refine ⟨hdrop, getElem?_append_of_some _ _ _ _ ?_⟩
    rw [getElem?_CounterPropagateAddrAt_ne _ _ _ _ (ne_head_pointer J TS L hnd j (Or.inl hjTS))]
    exact hv
  · simp only [ifDepthStep, hop] at hg
    injection hg with hg; subst hg
    exact ⟨hdrop, getElem?_append_of_some _ _ _ _ hv⟩
  · simp only [ifDepthStep, hop] at hg
    injection hg with hg; subst hg
    exact ⟨hdrop, getElem?_append_of_some _ _ _ _ hv⟩

theorem isStackMarker_of_skip (I : MachineInstr)
    (h : isFetch I = true ∨ IsTrivialInst I = true) : isStackMarker I = false := by
  unfold isStackMarker
  rcases h with h | h
  · unfold isFetch at h; split at h <;> simp_all
  · unfold IsTrivialInst at h; split at h <;> simp_all

/-! ## A member of the patch set of a loop below the loops of a balanced list is kept -/

theorem loopDepthStep_plain (d : Nat) (I : MachineInstr) (h : isStackMarker I = false) :
    loopDepthStep d I = some d := by
  unfold isStackMarker at h
  unfold loopDepthStep
  split at h <;> simp_all

theorem lowerInstr_loopFrame (c0 k : Nat) (v : MachineInstr) (d d1 : Nat)
    (s s1 : State) (I : MachineInstr)
    (hR : Inv s ∧ (∃ e, s.LoopStack[d]? = some e ∧ e.1 = c0 ∧ k ∈ e.2) ∧ s.MBB[k]? = some v)
    (h : lowerInstr s I = .ok s1) (hg : loopDepthStep d I = some d1) :
    Inv s1 ∧ (∃ e, s1.LoopStack[d1]? = some e ∧ e.1 = c0 ∧ k ∈ e.2) ∧ s1.MBB[k]? = some v := by
  refine ⟨lowerInstr_Inv s s1 I h hR.1, ?_⟩
  obtain ⟨⟨hnd, -⟩, ⟨e, he, hc0, hke⟩, hv⟩ := hR
  obtain ⟨B, c, L, T, m, x⟩ := s
  simp only [owned_mk] at hnd
  simp only at he hv
  have heL : e ∈ L := List.getElem?_mem he
  rcases lowerInstr_cases B c L T m x I s1 h with
    ⟨hop, c1, m1, x1, rfl⟩ | ⟨hop, rfl⟩ | ⟨hop, P, LS, rfl, rfl⟩ | ⟨hop, rfl⟩ |
    ⟨hop, J, TS, rfl, rfl⟩ | ⟨hop, J, TS, rfl, rfl⟩ | ⟨hop, P, LS, rfl, rfl⟩ |
    ⟨hop, P, LS, rfl, rfl⟩
  · rw [loopDepthStep_plain d I hop] at hg
    injection hg with hg; subst hg
    exact ⟨⟨e, he, hc0, hke⟩, getElem?_append_of_some _ _ _ _ hv⟩
  · simp only [loopDepthStep, hop] at hg
    injection hg with hg; subst hg
    exact ⟨⟨e, by simpa using he, hc0, hke⟩, getElem?_append_of_some _ _ _ _ hv⟩
  · simp only [loopDepthStep, hop] at hg
    split_ifs at hg with hd
    injection hg with hg; subst hg
    obtain ⟨d0, rfl⟩ := Nat.exists_eq_succ_of_ne_zero hd
    simp only [List.getElem?_cons_succ] at he
    simp only [Nat.add_sub_cancel]
    refine ⟨⟨e, he, hc0, hke⟩, getElem?_append_of_some _ _ _ _ ?_⟩
    rw [getElem?_CounterPropagateAddrSet_not_mem _ _ _ _
      (not_mem_head_set T P LS hnd k (Or.inr ⟨e, List.getElem?_mem he, hke⟩))]
    exact hv
  · simp only [loopDepthStep, hop] at hg
    injection hg with hg; subst hg
    exact ⟨⟨e, he, hc0, hke⟩, getElem?_append_of_some _ _ _ _ hv⟩
  · simp only [loopDepthStep, hop] at hg
    injection hg with hg; subst hg
    refine ⟨⟨e, he, hc0, hke⟩, getElem?_append_of_some _ _ _ _ ?_⟩
    rw [getElem?_CounterPropagateAddrAt_ne _ _ _ _
      (ne_head_pointer J TS L hnd k (Or.inr ⟨e, heL, hke⟩))]
    exact hv
  · simp only [loopDepthStep, hop] at hg
    injection hg with hg; subst hg
    refine ⟨⟨e, he, hc0, hke⟩, getElem?_append_of_some _ _ _ _ ?_⟩
    rw [getElem?_CounterPropagateAddrAt_ne _ _ _ _
      (ne_head_pointer J TS L hnd k (Or.inr ⟨e, heL, hke⟩))]
    exact hv
  · simp only [loopDepthStep, hop] at hg
    injection hg with hg; subst hg
    refine ⟨?_, getElem?_append_of_some _ _ _ _ hv⟩
    cases d with
    | zero =>
      simp only [List.getElem?_cons_zero] at he
      injection he with he; subst he
      exact ⟨_, List.getElem?_cons_zero, hc0, List.mem_insert_of_mem hke⟩
    | succ d0 => exact ⟨e, by simpa using he, hc0, hke⟩
  · simp only [loopDepthStep, hop] at hg
    injection hg with hg; subst hg
    refine ⟨?_, getElem?_append_of_some _ _ _ _ hv⟩
    cases d with
    | zero =>
      simp only [List.getElem?_cons_zero] at he
      injection he with he; subst he
      exact ⟨_, List.getElem?_cons_zero, hc0, List.mem_insert_of_mem hke⟩
    | succ d0 => exact ⟨e, by simpa using he, hc0, hke⟩

/-! ## An instruction no stack entry points to is final -/

theorem lowerInstr_unowned (k : Nat) (v : MachineInstr) (s s1 : State) (I : MachineInstr)
    (hR : Inv s ∧ k ∉ owned s ∧ s.MBB[k]? = some v)
    (h : lowerInstr s I = .ok s1) :
    Inv s1 ∧ k ∉ owned s1 ∧ s1.MBB[k]? = some v := by
  refine ⟨lowerInstr_Inv s s1 I h hR.1, ?_⟩
  obtain ⟨⟨hnd, -⟩, hk, hv⟩ := hR
  obtain ⟨B, c, L, T, m, x⟩ := s
  simp only [owned_mk] at hnd hk
  simp only at hv
  have hlt : k < B.length := lt_of_getElem?_some B k v hv
  rcases lowerInstr_cases B c L T m x I s1 h with
    ⟨hop, c1, m1, x1, rfl⟩ | ⟨hop, rfl⟩ | ⟨hop, P, LS, rfl, rfl⟩ | ⟨hop, rfl⟩ |
    ⟨hop, J, TS, rfl, rfl⟩ | ⟨hop, J, TS, rfl, rfl⟩ | ⟨hop, P, LS, rfl, rfl⟩ |
    ⟨hop, P, LS, rfl, rfl⟩
  · exact ⟨hk, getElem?_append_of_some _ _ _ _ hv⟩
  · refine ⟨?_, getElem?_append_of_some _ _ _ _ hv⟩
    simp only [owned_mk, List.map_cons, List.flatten_cons, List.singleton_append,
      List.mem_append, List.mem_cons, not_or] at hk ⊢
    exact ⟨hk.1, by omega, hk.2⟩
  · simp only [List.map_cons, List.flatten_cons, List.mem_append, not_or] at hk
    refine ⟨?_, getElem?_append_of_some _ _ _ _ ?_⟩
    · simp only [owned_mk, List.mem_append, not_or]
      exact ⟨hk.1, hk.2.2⟩
    · rw [getElem?_CounterPropagateAddrSet_not_mem _ _ _ _ hk.2.1]
      exact hv
  · refine ⟨?_, getElem?_append_of_some _ _ _ _ hv⟩
    simp only [owned_mk, List.cons_append, List.mem_cons, not_or]
    exact ⟨by omega, hk⟩
  · simp only [List.cons_append, List.mem_cons, not_or] at hk
    refine ⟨?_, getElem?_append_of_some _ _ _ _ ?_⟩
    · simp only [owned_mk, List.cons_append, List.mem_cons, not_or]
      exact ⟨by omega, hk.2⟩
    · rw [getElem?_CounterPropagateAddrAt_ne _ _ _ _ hk.1]
      exact hv
  · simp only [List.cons_append, List.mem_cons, not_or] at hk
    refine ⟨?_, getElem?_append_of_some _ _ _ _ ?_⟩
    · simp only [owned_mk]
      exact hk.2
    · rw [getElem?_CounterPropagateAddrAt_ne _ _ _ _ hk.1]
      exact hv
  · refine ⟨?_, getElem?_append_of_some _ _ _ _ hv⟩
    simp only [owned_mk, List.map_cons, List.flatten_cons, List.mem_append,
      List.mem_insert_iff, not_or] at hk ⊢
    exact ⟨hk.1, ⟨by omega, hk.2.1⟩, hk.2.2⟩
  · refine ⟨?_, getElem?_append_of_some _ _ _ _ hv⟩
    simp only [owned_mk, List.map_cons, List.flatten_cons, List.mem_append,
      List.mem_insert_iff, not_or] at hk ⊢
    exact ⟨hk.1, ⟨by omega, hk.2.1⟩, hk.2.2⟩

/-! ## The frames along a scan -/

theorem Inv_clause (s : State) (extra : List MachineInstr) (c : Nat) (h : Inv s) :
    Inv { s with MBB := s.MBB ++ extra, CfCount := c } := by
  refine ⟨h.1, fun k hk => ?_⟩
  have := h.2 k hk
  simp only [List.length_append]
  omega

theorem ghostRun_unit (l : List MachineInstr) :
    ghostRun (fun (_ : Unit) (_ : MachineInstr) => some ()) () l = some () := by
  induction l with
  | nil => rfl
  | cons I rest ih => simpa [ghostRun] using ih

theorem scanAll_Inv (C : Nat) (hC : 0 < C) (l : List MachineInstr) (s s1 : State)
    (hR : Inv s) (h : scanAll C s l = .ok s1) : Inv s1 :=
  scanAll_ghost C hC (fun (_ : Unit) (_ : MachineInstr) => some ()) (fun _ s => Inv s)
    (fun _ _ _ => rfl) (fun _ s extra c hs => Inv_clause s extra c hs)
    (fun _ _ s s1 I _ hs hl _ => lowerInstr_Inv s s1 I hl hs)
    l.length l () () s s1 (le_refl _) hR h (ghostRun_unit l)

theorem scanAll_unowned (C : Nat) (hC : 0 < C) (k : Nat) (v : MachineInstr)
    (l : List MachineInstr) (s s1 : State)
    (hR : Inv s ∧ k ∉ owned s ∧ s.MBB[k]? = some v) (h : scanAll C s l = .ok s1) :
    Inv s1 ∧ k ∉ owned s1 ∧ s1.MBB[k]? = some v :=
  scanAll_ghost C hC (fun (_ : Unit) (_ : MachineInstr) => some ())
    (fun _ s => Inv s ∧ k ∉ owned s ∧ s.MBB[k]? = some v)
    (fun _ _ _ => rfl)
    (fun _ s extra c hs =>
      ⟨Inv_clause s extra c hs.1, hs.2.1, getElem?_append_of_some _ _ _ _ hs.2.2⟩)
    (fun _ _ s s1 I _ hs hl _ => lowerInstr_unowned k v s s1 I hs hl)
    l.length l () () s s1 (le_refl _) hR h (ghostRun_unit l)

theorem scanAll_ifFrame (C : Nat) (hC : 0 < C) (j : Nat) (S : List Nat) (v : MachineInstr)
    (l : List MachineInstr) (d d1 : Nat) (s s1 : State)
    (hR : Inv s ∧ s.IfThenElseStack.drop d = j :: S ∧ s.MBB[j]? = some v)
    (h : scanAll C s l = .ok s1) (hg : ghostRun ifDepthStep d l = some d1) :
    Inv s1 ∧ s1.IfThenElseStack.drop d1 = j :: S ∧ s1.MBB[j]? = some v :=
  scanAll_ghost C hC ifDepthStep
    (fun d s => Inv s ∧ s.IfThenElseStack.drop d = j :: S ∧ s.MBB[j]? = some v)
    (fun d I hI => ifDepthStep_plain d I (isStackMarker_of_skip I hI))
    (fun _ s extra c hs =>
      ⟨Inv_clause s extra c hs.1, hs.2.1, getElem?_append_of_some _ _ _ _ hs.2.2⟩)
    (fun d d1 s s1 I _ hs hl hg => lowerInstr_ifFrame j S v d d1 s s1 I hs hl hg)
    l.length l d d1 s s1 (le_refl _) hR h hg

theorem scanAll_loopFrame (C : Nat) (hC : 0 < C) (c0 k : Nat) (v : MachineInstr)
    (l : List MachineInstr) (d d1 : Nat) (s s1 : State)
    (hR : Inv s ∧ (∃ e, s.LoopStack[d]? = some e ∧ e.1 = c0 ∧ k ∈ e.2) ∧ s.MBB[k]? = some v)
    (h : scanAll C s l = .ok s1) (hg : ghostRun loopDepthStep d l = some d1) :
    Inv s1 ∧ (∃ e, s1.LoopStack[d1]? = some e ∧ e.1 = c0 ∧ k ∈ e.2) ∧ s1.MBB[k]? = some v :=
  scanAll_ghost C hC loopDepthStep
    (fun d s => Inv s ∧ (∃ e, s.LoopStack[d]? = some e ∧ e.1 = c0 ∧ k ∈ e.2)
      ∧ s.MBB[k]? = some v)
    (fun d I hI => loopDepthStep_plain d I (isStackMarker_of_skip I hI))
    (fun _ s extra c hs =>
      ⟨Inv_clause s extra c hs.1, hs.2.1, getElem?_append_of_some _ _ _ _ hs.2.2⟩)
    (fun d d1 s s1 I _ hs hl hg => lowerInstr_loopFrame c0 k v d d1 s s1 I hs hl hg)
    l.length l d d1 s s1 (le_refl _) hR h hg

/-! ## if / endif -/

theorem isFetch_of_opcode (I : MachineInstr) (op : Opcode) (h : I.opcode = op)
    (hop : isFetch ⟨op, []⟩ = false) : isFetch I = false := by
  unfold isFetch at hop ⊢
  rw [h]
  exact hop

theorem isTrivial_of_opcode (I : MachineInstr) (op : Opcode) (h : I.opcode = op)
    (hop : IsTrivialInst ⟨op, []⟩ = false) : IsTrivialInst I = false := by
  unfold IsTrivialInst at hop ⊢
  rw [h]
  exact hop

theorem scanAll_cons_marker (C : Nat) (hC : 0 < C) (s sF : State) (I : MachineInstr)
    (rest : List MachineInstr) (hI : isFetch I = false)
    (h : scanAll C s (I :: rest) = .ok sF) :
    ∃ s1, lowerInstr s I = .ok s1 ∧ scanAll C s1 rest = .ok sF := by
  rw [scanAll_cons_other C hC s I rest hI] at h
  cases hl : lowerInstr s I with
  | error e => rw [hl] at h; cases h
  | ok s1 => rw [hl] at h; exact ⟨s1, rfl, h⟩

theorem scanAll_split (C : Nat) (hC : 0 < C) (s sF : State) (l1 l2 : List MachineInstr)
    (m : MachineInstr) (hm1 : isFetch m = false) (hm2 : IsTrivialInst m = false)
    (h : scanAll C s (l1 ++ m :: l2) = .ok sF) :
    ∃ s1 s2, scanAll C s l1 = .ok s1 ∧ lowerInstr s1 m = .ok s2 ∧ scanAll C s2 l2 = .ok sF := by
  rw [scanAll_append_cons C hC l1 l2 m s hm1 hm2] at h
  cases h1 : scanAll C s l1 with
  | error e => rw [h1] at h; cases h
  | ok s1 =>
    rw [h1] at h
    obtain ⟨s2, h2, h3⟩ := scanAll_cons_marker C hC s1 sF m l2 hm1 h
    exact ⟨s1, s2, rfl, h2, h3⟩

theorem scanAll_snoc (C : Nat) (hC : 0 < C) (s s1 s2 : State) (l1 : List MachineInstr)
    (m : MachineInstr) (hm1 : isFetch m = false) (hm2 : IsTrivialInst m = false)
    (h1 : scanAll C s l1 = .ok s1) (h2 : lowerInstr s1 m = .ok s2) :
    scanAll C s (l1 ++ [m]) = .ok s2 := by
  rw [scanAll_append_cons C hC l1 [] m s hm1 hm2, h1]
  simp only []
  rw [scanAll_cons_other C hC s1 m [] hm1, h2]
  rfl

/-- The `CF_JUMP` of an if closed by `ENDIF` carries `CfCount` at the `ENDIF`. -/
theorem scanAll_if_endif (C : Nat) (hC : 0 < C) (s0 sF : State)
    (l1 body post : List MachineInstr) (mIf mEnd : MachineInstr)
    (hIf : mIf.opcode = .IF_PREDICATE_SET) (hEnd : mEnd.opcode = .ENDIF)
    (hinv : Inv s0) (hbal : ifBalanced body)
    (h : scanAll C s0 (l1 ++ mIf :: (body ++ mEnd :: post)) = .ok sF) :
    ∃ s1 s2, scanAll C s0 l1 = .ok s1
      ∧ scanAll C s0 (l1 ++ mIf :: body) = .ok s2
      ∧ scanAll C s2 (mEnd :: post) = .ok sF
      ∧ s2.MBB[s1.MBB.length]? = some ⟨.CF_JUMP, [0, 0]⟩
      ∧ s2.IfThenElseStack.head? = some s1.MBB.length
      ∧ sF.MBB[s1.MBB.length]? = some ⟨.CF_JUMP, [(s2.CfCount : Int), 0]⟩
      ∧ sF.MBB[s2.MBB.length]? = some ⟨.POP, [((s2.CfCount + 1 : Nat) : Int), 1]⟩ := by
  have fIf := isFetch_of_opcode mIf _ hIf rfl
  have tIf := isTrivial_of_opcode mIf _ hIf rfl
  have fEnd := isFetch_of_opcode mEnd _ hEnd rfl
  have tEnd := isTrivial_of_opcode mEnd _ hEnd rfl
  obtain ⟨s1, sa, h1, hla, hrest⟩ := scanAll_split C hC s0 sF l1 _ mIf fIf tIf h
  obtain ⟨s2, sb, h2, hlb, hpost⟩ := scanAll_split C hC sa sF body post mEnd fEnd tEnd hrest
  have inv1 := scanAll_Inv C hC l1 s0 s1 hinv h1
  -- the step at the if
  obtain ⟨B, c, L, T, m, x⟩ := s1
  rcases lowerInstr_cases B c L T m x mIf sa hla with
    ⟨hop, -⟩ | ⟨hop, -⟩ | ⟨hop, -⟩ | ⟨-, rfl⟩ | ⟨hop, -⟩ | ⟨hop, -⟩ | ⟨hop, -⟩ | ⟨hop, -⟩
  · simp [isStackMarker, hIf] at hop
  · rw [hIf] at hop; cases hop
  · rw [hIf] at hop; cases hop
  rotate_left
  · rw [hIf] at hop; cases hop
  · rw [hIf] at hop; cases hop
  · rw [hIf] at hop; cases hop
  · rw [hIf] at hop; cases hop
  have inva := lowerInstr_Inv _ _ mIf hla inv1
  -- the body keeps the entry and the placeholder
  have hfr := scanAll_ifFrame C hC B.length T ⟨.CF_JUMP, [0, 0]⟩ body 0 0 _ s2
    ⟨inva, rfl, by simp⟩ h2 hbal
  obtain ⟨inv2, hdrop2, hv2⟩ := hfr
  simp only [List.drop_zero] at hdrop2
  -- the step at the endif
  obtain ⟨B2, c2, L2, T2, m2, x2⟩ := s2
  simp only at hdrop2 hv2
  subst hdrop2
  rcases lowerInstr_cases B2 c2 L2 _ m2 x2 mEnd sb hlb with
    ⟨hop, -⟩ | ⟨hop, -⟩ | ⟨hop, -⟩ | ⟨hop, -⟩ | ⟨hop, -⟩ | ⟨-, J, TS, hJ, rfl⟩ | ⟨hop, -⟩ |
    ⟨hop, -⟩
  · simp [isStackMarker, hEnd] at hop
  · rw [hEnd] at hop; cases hop
  · rw [hEnd] at hop; cases hop
  · rw [hEnd] at hop; cases hop
  · rw [hEnd] at hop; cases hop
  rotate_left
  · rw [hEnd] at hop; cases hop
  · rw [hEnd] at hop; cases hop
  injection hJ with hJ1 hJ2
  subst hJ1; subst hJ2
  have invb := lowerInstr_Inv _ _ mEnd hlb inv2
  have hB2 : B.length < B2.length := lt_of_getElem?_some B2 _ _ hv2
  -- after the endif nothing points to the jump
  have hjump : (CounterPropagateAddrAt B2 B.length c2 ++
        [(⟨.POP, [((c2 + 1 : Nat) : Int), 1]⟩ : MachineInstr)])[B.length]?
      = some ⟨.CF_JUMP, [(c2 : Int), 0]⟩ := by
    rw [List.getElem?_append_left (by rw [length_CounterPropagateAddrAt]; exact hB2),
      getElem?_CounterPropagateAddrAt_self, hv2]
    simp [CounterPropagateAddr]
  have hpop : (CounterPropagateAddrAt B2 B.length c2 ++
        [(⟨.POP, [((c2 + 1 : Nat) : Int), 1]⟩ : MachineInstr)])[B2.length]?
      = some ⟨.POP, [((c2 + 1 : Nat) : Int), 1]⟩ := by
    rw [List.getElem?_append_right (by rw [length_CounterPropagateAddrAt]),
      length_CounterPropagateAddrAt, Nat.sub_self]
    rfl
  have hunj : B.length ∉ owned (⟨CounterPropagateAddrAt B2 B.length c2 ++
        [(⟨.POP, [((c2 + 1 : Nat) : Int), 1]⟩ : MachineInstr)], c2 + 1, L2, T, m2,
        decr32 x2⟩ : State) := by
    have := inv2.1
    simp only [owned_mk, List.cons_append, List.nodup_cons] at this
    exact this.1
  have hunp : B2.length ∉ owned (⟨CounterPropagateAddrAt B2 B.length c2 ++
        [(⟨.POP, [((c2 + 1 : Nat) : Int), 1]⟩ : MachineInstr)], c2 + 1, L2, T, m2,
        decr32 x2⟩ : State) := by
    intro hmem
    have := inv2.2 B2.length (by
      simp only [owned_mk] at hmem ⊢
      simp only [List.cons_append, List.mem_cons]
      exact Or.inr hmem)
    simp only at this
    omega
  have e1 := scanAll_unowned C hC B.length _ post _ sF ⟨invb, hunj, hjump⟩ hpost
  have e2 := scanAll_unowned C hC B2.length _ post _ sF ⟨invb, hunp, hpop⟩ hpost
  refine ⟨⟨B, c, L, T, m, x⟩, ⟨B2, c2, L2, B.length :: T, m2, x2⟩, h1, ?_, ?_, hv2, rfl,
    e1.2.2, e2.2.2⟩
  · rw [scanAll_append_cons C hC l1 body mIf s0 fIf tIf, h1]
    simp only []
    rw [scanAll_cons_other C hC _ mIf body fIf, hla]
    exact h2
  · rw [scanAll_cons_other C hC _ mEnd post fEnd, hlb]
    exact hpost

/-! ## Loops: continue, break and the end of the loop -/

theorem loopDepthStep_exit (d : Nat) (m : MachineInstr)
    (hm : m.opcode = .CONTINUE ∨ m.opcode = .PREDICATED_BREAK) :
    loopDepthStep d m = some d := by
  rcases hm with hm | hm <;> simp [loopDepthStep, hm]

theorem isFetch_exit (m : MachineInstr)
    (hm : m.opcode = .CONTINUE ∨ m.opcode = .PREDICATED_BREAK) :
    isFetch m = false ∧ IsTrivialInst m = false := by
  rcases hm with hm | hm
  · exact ⟨isFetch_of_opcode m _ hm rfl, isTrivial_of_opcode m _ hm rfl⟩
  · exact ⟨isFetch_of_opcode m _ hm rfl, isTrivial_of_opcode m _ hm rfl⟩

/-- The instruction emitted for a `CONTINUE` or `PREDICATED_BREAK` enters the patch set of
the innermost loop with placeholder 0. -/
theorem lowerInstr_exit (s s1 : State) (m : MachineInstr)
    (hm : m.opcode = .CONTINUE ∨ m.opcode = .PREDICATED_BREAK)
    (h : lowerInstr s m = .ok s1) :
    s1.MBB[exitIndex s m]? = some ⟨exitOpcode m, [0]⟩
      ∧ ∃ P LS, s.LoopStack = P :: LS
          ∧ s1.LoopStack = (P.1, List.insert (exitIndex s m) P.2) :: LS := by
  obtain ⟨B, c, L, T, mx, x⟩ := s
  rcases lowerInstr_cases B c L T mx x m s1 h with
    ⟨hop, -⟩ | ⟨hop, -⟩ | ⟨hop, -⟩ | ⟨hop, -⟩ | ⟨hop, -⟩ | ⟨hop, -⟩ |
    ⟨hop, P, LS, rfl, rfl⟩ | ⟨hop, P, LS, rfl, rfl⟩
  · rcases hm with hm | hm <;> simp [isStackMarker, hm] at hop
  · rcases hm with hm | hm <;> rw [hm] at hop <;> cases hop
  · rcases hm with hm | hm <;> rw [hm] at hop <;> cases hop
  · rcases hm with hm | hm <;> rw [hm] at hop <;> cases hop
  · rcases hm with hm | hm <;> rw [hm] at hop <;> cases hop
  · rcases hm with hm | hm <;> rw [hm] at hop <;> cases hop
  · refine ⟨?_, P, LS, rfl, ?_⟩
    · simp only [exitIndex, exitOpcode, hop]
      rw [List.getElem?_append_right (by simp)]
      simp
    · simp [exitIndex, hop]
  · refine ⟨?_, P, LS, rfl, ?_⟩
    · simp only [exitIndex, exitOpcode, hop]
      rw [List.getElem?_append_right (by simp)]
      simp
    · simp [exitIndex, hop]

/-- The new member of the patch set. -/
theorem lowerInstr_exit_tracked (c0 : Nat) (s s1 : State) (m : MachineInstr)
    (hm : m.opcode = .CONTINUE ∨ m.opcode = .PREDICATED_BREAK)
    (hinv : Inv s) (hc0 : ∃ e, s.LoopStack[0]? = some e ∧ e.1 = c0)
    (h : lowerInstr s m = .ok s1) :
    Inv s1 ∧ (∃ e, s1.LoopStack[0]? = some e ∧ e.1 = c0 ∧ exitIndex s m ∈ e.2)
      ∧ s1.MBB[exitIndex s m]? = some ⟨exitOpcode m, [0]⟩ := by
  obtain ⟨hv, P, LS, hL, hL1⟩ := lowerInstr_exit s s1 m hm h
  refine ⟨lowerInstr_Inv s s1 m h hinv, ?_, hv⟩
  obtain ⟨e, he, hec⟩ := hc0
  rw [hL, List.getElem?_cons_zero] at he
  injection he with he
  subst he
  exact ⟨(P.1, List.insert (exitIndex s m) P.2), by rw [hL1, List.getElem?_cons_zero], hec,
    List.mem_insert_self _ _⟩

/-- At the `ENDLOOP` every member of the patch set receives `CfCount` and leaves the stacks. -/
theorem lowerInstr_endloop (c0 k : Nat) (v : MachineInstr) (s s1 : State) (m : MachineInstr)
    (hm : m.opcode = .ENDLOOP)
    (hR : Inv s ∧ (∃ e, s.LoopStack[0]? = some e ∧ e.1 = c0 ∧ k ∈ e.2) ∧ s.MBB[k]? = some v)
    (h : lowerInstr s m = .ok s1) :
    (Inv s1 ∧ k ∉ owned s1 ∧ s1.MBB[k]? = some (CounterPropagateAddr v s.CfCount))
      ∧ Inv s1 ∧ s.MBB.length ∉ owned s1
      ∧ s1.MBB[s.MBB.length]? = some ⟨.END_LOOP, [((c0 + 1 : Nat) : Int)]⟩ := by
  have inv1 := lowerInstr_Inv s s1 m h hR.1
  obtain ⟨⟨hnd, hbd⟩, ⟨e, he, hc0, hke⟩, hv⟩ := hR
  obtain ⟨B, c, L, T, mx, x⟩ := s
  simp only [owned_mk] at hnd hbd
  simp only at he hv
  rcases lowerInstr_cases B c L T mx x m s1 h with
    ⟨hop, -⟩ | ⟨hop, -⟩ | ⟨-, P, LS, rfl, rfl⟩ | ⟨hop, -⟩ | ⟨hop, -⟩ | ⟨hop, -⟩ |
    ⟨hop, -⟩ | ⟨hop, -⟩
  · simp [isStackMarker, hm] at hop
  · rw [hm] at hop; cases hop
  rotate_left
  · rw [hm] at hop; cases hop
  · rw [hm] at hop; cases hop
  · rw [hm] at hop; cases hop
  · rw [hm] at hop; cases hop
  · rw [hm] at hop; cases hop
  rw [List.getElem?_cons_zero] at he
  injection he with he
  subst he
  simp only [List.map_cons, List.flatten_cons] at hnd hbd
  have hndP : P.2.Nodup :=
    (List.nodup_append.mp (List.nodup_append.mp hnd).2.1).1
  have hklt : k < B.length := lt_of_getElem?_some B k v hv
  refine ⟨⟨inv1, ?_, ?_⟩, inv1, ?_, ?_⟩
  · simp only [owned_mk, List.mem_append, not_or]
    constructor
    · intro hkT
      exact (List.nodup_append.mp hnd).2.2 hkT (List.mem_append_left _ hke)
    · intro hkL
      exact (List.nodup_append.mp (List.nodup_append.mp hnd).2.1).2.2 hke hkL
  · rw [List.getElem?_append_left (by rw [length_CounterPropagateAddrSet]; exact hklt),
      getElem?_CounterPropagateAddrSet_mem _ _ _ _ hke hndP, hv]
    rfl
  · intro hmem
    simp only [owned_mk, List.mem_append] at hmem
    have := hbd B.length (by
      simp only [List.mem_append]
      rcases hmem with hmem | hmem
      · exact Or.inl hmem
      · exact Or.inr (Or.inr hmem))
    omega
  · simp only
    rw [List.getElem?_append_right (by rw [length_CounterPropagateAddrSet]),
      length_CounterPropagateAddrSet, Nat.sub_self, hc0]
    rfl

theorem lowerInstr_whileloop (s s1 : State) (m : MachineInstr) (hm : m.opcode = .WHILELOOP)
    (hinv : Inv s) (h : lowerInstr s m = .ok s1) :
    Inv s1 ∧ (∃ e, s1.LoopStack[0]? = some e ∧ e.1 = s.CfCount ∧ s.MBB.length ∈ e.2)
      ∧ s1.MBB[s.MBB.length]? = some ⟨.WHILE_LOOP, [2]⟩ := by
  refine ⟨lowerInstr_Inv s s1 m h hinv, ?_⟩
  obtain ⟨B, c, L, T, mx, x⟩ := s
  rcases lowerInstr_cases B c L T mx x m s1 h with
    ⟨hop, -⟩ | ⟨-, rfl⟩ | ⟨hop, -⟩ | ⟨hop, -⟩ | ⟨hop, -⟩ | ⟨hop, -⟩ | ⟨hop, -⟩ | ⟨hop, -⟩
  · simp [isStackMarker, hm] at hop
  rotate_left
  · rw [hm] at hop; cases hop
  · rw [hm] at hop; cases hop
  · rw [hm] at hop; cases hop
  · rw [hm] at hop; cases hop
  · rw [hm] at hop; cases hop
  · rw [hm] at hop; cases hop
  refine ⟨⟨_, List.getElem?_cons_zero, rfl, by simp⟩, ?_⟩
  simp only
  rw [List.getElem?_append_right (le_refl _), Nat.sub_self]
  rfl

theorem scanAll_join (C : Nat) (hC : 0 < C) (s s1 s2 s3 : State) (l1 l2 : List MachineInstr)
    (m : MachineInstr) (hm1 : isFetch m = false) (hm2 : IsTrivialInst m = false)
    (h1 : scanAll C s l1 = .ok s1) (h2 : lowerInstr s1 m = .ok s2)
    (h3 : scanAll C s2 l2 = .ok s3) :
    scanAll C s (l1 ++ m :: l2) = .ok s3 := by
  rw [scanAll_append_cons C hC l1 l2 m s hm1 hm2, h1]
  simp only []
  rw [scanAll_cons_other C hC s1 m l2 hm1, h2]
  exact h3

/-- A `CONTINUE` and a `PREDICATED_BREAK` of a loop: both emitted instructions are in the
patch set of the loop when its `ENDLOOP` is reached, and carry `CfCount` at the `ENDLOOP`
when the scan ends. -/
theorem scanAll_loop_exits (C : Nat) (hC : 0 < C) (s0 sF : State)
    (l1 b1 b2 b3 post : List MachineInstr) (mW m1 m2 mE : MachineInstr)
    (hW : mW.opcode = .WHILELOOP) (hE : mE.opcode = .ENDLOOP)
    (hm1 : m1.opcode = .CONTINUE ∨ m1.opcode = .PREDICATED_BREAK)
    (hm2 : m2.opcode = .CONTINUE ∨ m2.opcode = .PREDICATED_BREAK)
    (hb1 : loopBalanced b1) (hb2 : loopBalanced b2) (hb3 : loopBalanced b3)
    (hinv : Inv s0)
    (h : scanAll C s0 (l1 ++ mW :: (b1 ++ m1 :: (b2 ++ m2 :: (b3 ++ mE :: post)))) = .ok sF) :
    ∃ sW sa sb sE,
      scanAll C s0 l1 = .ok sW
      ∧ scanAll C s0 (l1 ++ mW :: b1) = .ok sa
      ∧ scanAll C s0 (l1 ++ mW :: (b1 ++ m1 :: b2)) = .ok sb
      ∧ scanAll C s0 (l1 ++ mW :: (b1 ++ m1 :: (b2 ++ m2 :: b3))) = .ok sE
      ∧ scanAll C sE (mE :: post) = .ok sF
      ∧ (∃ e LS, sE.LoopStack = e :: LS ∧ e.1 = sW.CfCount ∧ sW.MBB.length ∈ e.2
            ∧ exitIndex sa m1 ∈ e.2 ∧ exitIndex sb m2 ∈ e.2)
      ∧ sF.MBB[exitIndex sa m1]? = some ⟨exitOpcode m1, [(sE.CfCount : Int)]⟩
      ∧ sF.MBB[exitIndex sb m2]? = some ⟨exitOpcode m2, [(sE.CfCount : Int)]⟩
      ∧ sF.MBB[sE.MBB.length]? = some ⟨.END_LOOP, [((sW.CfCount + 1 : Nat) : Int)]⟩ := by
  have fW := isFetch_of_opcode mW _ hW rfl
  have tW := isTrivial_of_opcode mW _ hW rfl
  have fE := isFetch_of_opcode mE _ hE rfl
  have tE := isTrivial_of_opcode mE _ hE rfl
  obtain ⟨f1, t1⟩ := isFetch_exit m1 hm1
  obtain ⟨f2, t2⟩ := isFetch_exit m2 hm2
  obtain ⟨sW, sw, hpre, hlW, hr1⟩ := scanAll_split C hC s0 sF l1 _ mW fW tW h
  obtain ⟨sa, sa1, hsb1, hl1, hr2⟩ := scanAll_split C hC sw sF b1 _ m1 f1 t1 hr1
  obtain ⟨sb, sb1, hsb2, hl2, hr3⟩ := scanAll_split C hC sa1 sF b2 _ m2 f2 t2 hr2
  obtain ⟨sE, sE1, hsb3, hlE, hpost⟩ := scanAll_split C hC sb1 sF b3 post mE fE tE hr3
  have invW := scanAll_Inv C hC l1 s0 sW hinv hpre
  -- the WHILE_LOOP instruction identifies the entry of the loop
  have TW0 := lowerInstr_whileloop sW sw mW hW invW hlW
  have TW1 := scanAll_loopFrame C hC _ _ _ b1 0 0 sw sa TW0 hsb1 hb1
  have TW2 := lowerInstr_loopFrame _ _ _ 0 0 sa sa1 m1 TW1 hl1 (loopDepthStep_exit 0 m1 hm1)
  have TW3 := scanAll_loopFrame C hC _ _ _ b2 0 0 sa1 sb TW2 hsb2 hb2
  have TW4 := lowerInstr_loopFrame _ _ _ 0 0 sb sb1 m2 TW3 hl2 (loopDepthStep_exit 0 m2 hm2)
  have TW5 := scanAll_loopFrame C hC _ _ _ b3 0 0 sb1 sE TW4 hsb3 hb3
  -- the first exit
  have T10 := lowerInstr_exit_tracked sW.CfCount sa sa1 m1 hm1 TW1.1
    (by obtain ⟨e, he, hc, -⟩ := TW1.2.1; exact ⟨e, he, hc⟩) hl1
  have T11 := scanAll_loopFrame C hC _ _ _ b2 0 0 sa1 sb T10 hsb2 hb2
  have T12 := lowerInstr_loopFrame _ _ _ 0 0 sb sb1 m2 T11 hl2 (loopDepthStep_exit 0 m2 hm2)
  have T13 := scanAll_loopFrame C hC _ _ _ b3 0 0 sb1 sE T12 hsb3 hb3
  -- the second exit
  have T20 := lowerInstr_exit_tracked sW.CfCount sb sb1 m2 hm2 TW3.1
    (by obtain ⟨e, he, hc, -⟩ := TW3.2.1; exact ⟨e, he, hc⟩) hl2
  have T21 := scanAll_loopFrame C hC _ _ _ b3 0 0 sb1 sE T20 hsb3 hb3
  -- the end of the loop
  have E1 := lowerInstr_endloop _ _ _ sE sE1 mE hE T13 hlE
  have E2 := lowerInstr_endloop _ _ _ sE sE1 mE hE T21 hlE
  have F1 := scanAll_unowned C hC _ _ post sE1 sF E1.1 hpost
  have F2 := scanAll_unowned C hC _ _ post sE1 sF E2.1 hpost
  have F3 := scanAll_unowned C hC _ _ post sE1 sF ⟨E1.2.1, E1.2.2.1, E1.2.2.2⟩ hpost
  have hsw : scanAll C sw (b1 ++ m1 :: b2) = .ok sb :=
    scanAll_join C hC sw sa sa1 sb b1 b2 m1 f1 t1 hsb1 hl1 hsb2
  have hsw2 : scanAll C sw (b1 ++ m1 :: (b2 ++ m2 :: b3)) = .ok sE :=
    scanAll_join C hC sw sa sa1 sE b1 _ m1 f1 t1 hsb1 hl1
      (scanAll_join C hC sa1 sb sb1 sE b2 b3 m2 f2 t2 hsb2 hl2 hsb3)
  refine ⟨sW, sa, sb, sE, hpre,
    scanAll_join C hC s0 sW sw sa l1 b1 mW fW tW hpre hlW hsb1,
    scanAll_join C hC s0 sW sw sb l1 _ mW fW tW hpre hlW hsw,
    scanAll_join C hC s0 sW sw sE l1 _ mW fW tW hpre hlW hsw2, ?_, ?_, ?_, ?_, F3.2.2⟩
  · rw [scanAll_cons_other C hC sE mE post fE, hlE]
    exact hpost
  · obtain ⟨e, he, hc, hwe⟩ := TW5.2.1
    obtain ⟨e1, he1, -, h1e⟩ := T13.2.1
    obtain ⟨e2, he2, -, h2e⟩ := T21.2.1
    rw [he] at he1 he2
    injection he1 with he1
    injection he2 with he2
    subst he1; subst he2
    cases hLS : sE.LoopStack with
    | nil => rw [hLS] at he; cases he
    | cons e0 LS =>
      rw [hLS, List.getElem?_cons_zero] at he
      injection he with he
      subst he
      exact ⟨e0, LS, rfl, hc, hwe, h1e, h2e⟩
  · rw [F1.2.2]
    simp [CounterPropagateAddr]
  · rw [F2.2.2]
    simp [CounterPropagateAddr]

/-! ## When a lowering step fails -/

theorem lowerInstr_error_iff (s : State) (I : MachineInstr) (e : Err) :
    lowerInstr s I = .error e ↔ underflow s I = some e := by
  obtain ⟨B, c, L, T, m, x⟩ := s
  obtain ⟨op, args⟩ := I
  cases L <;> cases T <;> cases op <;>
    simp [lowerInstr, underflow]

theorem lowerInstr_depth_some (s : State) (I : MachineInstr) (d1 : Nat × Nat)
    (h : depthStep (stackSizes s) I = some d1) :
    ∃ s1, lowerInstr s I = .ok s1 ∧ stackSizes s1 = d1 := by
  obtain ⟨B, c, L, T, m, x⟩ := s
  obtain ⟨op, args⟩ := I
  cases L <;> cases T <;> cases op <;>
    simp [lowerInstr, depthStep, stackSizes] at h ⊢ <;> exact h

theorem lowerInstr_depth_none (s : State) (I : MachineInstr)
    (h : depthStep (stackSizes s) I = none) :
    ∃ e, underflow s I = some e := by
  obtain ⟨B, c, L, T, m, x⟩ := s
  obtain ⟨op, args⟩ := I
  cases L <;> cases T <;> cases op <;>
    simp [depthStep, stackSizes, underflow] at h ⊢

theorem underflow_not_skip (s : State) (I : MachineInstr) (e : Err)
    (h : underflow s I = some e) : isFetch I = false ∧ IsTrivialInst I = false := by
  obtain ⟨op, args⟩ := I
  cases op <;> simp [underflow, isFetch, IsTrivialInst] at h ⊢

theorem depthStep_skip (d : Nat × Nat) (I : MachineInstr)
    (h : isFetch I = true ∨ IsTrivialInst I = true) : depthStep d I = some d := by
  obtain ⟨op, args⟩ := I
  cases op <;> simp [depthStep, isFetch, IsTrivialInst] at h ⊢

/-! ## Success of the scan -/

theorem scanAll_ghost_ok {G : Type} (C : Nat) (hC : 0 < C) (gstep : G → MachineInstr → Option G)
    (R : G → State → Prop)
    (hskip : ∀ g I, isFetch I = true ∨ IsTrivialInst I = true → gstep g I = some g)
    (hclause : ∀ g s extra c, R g s → R g { s with MBB := s.MBB ++ extra, CfCount := c })
    (hstep : ∀ g g1 s I, isFetch I = false → R g s → gstep g I = some g1 →
      ∃ s1, lowerInstr s I = .ok s1 ∧ R g1 s1) :
    ∀ (k : Nat) (l : List MachineInstr) (g g1 : G) (s : State), l.length ≤ k → R g s →
      ghostRun gstep g l = some g1 → ∃ s1, scanAll C s l = .ok s1 ∧ R g1 s1 := by
  intro k
  induction k with
  | zero =>
    intro l g g1 s hk hR hg
    have : l = [] := List.length_eq_zero.mp (by omega)
    subst this
    simp only [ghostRun] at hg
    cases hg
    exact ⟨s, rfl, hR⟩
  | succ k ih =>
    intro l g g1 s hk hR hg
    cases l with
    | nil =>
      simp only [ghostRun] at hg
      cases hg
      exact ⟨s, rfl, hR⟩
    | cons I rest =>
      simp only [List.length_cons] at hk
      cases hI : isFetch I with
      | true =>
        rw [scanAll_cons_fetch C hC s I rest hI]
        have happ := fetchClauseLoop_append C (I :: rest) 0
        have hpassed := fetchClauseLoop_passed C (I :: rest) 0
        have hlen := fetchClauseLoop_progress C I rest 0 hI hC
        rw [← happ, ghostRun_append_skip gstep hskip _ _ g hpassed] at hg
        refine ih _ g g1 _ (by omega) ?_ hg
        rw [MakeFetchClause_fst]
        exact hclause g s _ _ hR
      | false =>
        rw [scanAll_cons_other C hC s I rest hI]
        simp only [ghostRun] at hg
        cases hgs : gstep g I with
        | none => rw [hgs] at hg; cases hg
        | some g2 =>
          rw [hgs] at hg
          obtain ⟨s2, hl, hR2⟩ := hstep g g2 s I hI hR hgs
          rw [hl]
          exact ih rest g2 g1 s2 (by omega) hR2 hg

/-- A block none of whose markers reads an empty stack is scanned to the end. -/
theorem scanAll_depth_ok (C : Nat) (hC : 0 < C) (l : List MachineInstr) (s : State)
    (d1 : Nat × Nat) (h : ghostRun depthStep (stackSizes s) l = some d1) :
    ∃ s1, scanAll C s l = .ok s1 ∧ stackSizes s1 = d1 :=
  scanAll_ghost_ok C hC depthStep (fun d s => stackSizes s = d)
    depthStep_skip (fun _ _ _ _ hs => hs)
    (fun d d1 s I _ hs hg => lowerInstr_depth_some s I d1 (by rw [hs]; exact hg))
    l.length l (stackSizes s) d1 s (le_refl _) rfl h

theorem ghostRun_none_split {G : Type} (gstep : G → MachineInstr → Option G)
    (l : List MachineInstr) (g : G) (h : ghostRun gstep g l = none) :
    ∃ p m q g1, l = p ++ m :: q ∧ ghostRun gstep g p = some g1 ∧ gstep g1 m = none := by
  induction l generalizing g with
  | nil => simp [ghostRun] at h
  | cons I rest ih =>
    simp only [ghostRun] at h
    cases hg : gstep g I with
    | none => exact ⟨[], I, rest, g, rfl, rfl, hg⟩
    | some g2 =>
      rw [hg] at h
      obtain ⟨p, m, q, g1, hl, hp, hm⟩ := ih g2 h
      refine ⟨I :: p, m, q, g1, by rw [hl]; rfl, ?_, hm⟩
      simp only [ghostRun, hg]
      exact hp

/-- The scan fails exactly when it reaches a marker that reads an empty stack. -/
theorem scanAll_error_iff (C : Nat) (hC : 0 < C) (l : List MachineInstr) (s0 : State)
    (e : Err) :
    scanAll C s0 l = .error e ↔
      ∃ p m q s, l = p ++ m :: q ∧ scanAll C s0 p = .ok s ∧ underflow s m = some e := by
  constructor
  · intro h
    cases hg : ghostRun depthStep (stackSizes s0) l with
    | some d1 =>
      obtain ⟨s1, hs1, -⟩ := scanAll_depth_ok C hC l s0 d1 hg
      rw [hs1] at h
      cases h
    | none =>
      obtain ⟨p, m, q, g1, hl, hp, hm⟩ := ghostRun_none_split depthStep l _ hg
      obtain ⟨s, hs, hsz⟩ := scanAll_depth_ok C hC p s0 g1 hp
      rw [← hsz] at hm
      obtain ⟨e1, he1⟩ := lowerInstr_depth_none s m hm
      obtain ⟨fm, tm⟩ := underflow_not_skip s m e1 he1
      have herr := (lowerInstr_error_iff s m e1).mpr he1
      have : scanAll C s0 l = .error e1 := by
        rw [hl, scanAll_append_cons C hC p q m s0 fm tm, hs]
        simp only []
        rw [scanAll_cons_other C hC s m q fm, herr]
      rw [this] at h
      injection h with h
      subst h
      exact ⟨p, m, q, s, hl, hs, he1⟩
  · rintro ⟨p, m, q, s, hl, hs, hu⟩
    obtain ⟨fm, tm⟩ := underflow_not_skip s m e hu
    have herr := (lowerInstr_error_iff s m e).mpr hu
    rw [hl, scanAll_append_cons C hC p q m s0 fm tm, hs]
    simp only []
    rw [scanAll_cons_other C hC s m q fm, herr]

/-! ## Blocks -/

theorem blockEntry_fst (ST M X : Nat) (MBB MBB1 : List MachineInstr) :
    (blockEntry ST M X MBB).1 = (blockEntry ST M X MBB1).1 := rfl

theorem blockEntry_snd_append (ST M X : Nat) (p r : List MachineInstr) :
    (blockEntry ST M X (p ++ r)).2 = (blockEntry ST M X p).2 ++ r := by
  unfold blockEntry
  split_ifs <;> rfl

theorem blockEntry_Inv (ST M X : Nat) (MBB : List MachineInstr) :
    Inv (blockEntry ST M X MBB).1 :=
  ⟨List.nodup_nil, fun k hk => by cases hk⟩

theorem scanBlock_append (ST M X C : Nat) (p r : List MachineInstr) :
    scanBlock C ST M X (p ++ r) =
      scanAll C (blockEntry ST M X p).1 ((blockEntry ST M X p).2 ++ r) := by
  unfold scanBlock
  rw [blockEntry_snd_append]
  rfl

/-! ## Properly nested blocks -/

theorem nestStep_depth (st st1 : List Nest) (I : MachineInstr) (h : nestStep st I = some st1) :
    depthStep (st.count .loop, st.count .ifThen + st.count .ifElse) I
      = some (st1.count .loop, st1.count .ifThen + st1.count .ifElse) := by
  obtain ⟨op, args⟩ := I
  have hmem : Nest.loop ∈ st → ¬ (st.count Nest.loop = 0) := fun hm hc =>
    (List.count_eq_zero.mp hc) hm
  cases op <;> simp only [nestStep, depthStep] at h ⊢
  case ENDLOOP =>
    split at h
    · injection h with h; subst h; simp
    · cases h
  case ELSE =>
    split at h
    · injection h with h; subst h; simp; omega
    · cases h
  case ENDIF =>
    split at h
    · injection h with h; subst h; simp
    · injection h with h; subst h; simp
    · cases h
  case PREDICATED_BREAK =>
    split_ifs at h with hm
    injection h with h; subst h
    simp [hmem hm]
  case CONTINUE =>
    split_ifs at h with hm
    injection h with h; subst h
    simp [hmem hm]
  case IF_PREDICATE_SET =>
    injection h with h; subst h; simp; omega
  all_goals (injection h with h; subst h; simp)

theorem ghostRun_nest_depth (l : List MachineInstr) (st st1 : List Nest)
    (h : ghostRun nestStep st l = some st1) :
    ghostRun depthStep (st.count .loop, st.count .ifThen + st.count .ifElse) l
      = some (st1.count .loop, st1.count .ifThen + st1.count .ifElse) := by
  induction l generalizing st with
  | nil => simp only [ghostRun] at h ⊢; injection h with h; subst h; rfl
  | cons I rest ih =>
    simp only [ghostRun] at h ⊢
    cases hs : nestStep st I with
    | none => rw [hs] at h; cases h
    | some st2 =>
      rw [hs] at h
      rw [nestStep_depth st st2 I hs]
      exact ih st2 h

theorem nestStep_loops (st st1 : List Nest) (I : MachineInstr) (h : nestStep st I = some st1) :
    st.count .loop + countOp .WHILELOOP [I] = st1.count .loop + countOp .ENDLOOP [I] := by
  obtain ⟨op, args⟩ := I
  cases op <;> simp only [nestStep] at h
  case ENDLOOP =>
    split at h
    · injection h with h; subst h; simp [countOp]
    · cases h
  case ELSE =>
    split at h
    · injection h with h; subst h; simp [countOp]
    · cases h
  case ENDIF =>
    split at h
    · injection h with h; subst h; simp [countOp]
    · injection h with h; subst h; simp [countOp]
    · cases h
  case PREDICATED_BREAK =>
    split_ifs at h with hm
    injection h with h; subst h
    simp [countOp]
  case CONTINUE =>
    split_ifs at h with hm
    injection h with h; subst h
    simp [countOp]
  all_goals (injection h with h; subst h; simp [countOp])

theorem countOp_cons (op : Opcode) (I : MachineInstr) (l : List MachineInstr) :
    countOp op (I :: l) = countOp op [I] + countOp op l := by
  simp only [countOp, List.countP_cons, List.countP_nil]
  omega

theorem ghostRun_nest_loops (l : List MachineInstr) (st st1 : List Nest)
    (h : ghostRun nestStep st l = some st1) :
    st.count .loop + countOp .WHILELOOP l = st1.count .loop + countOp .ENDLOOP l := by
  induction l generalizing st with
  | nil => simp only [ghostRun] at h; injection h with h; subst h; rfl
  | cons I rest ih =>
    simp only [ghostRun] at h
    cases hs : nestStep st I with
    | none => rw [hs] at h; cases h
    | some st2 =>
      rw [hs] at h
      have h1 := nestStep_loops st st2 I hs
      have h2 := ih st2 h
      rw [countOp_cons .WHILELOOP, countOp_cons .ENDLOOP]
      omega

theorem stackOpens_eq (l : List MachineInstr) :
    stackOpens l = countOp .CF_ALU_PUSH_BEFORE l + countOp .WHILELOOP l := by
  induction l with
  | nil => rfl
  | cons I rest ih =>
    rw [countOp_cons .CF_ALU_PUSH_BEFORE, countOp_cons .WHILELOOP]
    simp only [stackOpens, List.countP_cons] at ih ⊢
    rw [ih]
    obtain ⟨op, args⟩ := I
    cases op <;> simp [opensStack, countOp] <;> omega

theorem stackCloses_eq (l : List MachineInstr) :
    stackCloses l = countOp .ENDLOOP l + countOp .ENDIF l + countOp .PREDICATED_BREAK l := by
  induction l with
  | nil => rfl
  | cons I rest ih =>
    rw [countOp_cons .ENDLOOP, countOp_cons .ENDIF, countOp_cons .PREDICATED_BREAK]
    simp only [stackCloses, List.countP_cons] at ih ⊢
    rw [ih]
    obtain ⟨op, args⟩ := I
    cases op <;> simp [closesStack, countOp] <;> omega

theorem foldl_stackStep_blockEntry (ST M X : Nat) (MBB : List MachineInstr) (g : Nat × Nat) :
    (blockEntry ST M X MBB).2.foldl stackStep g = MBB.foldl stackStep g := by
  unfold blockEntry
  split_ifs
  · simp only [List.foldl_cons]
    rfl
  · rfl

theorem ghostRun_depthStep_blockEntry (ST M X : Nat) (MBB : List MachineInstr) (d : Nat × Nat) :
    ghostRun depthStep d (blockEntry ST M X MBB).2 = ghostRun depthStep d MBB := by
  unfold blockEntry
  split_ifs
  · simp only [ghostRun]
    rfl
  · rfl

theorem runOnMachineBasicBlock_of_scanBlock (C ST M X : Nat) (MBB : List MachineInstr)
    (s : State) (h : scanBlock C ST M X MBB = .ok s) :
    runOnMachineBasicBlock C ST M X MBB
      = .ok (⟨.STACK_SIZE, [(s.MaxStack : Int)]⟩ :: s.MBB, s.MaxStack, s.CurrentStack) := by
  unfold runOnMachineBasicBlock
  rw [h]

theorem scanBlock_counters (C : Nat) (hC : 0 < C) (ST M X : Nat) (MBB : List MachineInstr)
    (s : State) (h : scanBlock C ST M X MBB = .ok s) :
    (s.MaxStack, s.CurrentStack) = MBB.foldl stackStep (M, X) := by
  have := scanAll_counters C hC _ _ s h
  rw [foldl_stackStep_blockEntry] at this
  exact this

/-! ## The high-water mark along the iterations -/

theorem stackStep_le (g : Nat × Nat) (I : MachineInstr) (hg : g.2 ≤ g.1)
    (h1 : closesStack I = true → 0 < g.2) : (stackStep g I).2 ≤ (stackStep g I).1 := by
  cases ho : opensStack I with
  | true => simp [stackStep, ho]
  | false =>
    cases hc : closesStack I with
    | true =>
      have hpos := h1 hc
      have e : (g.2 + (2 ^ 32 - 1)) % 2 ^ 32 ≤ g.2 - 1 := by
        have e1 : g.2 + (2 ^ 32 - 1) = (g.2 - 1) + 2 ^ 32 := by omega
        rw [e1, Nat.add_mod_right]
        exact Nat.mod_le _ _
      simp only [stackStep, ho, hc, decr32, Bool.false_eq_true, if_false, if_true]
      omega
    | false => simp [stackStep, ho, hc, hg]

theorem loopBody_le (C : Nat) (s s1 : State) (I : MachineInstr) (rest rest1 : List MachineInstr)
    (h : loopBody C s I rest = .ok (s1, rest1)) (hg : s.CurrentStack ≤ s.MaxStack)
    (h1 : closesStack I = true → 0 < s.CurrentStack) : s1.CurrentStack ≤ s1.MaxStack := by
  cases hI : isFetch I with
  | true =>
    rw [loopBody_fetch C s I rest hI] at h
    injection h with h
    injection h with h _
    rw [← h]
    exact hg
  | false =>
    rw [loopBody_other C s I rest hI] at h
    cases hl : lowerInstr s I with
    | error e => rw [hl] at h; cases h
    | ok s2 =>
      rw [hl] at h
      injection h with h
      injection h with h _
      subst h
      have hc := lowerInstr_counters s s2 I hl
      have := stackStep_le (s.MaxStack, s.CurrentStack) I hg h1
      rw [← hc] at this
      exact this

theorem scan_highWater (C : Nat) :
    ∀ (n : Nat) (s0 s : State) (l r : List MachineInstr), s0.CurrentStack ≤ s0.MaxStack →
      scan C n s0 l = .ok (s, r) →
      (∀ m sm I rm, m < n → scan C m s0 l = .ok (sm, I :: rm) → closesStack I = true →
        0 < sm.CurrentStack) →
      s.CurrentStack ≤ s.MaxStack := by
  intro n
  induction n with
  | zero =>
    intro s0 s l r h0 hrun _
    simp only [scan] at hrun
    injection hrun with hrun
    injection hrun with hs _
    rw [← hs]
    exact h0
  | succ n ih =>
    intro s0 s l r h0 hrun hno
    cases l with
    | nil =>
      simp only [scan] at hrun
      injection hrun with hrun
      injection hrun with hs _
      rw [← hs]
      exact h0
    | cons I rest =>
      simp only [scan] at hrun
      cases hb : loopBody C s0 I rest with
      | error e => rw [hb] at hrun; cases hrun
      | ok p =>
        obtain ⟨s1, rest1⟩ := p
        rw [hb] at hrun
        have h1 := loopBody_le C s0 s1 I rest rest1 hb h0
          (hno 0 s0 I rest (Nat.succ_pos n) rfl)
        refine ih s1 s rest1 r h1 hrun ?_
        intro m sm J rm hm hs hc
        refine hno (m + 1) sm J rm (by omega) ?_ hc
        simp only [scan, hb]
        exact hs

/-! ## The loop over the blocks -/

theorem runOnBlocks_error (C ST : Nat) (MF : List (List MachineInstr)) (M X : Nat) (e : Err)
    (h : runOnBlocks C ST M X MF = .error e) :
    ∃ MBB ∈ MF, ∃ M1 X1, runOnMachineBasicBlock C ST M1 X1 MBB = .error e := by
  induction MF generalizing M X with
  | nil => simp [runOnBlocks] at h
  | cons MBB MF ih =>
    simp only [runOnBlocks] at h
    cases hb : runOnMachineBasicBlock C ST M X MBB with
    | error e1 =>
      rw [hb] at h
      injection h with h
      subst h
      exact ⟨MBB, by simp, M, X, hb⟩
    | ok r =>
      obtain ⟨B, M1, X1⟩ := r
      rw [hb] at h
      simp only [] at h
      cases hr : runOnBlocks C ST M1 X1 MF with
      | error e1 =>
        rw [hr] at h
        injection h with h
        subst h
        obtain ⟨MBB1, hmem, M2, X2, h2⟩ := ih M1 X1 hr
        exact ⟨MBB1, by simp [hmem], M2, X2, h2⟩
      | ok Bs => rw [hr] at h; cases h

theorem runOnBlocks_ok (C ST : Nat) (MF : List (List MachineInstr)) (M X : Nat)
    (h : ∀ MBB ∈ MF, ∀ M1 X1, ∃ out, runOnMachineBasicBlock C ST M1 X1 MBB = .ok out) :
    ∃ Bs, runOnBlocks C ST M X MF = .ok Bs := by
  induction MF generalizing M X with
  | nil => exact ⟨[], rfl⟩
  | cons MBB MF ih =>
    obtain ⟨⟨B, M1, X1⟩, hb⟩ := h MBB (by simp) M X
    obtain ⟨Bs, hr⟩ := ih M1 X1 (fun MBB1 hmem => h MBB1 (by simp [hmem]))
    exact ⟨B :: Bs, by simp only [runOnBlocks, hb, hr]⟩

/-! ## The loop over the blocks -/

theorem runOnBlocks_error_iff (C ST : Nat) (MF : List (List MachineInstr)) :
    ∀ (M X : Nat) (e : Err), runOnBlocks C ST M X MF = .error e ↔
      ∃ pre B post M1 X1, MF = pre ++ B :: post ∧ stackAfter C ST M X pre = .ok (M1, X1)
        ∧ runOnMachineBasicBlock C ST M1 X1 B = .error e := by
  induction MF with
  | nil =>
    intro M X e
    constructor
    · intro h; simp [runOnBlocks] at h
    · rintro ⟨pre, B, post, M1, X1, h, -⟩
      simp at h
  | cons B0 rest ih =>
    intro M X e
    cases h0 : runOnMachineBasicBlock C ST M X B0 with
    | error e0 =>
      have hrun : runOnBlocks C ST M X (B0 :: rest) = .error e0 := by
        simp only [runOnBlocks, h0]
      rw [hrun]
      constructor
      · intro h
        injection h with h
        subst h
        exact ⟨[], B0, rest, M, X, rfl, rfl, h0⟩
      · rintro ⟨pre, B, post, M1, X1, hsplit, hpre, hB⟩
        cases pre with
        | nil =>
          simp only [List.nil_append, List.cons.injEq] at hsplit
          simp only [stackAfter, Except.ok.injEq, Prod.mk.injEq] at hpre
          rw [← hsplit.1, ← hpre.1, ← hpre.2, h0] at hB
          injection hB with hB
          rw [hB]
        | cons b pre' =>
          simp only [List.cons_append, List.cons.injEq] at hsplit
          rw [← hsplit.1] at hpre
          simp only [stackAfter, h0] at hpre
          cases hpre
    | ok r =>
      obtain ⟨out, M', X'⟩ := r
      have hrun : runOnBlocks C ST M X (B0 :: rest) = .error e ↔
          runOnBlocks C ST M' X' rest = .error e := by
        simp only [runOnBlocks, h0]
        cases runOnBlocks C ST M' X' rest with
        | ok Bs => simp
        | error e1 => simp
      rw [hrun, ih M' X' e]
      constructor
      · rintro ⟨pre, B, post, M1, X1, hsplit, hpre, hB⟩
        refine ⟨B0 :: pre, B, post, M1, X1, by rw [hsplit]; rfl, ?_, hB⟩
        simp only [stackAfter, h0]
        exact hpre
      · rintro ⟨pre, B, post, M1, X1, hsplit, hpre, hB⟩
        cases pre with
        | nil =>
          simp only [List.nil_append, List.cons.injEq] at hsplit
          simp only [stackAfter, Except.ok.injEq, Prod.mk.injEq] at hpre
          rw [← hsplit.1, ← hpre.1, ← hpre.2, h0] at hB
          cases hB
        | cons b pre' =>
          simp only [List.cons_append, List.cons.injEq] at hsplit
          rw [← hsplit.1] at hpre
          simp only [stackAfter, h0] at hpre
          exact ⟨pre', B, post, M1, X1, hsplit.2, hpre, hB⟩

theorem runOnBlocks_ok_getElem (C ST : Nat) (MF : List (List MachineInstr)) :
    ∀ (M X : Nat) (Bs : List (List MachineInstr)), runOnBlocks C ST M X MF = .ok Bs →
      Bs.length = MF.length
        ∧ ∀ (i : Nat) (B : List MachineInstr), MF[i]? = some B →
            ∃ M1 X1 out, stackAfter C ST M X (MF.take i) = .ok (M1, X1)
              ∧ runOnMachineBasicBlock C ST M1 X1 B = .ok out ∧ Bs[i]? = some out.1 := by
  induction MF with
  | nil =>
    intro M X Bs h
    simp only [runOnBlocks, Except.ok.injEq] at h
    subst h
    exact ⟨rfl, fun i B hB => by simp at hB⟩
  | cons B0 rest ih =>
    intro M X Bs h
    cases h0 : runOnMachineBasicBlock C ST M X B0 with
    | error e0 => simp [runOnBlocks, h0] at h
    | ok r =>
      obtain ⟨out, M', X'⟩ := r
      simp only [runOnBlocks, h0] at h
      cases hr : runOnBlocks C ST M' X' rest with
      | error e1 => rw [hr] at h; cases h
      | ok Bs' =>
        rw [hr] at h
        simp only [Except.ok.injEq] at h
        subst h
        obtain ⟨hlen, hget⟩ := ih M' X' Bs' hr
        refine ⟨by simp [hlen], ?_⟩
        intro i B hB
        cases i with
        | zero =>
          simp only [List.getElem?_cons_zero, Option.some.injEq] at hB
          subst hB
          exact ⟨M, X, (out, M', X'), rfl, h0, by simp⟩
        | succ j =>
          simp only [List.getElem?_cons_succ] at hB
          obtain ⟨M1, X1, o, h1, h2, h3⟩ := hget j B hB
          refine ⟨M1, X1, o, ?_, h2, by simpa using h3⟩
          simp only [List.take_succ_cons, stackAfter, h0]
          exact h1

theorem underflow_ne_notTerminated (s : State) (m : MachineInstr) (e : Err)
    (h : underflow s m = some e) : e ≠ .notTerminated := by
  obtain ⟨op, args⟩ := m
  intro he
  subst he
  cases op <;> simp only [underflow] at h <;> first | cases h | (split at h <;> cases h)

/-- The embedding of a block has no value exactly when the scan reaches a marker that reads
its stack while it is empty. -/
theorem runOnMachineBasicBlock_error_iff (C ST M X : Nat) (MBB : List MachineInstr) (e : Err)
    (hC : 0 < C) :
    runOnMachineBasicBlock C ST M X MBB = .error e ↔
      ∃ p m q s, MBB = p ++ m :: q ∧ scanBlock C ST M X p = .ok s ∧ underflow s m = some e := by
  have hrun : runOnMachineBasicBlock C ST M X MBB = .error e ↔
      scanBlock C ST M X MBB = .error e := by
    unfold runOnMachineBasicBlock
    cases scanBlock C ST M X MBB with
    | ok s => simp
    | error e2 => simp
  rw [hrun]
  constructor
  · intro h
    obtain ⟨p1, m, q, s, hl, hs, hu⟩ := (scanAll_error_iff C hC _ _ e).mp h
    by_cases hST : ST = 1
    · simp only [blockEntry, hST, if_true] at hl hs
      cases p1 with
      | nil =>
        simp only [List.nil_append, List.cons.injEq] at hl
        rw [← hl.1] at hu
        simp [underflow] at hu
      | cons a p =>
        simp only [List.cons_append, List.cons.injEq] at hl
        refine ⟨p, m, q, s, hl.2, ?_, hu⟩
        rw [← hl.1] at hs
        simp only [scanBlock, blockEntry, hST, if_true]
        exact hs
    · simp only [blockEntry, hST, if_false] at hl hs
      refine ⟨p1, m, q, s, hl, ?_, hu⟩
      simp only [scanBlock, blockEntry, hST, if_false]
      exact hs
  · rintro ⟨p, m, q, s, hl, hs, hu⟩
    rw [hl, scanBlock_append]
    exact (scanAll_error_iff C hC _ _ e).mpr ⟨_, m, q, s, rfl, hs, hu⟩

theorem runOnMachineFunction_error_iff (C ST : Nat) (MF : List (List MachineInstr)) (e : Err) :
    runOnMachineFunction C ST MF = .error e ↔ runOnBlocks C ST 0 0 MF = .error e := by
  unfold runOnMachineFunction
  cases runOnBlocks C ST 0 0 MF with
  | ok Bs => simp
  | error e1 => simp

theorem runOnMachineFunction_ok_iff (C ST : Nat) (MF Bs : List (List MachineInstr)) (b : Bool) :
    runOnMachineFunction C ST MF = .ok (Bs, b) ↔
      runOnBlocks C ST 0 0 MF = .ok Bs ∧ b = false := by
  unfold runOnMachineFunction
  cases runOnBlocks C ST 0 0 MF with
  | ok Bs1 =>
    simp only [Except.ok.injEq, Prod.mk.injEq]
    constructor
    · rintro ⟨h1, h2⟩; exact ⟨h1, h2.symm⟩
    · rintro ⟨h1, h2⟩; exact ⟨h1, h2.symm⟩
  | error e1 => simp

/-! # The claims -/

/-- C1 (defect of the code): the `COUNT` operand of a clause header can exceed
`MaxFetchInst`.  With capacity 16 a block of 17 contiguous `TEX_SAMPLE` gets a first
header `CF_TC 0 17` (followed by 16 fetches, then `CF_TC 0 1` and the last fetch); with
capacity 8 a block of 9 contiguous `TEX_LD` gets a first header `CF_TC 0 9`.  For either
capacity `C` the constructor can choose, the call of `MakeFetchClause` on `C + 1` contiguous
`TEX_SAMPLE` writes `COUNT = C + 1` and returns the position of the last of them. -/
theorem C1_count_exceeds_capacity :
    runOnMachineBasicBlock 16 0 0 0 (List.replicate 17 ⟨.TEX_SAMPLE, []⟩)
        = .ok (⟨.STACK_SIZE, [0]⟩ :: ⟨.CF_TC, [0, 17]⟩
                :: (List.replicate 16 ⟨.TEX_SAMPLE, []⟩
                    ++ [⟨.CF_TC, [0, 1]⟩, ⟨.TEX_SAMPLE, []⟩]), 0, 0)
      ∧ runOnMachineBasicBlock 8 0 0 0 (List.replicate 9 ⟨.TEX_LD, []⟩)
        = .ok (⟨.STACK_SIZE, [0]⟩ :: ⟨.CF_TC, [0, 9]⟩
                :: (List.replicate 8 ⟨.TEX_LD, []⟩
                    ++ [⟨.CF_TC, [0, 1]⟩, ⟨.TEX_LD, []⟩]), 0, 0)
      ∧ ∀ Generation HD4XXX : Nat,
          MakeFetchClause (MaxFetchInstOf Generation HD4XXX) []
              (List.replicate (MaxFetchInstOf Generation HD4XXX + 1) ⟨.TEX_SAMPLE, []⟩) 0
            = (⟨.CF_TC, [0, ((MaxFetchInstOf Generation HD4XXX + 1 : Nat) : Int)]⟩
                :: List.replicate (MaxFetchInstOf Generation HD4XXX) ⟨.TEX_SAMPLE, []⟩,
               [⟨.TEX_SAMPLE, []⟩]) := by
  refine ⟨rfl, rfl, ?_⟩
  intro Generation HD4XXX
  unfold MaxFetchInstOf
  split_ifs <;> rfl

/-- C2 (defect of the code): for 20 contiguous fetch instructions and capacity 16 the two
clause headers carry the counts 17 and 4 (sum 21), not 16 and 4: the call of
`MakeFetchClause` at the first fetch returns the position of the 17th fetch, 16 fetch
instructions behind the start, with `COUNT = 17`. -/
theorem C2_twenty_fetches_counts :
    MakeFetchClause 16 [] (List.replicate 20 ⟨.TEX_SAMPLE, []⟩) 0
        = (⟨.CF_TC, [0, 17]⟩ :: List.replicate 16 ⟨.TEX_SAMPLE, []⟩,
           List.replicate 4 ⟨.TEX_SAMPLE, []⟩)
      ∧ scanBlock 16 0 0 0 (List.replicate 20 ⟨.TEX_SAMPLE, []⟩)
        = .ok ⟨⟨.CF_TC, [0, 17]⟩ :: (List.replicate 16 ⟨.TEX_SAMPLE, []⟩
                ++ ⟨.CF_TC, [0, 4]⟩ :: List.replicate 4 ⟨.TEX_SAMPLE, []⟩), 2, [], [], 0, 0⟩ := by
  refine ⟨rfl, rfl⟩

/-- C3: a block of `N` contiguous fetch instructions, scanned with capacity `C ≥ 1` and no
stage-entry instruction, ends with `CfCount = ⌈N / C⌉` and contains exactly `⌈N / C⌉`
clause headers `CF_TC`; the header of clause `q` has address operand 0 and stands at
position `q * (C + 1)`, immediately before the fetch instructions `q * C, ...` of the block,
which follow it unchanged. -/
theorem C3_number_of_clauses (C ST M X : Nat) (l : List MachineInstr) (hC : 0 < C)
    (hST : ST ≠ 1) (hl : ∀ I ∈ l, isFetch I = true) :
    ∃ s, scanBlock C ST M X l = .ok s
      ∧ runOnMachineBasicBlock C ST M X l
          = .ok (⟨.STACK_SIZE, [(s.MaxStack : Int)]⟩ :: s.MBB, s.MaxStack, s.CurrentStack)
      ∧ s.CfCount = (l.length + C - 1) / C
      ∧ (s.MBB.filter (fun MI => decide (MI.opcode = .CF_TC))).length = (l.length + C - 1) / C
      ∧ s.MBB.length = l.length + (l.length + C - 1) / C
      ∧ ∀ q, q < (l.length + C - 1) / C →
          (∃ cnt : Nat, s.MBB[q * (C + 1)]? = some ⟨.CF_TC, [0, (cnt : Int)]⟩)
          ∧ ∀ i, i < C → q * C + i < l.length → s.MBB[q * (C + 1) + 1 + i]? = l[q * C + i]? := by
  obtain ⟨s, hs, hcf, hlen, -, hfilt, hpos⟩ :=
    scanAll_allFetch C hC l.length l ⟨[], 0, [], [], M, X⟩ (le_refl _) hl
  have hsb : scanBlock C ST M X l = .ok s := by
    unfold scanBlock blockEntry
    simp only [hST, if_false]
    exact hs
  refine ⟨s, hsb, runOnMachineBasicBlock_of_scanBlock C ST M X l s hsb, ?_, ?_, ?_, ?_⟩
  · simpa using hcf
  · simpa using hfilt
  · simpa using hlen
  · intro q hq
    have := hpos q hq
    simpa using this

/-- C3, witness: three fetch instructions, capacity 16. -/
theorem C3_number_of_clauses_witness :
    0 < 16 ∧ (0 : Nat) ≠ 1
      ∧ (∀ I ∈ [(⟨.TEX_SAMPLE, []⟩ : MachineInstr), ⟨.TEX_LD, []⟩, ⟨.TXD, []⟩], isFetch I = true)
      ∧ ∃ s, scanBlock 16 0 0 0 [⟨.TEX_SAMPLE, []⟩, ⟨.TEX_LD, []⟩, ⟨.TXD, []⟩] = .ok s
        ∧ runOnMachineBasicBlock 16 0 0 0 [⟨.TEX_SAMPLE, []⟩, ⟨.TEX_LD, []⟩, ⟨.TXD, []⟩]
            = .ok (⟨.STACK_SIZE, [(s.MaxStack : Int)]⟩ :: s.MBB, s.MaxStack, s.CurrentStack)
        ∧ s.CfCount = (3 + 16 - 1) / 16
        ∧ (s.MBB.filter (fun MI => decide (MI.opcode = .CF_TC))).length = (3 + 16 - 1) / 16
        ∧ s.MBB.length = 3 + (3 + 16 - 1) / 16
        ∧ ∀ q, q < (3 + 16 - 1) / 16 →
            (∃ cnt : Nat, s.MBB[q * (16 + 1)]? = some ⟨.CF_TC, [0, (cnt : Int)]⟩)
            ∧ ∀ i, i < 16 → q * 16 + i < 3 →
                s.MBB[q * (16 + 1) + 1 + i]?
                  = [(⟨.TEX_SAMPLE, []⟩ : MachineInstr), ⟨.TEX_LD, []⟩, ⟨.TXD, []⟩][q * 16 + i]? :=
  ⟨by decide, by decide, by decide,
   C3_number_of_clauses 16 0 0 0 [⟨.TEX_SAMPLE, []⟩, ⟨.TEX_LD, []⟩, ⟨.TXD, []⟩]
     (by decide) (by decide) (by decide)⟩

/-- C4: in a block `pre ++ IF_PREDICATE_SET :: body ++ ENDIF :: post` whose `body` is
balanced in ifs (so the `ENDIF` closes this if, with no `ELSE` at its level), once the
block is scanned the `CF_JUMP` emitted for the if (at the position the scan had reached at
the if, where it stood with operands `0, 0` until the `ENDIF`) carries as operand 0 the
value `CfCount` had when the `ENDIF` was reached; the `POP` emitted for that `ENDIF` stands
at the position reached there. -/
theorem C4_if_endif_backpatch (C ST M X : Nat) (pre body post : List MachineInstr)
    (mIf mEnd : MachineInstr) (sF : State) (hC : 0 < C)
    (hIf : mIf.opcode = .IF_PREDICATE_SET) (hEnd : mEnd.opcode = .ENDIF)
    (hbal : ifBalanced body)
    (hrun : scanBlock C ST M X (pre ++ mIf :: (body ++ mEnd :: post)) = .ok sF) :
    ∃ s1 s2, scanBlock C ST M X pre = .ok s1
      ∧ scanBlock C ST M X (pre ++ mIf :: body) = .ok s2
      ∧ scanAll C s2 (mEnd :: post) = .ok sF
      ∧ s2.MBB[s1.MBB.length]? = some ⟨.CF_JUMP, [0, 0]⟩
      ∧ s2.IfThenElseStack.head? = some s1.MBB.length
      ∧ sF.MBB[s1.MBB.length]? = some ⟨.CF_JUMP, [(s2.CfCount : Int), 0]⟩
      ∧ sF.MBB[s2.MBB.length]? = some ⟨.POP, [((s2.CfCount + 1 : Nat) : Int), 1]⟩
      ∧ runOnMachineBasicBlock C ST M X (pre ++ mIf :: (body ++ mEnd :: post))
          = .ok (⟨.STACK_SIZE, [(sF.MaxStack : Int)]⟩ :: sF.MBB, sF.MaxStack,
                 sF.CurrentStack) := by
  have hrun1 := hrun
  rw [scanBlock_append] at hrun1
  obtain ⟨s1, s2, h1, h2, h3, h4, h5, h6, h7⟩ :=
    scanAll_if_endif C hC _ sF _ body post mIf mEnd hIf hEnd (blockEntry_Inv ST M X pre)
      hbal hrun1
  refine ⟨s1, s2, h1, ?_, h3, h4, h5, h6, h7,
    runOnMachineBasicBlock_of_scanBlock C ST M X _ sF hrun⟩
  rw [scanBlock_append]
  exact h2

/-- C4, witness: `[TEX_SAMPLE, IF_PREDICATE_SET, CF_ALU, ENDIF]`. -/
theorem C4_if_endif_backpatch_witness :
    0 < 16 ∧ ifBalanced [⟨.CF_ALU, []⟩]
      ∧ scanBlock 16 0 0 0 ([⟨.TEX_SAMPLE, []⟩] ++ ⟨.IF_PREDICATE_SET, []⟩
            :: ([⟨.CF_ALU, []⟩] ++ ⟨.ENDIF, []⟩ :: []))
          = .ok ⟨[⟨.CF_TC, [0, 1]⟩, ⟨.TEX_SAMPLE, []⟩, ⟨.CF_JUMP, [3, 0]⟩, ⟨.CF_ALU, []⟩,
                  ⟨.POP, [4, 1]⟩], 4, [], [], 0, 4294967295⟩
      ∧ ∃ s1 s2, scanBlock 16 0 0 0 [⟨.TEX_SAMPLE, []⟩] = .ok s1
        ∧ scanBlock 16 0 0 0 ([⟨.TEX_SAMPLE, []⟩] ++ ⟨.IF_PREDICATE_SET, []⟩
            :: [⟨.CF_ALU, []⟩]) = .ok s2
        ∧ scanAll 16 s2 (⟨.ENDIF, []⟩ :: [])
            = .ok ⟨[⟨.CF_TC, [0, 1]⟩, ⟨.TEX_SAMPLE, []⟩, ⟨.CF_JUMP, [3, 0]⟩, ⟨.CF_ALU, []⟩,
                    ⟨.POP, [4, 1]⟩], 4, [], [], 0, 4294967295⟩
        ∧ s2.MBB[s1.MBB.length]? = some ⟨.CF_JUMP, [0, 0]⟩
        ∧ s2.IfThenElseStack.head? = some s1.MBB.length
        ∧ [(⟨.CF_TC, [0, 1]⟩ : MachineInstr), ⟨.TEX_SAMPLE, []⟩, ⟨.CF_JUMP, [3, 0]⟩,
            ⟨.CF_ALU, []⟩, ⟨.POP, [4, 1]⟩][s1.MBB.length]?
            = some ⟨.CF_JUMP, [(s2.CfCount : Int), 0]⟩
        ∧ [(⟨.CF_TC, [0, 1]⟩ : MachineInstr), ⟨.TEX_SAMPLE, []⟩, ⟨.CF_JUMP, [3, 0]⟩,
            ⟨.CF_ALU, []⟩, ⟨.POP, [4, 1]⟩][s2.MBB.length]?
            = some ⟨.POP, [((s2.CfCount + 1 : Nat) : Int), 1]⟩
        ∧ runOnMachineBasicBlock 16 0 0 0 ([⟨.TEX_SAMPLE, []⟩] ++ ⟨.IF_PREDICATE_SET, []⟩
              :: ([⟨.CF_ALU, []⟩] ++ ⟨.ENDIF, []⟩ :: []))
            = .ok (⟨.STACK_SIZE, [((0 : Nat) : Int)]⟩ ::
                    [⟨.CF_TC, [0, 1]⟩, ⟨.TEX_SAMPLE, []⟩, ⟨.CF_JUMP, [3, 0]⟩, ⟨.CF_ALU, []⟩,
                     ⟨.POP, [4, 1]⟩], 0, 4294967295) :=
  ⟨by decide, by decide, rfl,
   C4_if_endif_backpatch 16 0 0 0 [⟨.TEX_SAMPLE, []⟩] [⟨.CF_ALU, []⟩] []
     ⟨.IF_PREDICATE_SET, []⟩ ⟨.ENDIF, []⟩ _ (by decide) rfl rfl (by decide) rfl⟩

/-- C5: in a block `pre ++ WHILELOOP :: b1 ++ m1 :: b2 ++ m2 :: b3 ++ ENDLOOP :: post`,
where `m1` and `m2` are a `CONTINUE` and a `PREDICATED_BREAK` (in either order) and `b1`,
`b2`, `b3` are balanced in loops (so `m1`, `m2` and the `ENDLOOP` belong to this loop), the
emitted `CF_CONTINUE` and `LOOP_BREAK` are members of the patch set on top of the loop stack
when the `ENDLOOP` is reached (the entry pushed by this `WHILELOOP`), and once the block is
scanned both carry the value `CfCount` had when the `ENDLOOP` was reached, which is the
control-flow index of the emitted `END_LOOP`. -/
theorem C5_loop_exit_backpatch (C ST M X : Nat) (pre b1 b2 b3 post : List MachineInstr)
    (mW m1 m2 mE : MachineInstr) (sF : State) (hC : 0 < C)
    (hW : mW.opcode = .WHILELOOP) (hE : mE.opcode = .ENDLOOP)
    (hm1 : m1.opcode = .CONTINUE ∨ m1.opcode = .PREDICATED_BREAK)
    (hm2 : m2.opcode = .CONTINUE ∨ m2.opcode = .PREDICATED_BREAK)
    (hb1 : loopBalanced b1) (hb2 : loopBalanced b2) (hb3 : loopBalanced b3)
    (hrun : scanBlock C ST M X
      (pre ++ mW :: (b1 ++ m1 :: (b2 ++ m2 :: (b3 ++ mE :: post)))) = .ok sF) :
    ∃ sW sa sb sE,
      scanBlock C ST M X pre = .ok sW
      ∧ scanBlock C ST M X (pre ++ mW :: b1) = .ok sa
      ∧ scanBlock C ST M X (pre ++ mW :: (b1 ++ m1 :: b2)) = .ok sb
      ∧ scanBlock C ST M X (pre ++ mW :: (b1 ++ m1 :: (b2 ++ m2 :: b3))) = .ok sE
      ∧ scanAll C sE (mE :: post) = .ok sF
      ∧ (∃ e LS, sE.LoopStack = e :: LS ∧ e.1 = sW.CfCount ∧ sW.MBB.length ∈ e.2
            ∧ exitIndex sa m1 ∈ e.2 ∧ exitIndex sb m2 ∈ e.2)
      ∧ sF.MBB[exitIndex sa m1]? = some ⟨exitOpcode m1, [(sE.CfCount : Int)]⟩
      ∧ sF.MBB[exitIndex sb m2]? = some ⟨exitOpcode m2, [(sE.CfCount : Int)]⟩
      ∧ sF.MBB[sE.MBB.length]? = some ⟨.END_LOOP, [((sW.CfCount + 1 : Nat) : Int)]⟩ := by
  rw [scanBlock_append] at hrun
  obtain ⟨sW, sa, sb, sE, h1, h2, h3, h4, h5, h6, h7, h8, h9⟩ :=
    scanAll_loop_exits C hC _ sF _ b1 b2 b3 post mW m1 m2 mE hW hE hm1 hm2 hb1 hb2 hb3
      (blockEntry_Inv ST M X pre) hrun
  refine ⟨sW, sa, sb, sE, h1, ?_, ?_, ?_, h5, h6, h7, h8, h9⟩
  · rw [scanBlock_append]; exact h2
  · rw [scanBlock_append]; exact h3
  · rw [scanBlock_append]; exact h4

/-- C5, witness: `[WHILELOOP, CONTINUE, PREDICATED_BREAK, ENDLOOP]`. -/
theorem C5_loop_exit_backpatch_witness :
    0 < 16 ∧ loopBalanced []
      ∧ scanBlock 16 0 0 0 ([] ++ ⟨.WHILELOOP, []⟩ :: ([] ++ ⟨.CONTINUE, []⟩
          :: ([] ++ ⟨.PREDICATED_BREAK, []⟩ :: ([] ++ ⟨.ENDLOOP, []⟩ :: []))))
          = .ok ⟨[⟨.WHILE_LOOP, [7]⟩, ⟨.CF_CONTINUE, [5]⟩, ⟨.CF_JUMP, [5, 1]⟩,
                  ⟨.LOOP_BREAK, [5]⟩, ⟨.POP, [5, 1]⟩, ⟨.END_LOOP, [1]⟩], 6, [], [], 1,
                 4294967295⟩
      ∧ ∃ sW sa sb sE,
        scanBlock 16 0 0 0 [] = .ok sW
        ∧ scanBlock 16 0 0 0 ([] ++ ⟨.WHILELOOP, []⟩ :: []) = .ok sa
        ∧ scanBlock 16 0 0 0 ([] ++ ⟨.WHILELOOP, []⟩ :: ([] ++ ⟨.CONTINUE, []⟩ :: [])) = .ok sb
        ∧ scanBlock 16 0 0 0 ([] ++ ⟨.WHILELOOP, []⟩ :: ([] ++ ⟨.CONTINUE, []⟩
            :: ([] ++ ⟨.PREDICATED_BREAK, []⟩ :: []))) = .ok sE
        ∧ scanAll 16 sE (⟨.ENDLOOP, []⟩ :: [])
            = .ok ⟨[⟨.WHILE_LOOP, [7]⟩, ⟨.CF_CONTINUE, [5]⟩, ⟨.CF_JUMP, [5, 1]⟩,
                    ⟨.LOOP_BREAK, [5]⟩, ⟨.POP, [5, 1]⟩, ⟨.END_LOOP, [1]⟩], 6, [], [], 1,
                   4294967295⟩
        ∧ (∃ e LS, sE.LoopStack = e :: LS ∧ e.1 = sW.CfCount ∧ sW.MBB.length ∈ e.2
              ∧ exitIndex sa ⟨.CONTINUE, []⟩ ∈ e.2
              ∧ exitIndex sb ⟨.PREDICATED_BREAK, []⟩ ∈ e.2)
        ∧ [(⟨.WHILE_LOOP, [7]⟩ : MachineInstr), ⟨.CF_CONTINUE, [5]⟩, ⟨.CF_JUMP, [5, 1]⟩,
            ⟨.LOOP_BREAK, [5]⟩, ⟨.POP, [5, 1]⟩, ⟨.END_LOOP, [1]⟩][exitIndex sa ⟨.CONTINUE, []⟩]?
            = some ⟨exitOpcode ⟨.CONTINUE, []⟩, [(sE.CfCount : Int)]⟩
        ∧ [(⟨.WHILE_LOOP, [7]⟩ : MachineInstr), ⟨.CF_CONTINUE, [5]⟩, ⟨.CF_JUMP, [5, 1]⟩,
            ⟨.LOOP_BREAK, [5]⟩, ⟨.POP, [5, 1]⟩,
            ⟨.END_LOOP, [1]⟩][exitIndex sb ⟨.PREDICATED_BREAK, []⟩]?
            = some ⟨exitOpcode ⟨.PREDICATED_BREAK, []⟩, [(sE.CfCount : Int)]⟩
        ∧ [(⟨.WHILE_LOOP, [7]⟩ : MachineInstr), ⟨.CF_CONTINUE, [5]⟩, ⟨.CF_JUMP, [5, 1]⟩,
            ⟨.LOOP_BREAK, [5]⟩, ⟨.POP, [5, 1]⟩, ⟨.END_LOOP, [1]⟩][sE.MBB.length]?
            = some ⟨.END_LOOP, [((sW.CfCount + 1 : Nat) : Int)]⟩ :=
  ⟨by decide, by decide, rfl,
   C5_loop_exit_backpatch 16 0 0 0 [] [] [] [] [] ⟨.WHILELOOP, []⟩ ⟨.CONTINUE, []⟩
     ⟨.PREDICATED_BREAK, []⟩ ⟨.ENDLOOP, []⟩ _ (by decide) rfl rfl (Or.inl rfl) (Or.inr rfl)
     (by decide) (by decide) (by decide) rfl⟩

/-- C6, counterexample: the block `[WHILELOOP, IF_PREDICATE_SET, IF_PREDICATE_SET, ENDIF,
ENDIF, ENDLOOP]` (loop, if, if nested three deep) leaves `MaxStack = 1` and gets
`STACK_SIZE 1`, not 3. -/
theorem C6_counterexample :
    runOnMachineBasicBlock 16 0 0 0
        [⟨.WHILELOOP, []⟩, ⟨.IF_PREDICATE_SET, []⟩, ⟨.IF_PREDICATE_SET, []⟩, ⟨.ENDIF, []⟩,
         ⟨.ENDIF, []⟩, ⟨.ENDLOOP, []⟩]
      = .ok ([⟨.STACK_SIZE, [1]⟩, ⟨.WHILE_LOOP, [7]⟩, ⟨.CF_JUMP, [4, 0]⟩, ⟨.CF_JUMP, [3, 0]⟩,
              ⟨.POP, [4, 1]⟩, ⟨.POP, [5, 1]⟩, ⟨.END_LOOP, [1]⟩], 1, 4294967294) := rfl

/-- C6, as amended: `MaxStack` counts loops and `CF_ALU_PUSH_BEFORE` pushes; an
`IF_PREDICATE_SET` does not raise it.  The block `[WHILELOOP, CF_ALU_PUSH_BEFORE,
IF_PREDICATE_SET, CF_ALU_PUSH_BEFORE, IF_PREDICATE_SET, ENDIF, ENDIF, ENDLOOP]`, processed
from `MaxStack = CurrentStack = 0`, leaves `MaxStack = 3` and gets `STACK_SIZE 3`.  In
general, take a block entered with `CurrentStack ≤ MaxStack` and an initial part `p` of it
throughout which `CurrentStack` does not wrap: at every point of `p`, `CurrentStack` at
entry plus the number of `WHILELOOP` and `CF_ALU_PUSH_BEFORE` so far is at least the number
of `ENDLOOP`, `ENDIF` and `PREDICATED_BREAK` so far, and less than that number plus
`2 ^ 32`.  Then the operand of `STACK_SIZE` is at least `CurrentStack` at entry plus the
number of `WHILELOOP` and `CF_ALU_PUSH_BEFORE` in `p` minus the number of `ENDLOOP`,
`ENDIF` and `PREDICATED_BREAK` in `p`.  Where `CurrentStack` wraps the bound can fail: the
block `[WHILELOOP]` entered with `MaxStack = CurrentStack = 4294967295` gets
`STACK_SIZE 4294967295`. -/
theorem C6_stack_size_counts_pushes :
    runOnMachineBasicBlock 16 0 0 0
        [⟨.WHILELOOP, []⟩, ⟨.CF_ALU_PUSH_BEFORE, []⟩, ⟨.IF_PREDICATE_SET, []⟩,
         ⟨.CF_ALU_PUSH_BEFORE, []⟩, ⟨.IF_PREDICATE_SET, []⟩, ⟨.ENDIF, []⟩, ⟨.ENDIF, []⟩,
         ⟨.ENDLOOP, []⟩]
      = .ok ([⟨.STACK_SIZE, [3]⟩, ⟨.WHILE_LOOP, [9]⟩, ⟨.CF_ALU_PUSH_BEFORE, []⟩,
              ⟨.CF_JUMP, [6, 0]⟩, ⟨.CF_ALU_PUSH_BEFORE, []⟩, ⟨.CF_JUMP, [5, 0]⟩,
              ⟨.POP, [6, 1]⟩, ⟨.POP, [7, 1]⟩, ⟨.END_LOOP, [1]⟩], 3, 0)
    ∧ (∀ (C ST M0 X0 : Nat) (MBB p q : List MachineInstr) (sF : State), 0 < C → X0 ≤ M0 →
        scanBlock C ST M0 X0 MBB = .ok sF → MBB = p ++ q →
        (∀ p1 p2, p = p1 ++ p2 →
          stackCloses p1 ≤ X0 + stackOpens p1
            ∧ X0 + stackOpens p1 < 2 ^ 32 + stackCloses p1) →
        runOnMachineBasicBlock C ST M0 X0 MBB
            = .ok (⟨.STACK_SIZE, [(sF.MaxStack : Int)]⟩ :: sF.MBB, sF.MaxStack,
                   sF.CurrentStack)
          ∧ X0 + stackOpens p ≤ sF.MaxStack + stackCloses p)
    ∧ runOnMachineBasicBlock 16 0 4294967295 4294967295 [⟨.WHILELOOP, []⟩]
        = .ok ([⟨.STACK_SIZE, [4294967295]⟩, ⟨.WHILE_LOOP, [2]⟩], 4294967295, 0) := by
  refine ⟨rfl, ?_, rfl⟩
  intro C ST M0 X0 MBB p q sF hC hX hrun hsplit hrange
  refine ⟨runOnMachineBasicBlock_of_scanBlock C ST M0 X0 MBB sF hrun, ?_⟩
  have hc := scanBlock_counters C hC ST M0 X0 MBB sF hrun
  rw [hsplit, List.foldl_append] at hc
  have hex := foldl_stackStep_inRange p (M0, X0) hX hrange
  have hmono := foldl_stackStep_max_le q (p.foldl stackStep (M0, X0))
  rw [← hc] at hmono
  simp only at hmono hex
  omega

/-- C6, witness: the general part at `[WHILELOOP, CF_ALU_PUSH_BEFORE, IF_PREDICATE_SET,
ENDIF, ENDLOOP]` and its initial part of length 2. -/
theorem C6_stack_size_counts_pushes_witness :
    runOnMachineBasicBlock 16 0 0 0
        [⟨.WHILELOOP, []⟩, ⟨.CF_ALU_PUSH_BEFORE, []⟩, ⟨.IF_PREDICATE_SET, []⟩, ⟨.ENDIF, []⟩,
         ⟨.ENDLOOP, []⟩]
        = .ok (⟨.STACK_SIZE, [((2 : Nat) : Int)]⟩ ::
                [⟨.WHILE_LOOP, [6]⟩, ⟨.CF_ALU_PUSH_BEFORE, []⟩, ⟨.CF_JUMP, [3, 0]⟩,
                 ⟨.POP, [4, 1]⟩, ⟨.END_LOOP, [1]⟩], 2, 0)
      ∧ 0 + stackOpens [⟨.WHILELOOP, []⟩, ⟨.CF_ALU_PUSH_BEFORE, []⟩]
          ≤ 2 + stackCloses [⟨.WHILELOOP, []⟩, ⟨.CF_ALU_PUSH_BEFORE, []⟩] :=
  C6_stack_size_counts_pushes.2.1 16 0 0 0
    [⟨.WHILELOOP, []⟩, ⟨.CF_ALU_PUSH_BEFORE, []⟩, ⟨.IF_PREDICATE_SET, []⟩, ⟨.ENDIF, []⟩,
     ⟨.ENDLOOP, []⟩]
    [⟨.WHILELOOP, []⟩, ⟨.CF_ALU_PUSH_BEFORE, []⟩]
    [⟨.IF_PREDICATE_SET, []⟩, ⟨.ENDIF, []⟩, ⟨.ENDLOOP, []⟩]
    ⟨[⟨.WHILE_LOOP, [6]⟩, ⟨.CF_ALU_PUSH_BEFORE, []⟩, ⟨.CF_JUMP, [3, 0]⟩, ⟨.POP, [4, 1]⟩,
      ⟨.END_LOOP, [1]⟩], 5, [], [], 2, 0⟩
    (by decide) (le_refl _) rfl rfl
    (fun p1 p2 h => by
      have hcl : stackCloses p1 ≤ stackCloses (p1 ++ p2) := by
        simp [stackCloses, List.countP_append]
      have hop : stackOpens p1 ≤ stackOpens (p1 ++ p2) := by
        simp [stackOpens, List.countP_append]
      rw [← h] at hcl hop
      have h0 : stackCloses [⟨.WHILELOOP, []⟩, ⟨.CF_ALU_PUSH_BEFORE, []⟩] = 0 := by decide
      have h2 : stackOpens [⟨.WHILELOOP, []⟩, ⟨.CF_ALU_PUSH_BEFORE, []⟩] = 2 := by decide
      constructor <;> omega)

/-- C7, counterexample: `[IF_PREDICATE_SET, ENDIF]` is well formed, and scanned from
`CurrentStack = 0` it ends with `CurrentStack = 4294967295` (both stacks are empty). -/
theorem C7_counterexample :
    wellFormed [⟨.IF_PREDICATE_SET, []⟩, ⟨.ENDIF, []⟩]
      ∧ scanBlock 16 0 0 0 [⟨.IF_PREDICATE_SET, []⟩, ⟨.ENDIF, []⟩]
          = .ok ⟨[⟨.CF_JUMP, [1, 0]⟩, ⟨.POP, [2, 1]⟩], 2, [], [], 0, 4294967295⟩ :=
  ⟨by decide, rfl⟩

/-- C7, as amended: for every well-formed block the scan reaches the end of the block with
the loop stack and the if/else stack empty, and `CurrentStack` ends at its value at entry
plus the number of `CF_ALU_PUSH_BEFORE` minus the number of `ENDIF` and of
`PREDICATED_BREAK`, modulo `2 ^ 32`; it is back at its value at entry when the block has as
many `CF_ALU_PUSH_BEFORE` as `ENDIF` and `PREDICATED_BREAK` together. -/
theorem C7_balance (C ST M0 X0 : Nat) (MBB : List MachineInstr) (hC : 0 < C)
    (hX : X0 < 2 ^ 32) (hwf : wellFormed MBB) :
    ∃ sF, scanBlock C ST M0 X0 MBB = .ok sF
      ∧ sF.LoopStack = [] ∧ sF.IfThenElseStack = []
      ∧ (sF.CurrentStack : Int)
          = ((X0 : Int) + (countOp .CF_ALU_PUSH_BEFORE MBB : Int) - (countOp .ENDIF MBB : Int)
              - (countOp .PREDICATED_BREAK MBB : Int)) % 2 ^ 32
      ∧ (countOp .CF_ALU_PUSH_BEFORE MBB = countOp .ENDIF MBB + countOp .PREDICATED_BREAK MBB →
          sF.CurrentStack = X0) := by
  have hd := ghostRun_nest_depth MBB [] [] hwf
  simp only [List.count_nil] at hd
  have hd2 : ghostRun depthStep (stackSizes (blockEntry ST M0 X0 MBB).1)
      (blockEntry ST M0 X0 MBB).2 = some (0, 0) := by
    rw [ghostRun_depthStep_blockEntry]
    exact hd
  obtain ⟨sF, hs, hsz⟩ := scanAll_depth_ok C hC _ _ _ hd2
  have hrun : scanBlock C ST M0 X0 MBB = .ok sF := hs
  simp only [stackSizes, Prod.mk.injEq, List.length_eq_zero] at hsz
  have hc := scanBlock_counters C hC ST M0 X0 MBB sF hrun
  have hmod := foldl_stackStep_mod MBB (M0, X0)
  have hlt := foldl_stackStep_lt MBB (M0, X0) hX
  rw [← hc] at hmod hlt
  simp only at hmod hlt
  have hloops := ghostRun_nest_loops MBB [] [] hwf
  simp only [List.count_nil, Nat.zero_add] at hloops
  rw [stackOpens_eq, stackCloses_eq, hloops] at hmod
  refine ⟨sF, hrun, hsz.1, hsz.2, ?_, ?_⟩
  · omega
  · intro heq
    omega

/-- C7, witness: `[WHILELOOP, CF_ALU_PUSH_BEFORE, IF_PREDICATE_SET, ELSE, ENDIF, ENDLOOP]`. -/
theorem C7_balance_witness :
    0 < 16 ∧ 0 < 2 ^ 32
      ∧ wellFormed [⟨.WHILELOOP, []⟩, ⟨.CF_ALU_PUSH_BEFORE, []⟩, ⟨.IF_PREDICATE_SET, []⟩,
          ⟨.ELSE, []⟩, ⟨.ENDIF, []⟩, ⟨.ENDLOOP, []⟩]
      ∧ ∃ sF, scanBlock 16 0 0 0 [⟨.WHILELOOP, []⟩, ⟨.CF_ALU_PUSH_BEFORE, []⟩,
            ⟨.IF_PREDICATE_SET, []⟩, ⟨.ELSE, []⟩, ⟨.ENDIF, []⟩, ⟨.ENDLOOP, []⟩] = .ok sF
        ∧ sF.LoopStack = [] ∧ sF.IfThenElseStack = []
        ∧ (sF.CurrentStack : Int)
            = (((0 : Nat) : Int)
                + (countOp .CF_ALU_PUSH_BEFORE [⟨.WHILELOOP, []⟩, ⟨.CF_ALU_PUSH_BEFORE, []⟩,
                    ⟨.IF_PREDICATE_SET, []⟩, ⟨.ELSE, []⟩, ⟨.ENDIF, []⟩, ⟨.ENDLOOP, []⟩] : Int)
                - (countOp .ENDIF [⟨.WHILELOOP, []⟩, ⟨.CF_ALU_PUSH_BEFORE, []⟩,
                    ⟨.IF_PREDICATE_SET, []⟩, ⟨.ELSE, []⟩, ⟨.ENDIF, []⟩, ⟨.ENDLOOP, []⟩] : Int)
                - (countOp .PREDICATED_BREAK [⟨.WHILELOOP, []⟩, ⟨.CF_ALU_PUSH_BEFORE, []⟩,
                    ⟨.IF_PREDICATE_SET, []⟩, ⟨.ELSE, []⟩, ⟨.ENDIF, []⟩, ⟨.ENDLOOP, []⟩] : Int))
              % 2 ^ 32
        ∧ (countOp .CF_ALU_PUSH_BEFORE [⟨.WHILELOOP, []⟩, ⟨.CF_ALU_PUSH_BEFORE, []⟩,
              ⟨.IF_PREDICATE_SET, []⟩, ⟨.ELSE, []⟩, ⟨.ENDIF, []⟩, ⟨.ENDLOOP, []⟩]
            = countOp .ENDIF [⟨.WHILELOOP, []⟩, ⟨.CF_ALU_PUSH_BEFORE, []⟩,
                ⟨.IF_PREDICATE_SET, []⟩, ⟨.ELSE, []⟩, ⟨.ENDIF, []⟩, ⟨.ENDLOOP, []⟩]
              + countOp .PREDICATED_BREAK [⟨.WHILELOOP, []⟩, ⟨.CF_ALU_PUSH_BEFORE, []⟩,
                ⟨.IF_PREDICATE_SET, []⟩, ⟨.ELSE, []⟩, ⟨.ENDIF, []⟩, ⟨.ENDLOOP, []⟩] →
            sF.CurrentStack = 0) :=
  ⟨by decide, by decide, by decide,
   C7_balance 16 0 0 0 [⟨.WHILELOOP, []⟩, ⟨.CF_ALU_PUSH_BEFORE, []⟩, ⟨.IF_PREDICATE_SET, []⟩,
     ⟨.ELSE, []⟩, ⟨.ENDIF, []⟩, ⟨.ENDLOOP, []⟩] (by decide) (by decide) (by decide)⟩

/-- C8, counterexample: the block `[TEX_SAMPLE, TEX_SAMPLE, CF_ALU, WHILELOOP,
IF_PREDICATE_SET, PREDICATED_BREAK, ENDLOOP]`, whose `ENDIF` is missing, is processed
without error; the `CF_JUMP` of the unclosed if keeps address 0. -/
theorem C8_counterexample :
    runOnMachineBasicBlock 16 0 0 0
        [⟨.TEX_SAMPLE, []⟩, ⟨.TEX_SAMPLE, []⟩, ⟨.CF_ALU, []⟩, ⟨.WHILELOOP, []⟩,
         ⟨.IF_PREDICATE_SET, []⟩, ⟨.PREDICATED_BREAK, []⟩, ⟨.ENDLOOP, []⟩]
      = .ok ([⟨.STACK_SIZE, [1]⟩, ⟨.CF_TC, [0, 2]⟩, ⟨.TEX_SAMPLE, []⟩, ⟨.TEX_SAMPLE, []⟩,
              ⟨.CF_ALU, []⟩, ⟨.WHILE_LOOP, [9]⟩, ⟨.CF_JUMP, [0, 0]⟩, ⟨.CF_JUMP, [7, 1]⟩,
              ⟨.LOOP_BREAK, [7]⟩, ⟨.POP, [7, 1]⟩, ⟨.END_LOOP, [3]⟩], 1, 4294967295) := rfl

/-- C8, as amended: the block `[TEX_SAMPLE, TEX_SAMPLE, CF_ALU, WHILELOOP, IF_PREDICATE_SET,
PREDICATED_BREAK, ENDLOOP]` is scanned to its end, the if/else stack still holding the
`CF_JUMP` of the unclosed if (position 5, address 0); in general a block in which no marker
reads an empty stack is processed without error, however many loops and ifs are open at
its end: the stacks then hold as many entries as the markers left open.  In the rewritten
block of the example the `CF_JUMP` stands at position 6, behind `STACK_SIZE`. -/
theorem C8_unclosed_constructs_accepted :
    scanBlock 16 0 0 0
        [⟨.TEX_SAMPLE, []⟩, ⟨.TEX_SAMPLE, []⟩, ⟨.CF_ALU, []⟩, ⟨.WHILELOOP, []⟩,
         ⟨.IF_PREDICATE_SET, []⟩, ⟨.PREDICATED_BREAK, []⟩, ⟨.ENDLOOP, []⟩]
      = .ok ⟨[⟨.CF_TC, [0, 2]⟩, ⟨.TEX_SAMPLE, []⟩, ⟨.TEX_SAMPLE, []⟩, ⟨.CF_ALU, []⟩,
              ⟨.WHILE_LOOP, [9]⟩, ⟨.CF_JUMP, [0, 0]⟩, ⟨.CF_JUMP, [7, 1]⟩, ⟨.LOOP_BREAK, [7]⟩,
              ⟨.POP, [7, 1]⟩, ⟨.END_LOOP, [3]⟩], 8, [], [5], 1, 4294967295⟩
    ∧ (∃ out, runOnMachineBasicBlock 16 0 0 0
        [⟨.TEX_SAMPLE, []⟩, ⟨.TEX_SAMPLE, []⟩, ⟨.CF_ALU, []⟩, ⟨.WHILELOOP, []⟩,
         ⟨.IF_PREDICATE_SET, []⟩, ⟨.PREDICATED_BREAK, []⟩, ⟨.ENDLOOP, []⟩] = .ok out
        ∧ out.1[6]? = some ⟨.CF_JUMP, [0, 0]⟩)
    ∧ ∀ (C ST M0 X0 : Nat) (MBB : List MachineInstr) (d : Nat × Nat), 0 < C →
        ghostRun depthStep (0, 0) MBB = some d →
        ∃ sF, scanBlock C ST M0 X0 MBB = .ok sF
          ∧ sF.LoopStack.length = d.1 ∧ sF.IfThenElseStack.length = d.2
          ∧ runOnMachineBasicBlock C ST M0 X0 MBB
              = .ok (⟨.STACK_SIZE, [(sF.MaxStack : Int)]⟩ :: sF.MBB, sF.MaxStack,
                     sF.CurrentStack) := by
  refine ⟨rfl, ⟨_, rfl, rfl⟩, ?_⟩
  intro C ST M0 X0 MBB d hC hd
  have hd2 : ghostRun depthStep (stackSizes (blockEntry ST M0 X0 MBB).1)
      (blockEntry ST M0 X0 MBB).2 = some d := by
    rw [ghostRun_depthStep_blockEntry]
    exact hd
  obtain ⟨sF, hs, hsz⟩ := scanAll_depth_ok C hC _ _ _ hd2
  have hrun : scanBlock C ST M0 X0 MBB = .ok sF := hs
  refine ⟨sF, hrun, ?_, ?_, runOnMachineBasicBlock_of_scanBlock C ST M0 X0 MBB sF hrun⟩
  · rw [← hsz]; rfl
  · rw [← hsz]; rfl

/-- C8, witness: the general part at `[WHILELOOP, IF_PREDICATE_SET, ELSE]`. -/
theorem C8_unclosed_constructs_accepted_witness :
    0 < 16
      ∧ ghostRun depthStep (0, 0) [⟨.WHILELOOP, []⟩, ⟨.IF_PREDICATE_SET, []⟩, ⟨.ELSE, []⟩]
          = some (1, 1)
      ∧ ∃ sF, scanBlock 16 0 0 0 [⟨.WHILELOOP, []⟩, ⟨.IF_PREDICATE_SET, []⟩, ⟨.ELSE, []⟩]
            = .ok sF
          ∧ sF.LoopStack.length = 1 ∧ sF.IfThenElseStack.length = 1
          ∧ runOnMachineBasicBlock 16 0 0 0
                [⟨.WHILELOOP, []⟩, ⟨.IF_PREDICATE_SET, []⟩, ⟨.ELSE, []⟩]
              = .ok (⟨.STACK_SIZE, [(sF.MaxStack : Int)]⟩ :: sF.MBB, sF.MaxStack,
                     sF.CurrentStack) :=
  ⟨by decide, by decide,
   C8_unclosed_constructs_accepted.2.2 16 0 0 0
     [⟨.WHILELOOP, []⟩, ⟨.IF_PREDICATE_SET, []⟩, ⟨.ELSE, []⟩] (1, 1) (by decide) (by decide)⟩

/-- C10, counterexample: after the two instructions of `[IF_PREDICATE_SET, ENDIF]`, scanned
from `MaxStack = CurrentStack = 0`, `MaxStack` is 0 and `CurrentStack` is 4294967295. -/
theorem C10_counterexample :
    ∃ s r, scan 16 2 (blockEntry 0 0 0 [⟨.IF_PREDICATE_SET, []⟩, ⟨.ENDIF, []⟩]).1
          (blockEntry 0 0 0 [⟨.IF_PREDICATE_SET, []⟩, ⟨.ENDIF, []⟩]).2 = .ok (s, r)
      ∧ s.MaxStack = 0 ∧ s.CurrentStack = 4294967295 ∧ ¬ (s.MaxStack ≥ s.CurrentStack) :=
  ⟨⟨[⟨.CF_JUMP, [1, 0]⟩, ⟨.POP, [2, 1]⟩], 2, [], [], 0, 4294967295⟩, [], rfl, rfl, rfl,
   by decide⟩

/-- C10, as amended: if `CurrentStack ≤ MaxStack` holds when the scan starts, it holds after
every iteration of the scan up to which no `ENDLOOP`, `ENDIF` or `PREDICATED_BREAK` was
processed with `CurrentStack = 0` (the decrement then wraps to `2 ^ 32 - 1`). -/
theorem C10_high_water_mark (C n : Nat) (s0 s : State) (l r : List MachineInstr)
    (h0 : s0.CurrentStack ≤ s0.MaxStack) (hrun : scan C n s0 l = .ok (s, r))
    (hno : ∀ m sm I rm, m < n → scan C m s0 l = .ok (sm, I :: rm) → closesStack I = true →
      0 < sm.CurrentStack) :
    s.CurrentStack ≤ s.MaxStack :=
  scan_highWater C n s0 s l r h0 hrun hno

/-- C10, witness: the three iterations on `[CF_ALU_PUSH_BEFORE, IF_PREDICATE_SET, ENDIF]`. -/
theorem C10_high_water_mark_witness :
    (0 : Nat) ≤ 0
      ∧ scan 16 3 ⟨[], 0, [], [], 0, 0⟩
            [⟨.CF_ALU_PUSH_BEFORE, []⟩, ⟨.IF_PREDICATE_SET, []⟩, ⟨.ENDIF, []⟩]
          = .ok (⟨[⟨.CF_ALU_PUSH_BEFORE, []⟩, ⟨.CF_JUMP, [2, 0]⟩, ⟨.POP, [3, 1]⟩], 3, [], [],
                  1, 0⟩, [])
      ∧ (0 : Nat) ≤ 1 :=
  ⟨le_refl _, rfl,
   C10_high_water_mark 16 3 ⟨[], 0, [], [], 0, 0⟩
     ⟨[⟨.CF_ALU_PUSH_BEFORE, []⟩, ⟨.CF_JUMP, [2, 0]⟩, ⟨.POP, [3, 1]⟩], 3, [], [], 1, 0⟩
     [⟨.CF_ALU_PUSH_BEFORE, []⟩, ⟨.IF_PREDICATE_SET, []⟩, ⟨.ENDIF, []⟩] [] (le_refl _) rfl
     (fun m sm I rm hm hs hc => by
        match m, hm with
        | 0, _ =>
          have e : scan 16 0 ⟨[], 0, [], [], 0, 0⟩
              [⟨.CF_ALU_PUSH_BEFORE, []⟩, ⟨.IF_PREDICATE_SET, []⟩, ⟨.ENDIF, []⟩]
              = .ok (⟨[], 0, [], [], 0, 0⟩,
                     [⟨.CF_ALU_PUSH_BEFORE, []⟩, ⟨.IF_PREDICATE_SET, []⟩, ⟨.ENDIF, []⟩]) := rfl
          rw [e] at hs
          injection hs with hs
          injection hs with h1 h2
          injection h2 with h3 _
          rw [← h3] at hc
          cases hc
        | 1, _ =>
          have e : scan 16 1 ⟨[], 0, [], [], 0, 0⟩
              [⟨.CF_ALU_PUSH_BEFORE, []⟩, ⟨.IF_PREDICATE_SET, []⟩, ⟨.ENDIF, []⟩]
              = .ok (⟨[⟨.CF_ALU_PUSH_BEFORE, []⟩], 1, [], [], 1, 1⟩,
                     [⟨.IF_PREDICATE_SET, []⟩, ⟨.ENDIF, []⟩]) := rfl
          rw [e] at hs
          injection hs with hs
          injection hs with h1 h2
          injection h2 with h3 _
          rw [← h3] at hc
          cases hc
        | 2, _ =>
          have e : scan 16 2 ⟨[], 0, [], [], 0, 0⟩
              [⟨.CF_ALU_PUSH_BEFORE, []⟩, ⟨.IF_PREDICATE_SET, []⟩, ⟨.ENDIF, []⟩]
              = .ok (⟨[⟨.CF_ALU_PUSH_BEFORE, []⟩, ⟨.CF_JUMP, [0, 0]⟩], 2, [], [1], 1, 1⟩,
                     [⟨.ENDIF, []⟩]) := rfl
          rw [e] at hs
          injection hs with hs
          injection hs with h1 _
          rw [← h1]
          decide)⟩

/-! ## The stack counters do not influence the rest of the scan -/

theorem lowerInstr_blockLocals (s t : State) (I : MachineInstr)
    (h : blockLocals s = blockLocals t) :
    (lowerInstr s I).map blockLocals = (lowerInstr t I).map blockLocals := by
  obtain ⟨B, c, L, T, m, x⟩ := s
  obtain ⟨B1, c1, L1, T1, m1, x1⟩ := t
  simp only [blockLocals, Prod.mk.injEq] at h
  obtain ⟨rfl, rfl, rfl, rfl⟩ := h
  obtain ⟨op, args⟩ := I
  cases L <;> cases T <;> cases op <;> rfl

theorem loopBody_blockLocals (C : Nat) (s t : State) (I : MachineInstr)
    (rest : List MachineInstr) (h : blockLocals s = blockLocals t) :
    (loopBody C s I rest).map (fun p => (blockLocals p.1, p.2))
      = (loopBody C t I rest).map (fun p => (blockLocals p.1, p.2)) := by
  cases hI : isFetch I with
  | true =>
    rw [loopBody_fetch C s I rest hI, loopBody_fetch C t I rest hI]
    simp only [blockLocals, Prod.mk.injEq] at h
    obtain ⟨h1, h2, h3, h4⟩ := h
    simp [Except.map, blockLocals, h1, h2, h3, h4]
  | false =>
    rw [loopBody_other C s I rest hI, loopBody_other C t I rest hI]
    have := lowerInstr_blockLocals s t I h
    cases hs : lowerInstr s I with
    | error e =>
      rw [hs] at this
      cases ht : lowerInstr t I with
      | error e1 => rw [ht] at this; simpa [Except.map] using this
      | ok t1 => rw [ht] at this; simp [Except.map] at this
    | ok s1 =>
      rw [hs] at this
      cases ht : lowerInstr t I with
      | error e1 => rw [ht] at this; simp [Except.map] at this
      | ok t1 => rw [ht] at this; simpa [Except.map] using this

theorem scan_blockLocals (C : Nat) :
    ∀ (n : Nat) (s t : State) (l : List MachineInstr), blockLocals s = blockLocals t →
      (scan C n s l).map (fun p => (blockLocals p.1, p.2))
        = (scan C n t l).map (fun p => (blockLocals p.1, p.2)) := by
  intro n
  induction n with
  | zero => intro s t l h; simp [scan, Except.map, h]
  | succ n ih =>
    intro s t l h
    cases l with
    | nil => simp [scan, Except.map, h]
    | cons I rest =>
      simp only [scan]
      have hb := loopBody_blockLocals C s t I rest h
      cases hs : loopBody C s I rest with
      | error e =>
        rw [hs] at hb
        cases ht : loopBody C t I rest with
        | error e1 => rw [ht] at hb; simpa [Except.map] using hb
        | ok q => rw [ht] at hb; simp [Except.map] at hb
      | ok p =>
        rw [hs] at hb
        cases ht : loopBody C t I rest with
        | error e1 => rw [ht] at hb; simp [Except.map] at hb
        | ok q =>
          rw [ht] at hb
          obtain ⟨s1, r1⟩ := p
          obtain ⟨t1, r2⟩ := q
          simp only [Except.map, Except.ok.injEq, Prod.mk.injEq] at hb
          obtain ⟨hb1, rfl⟩ := hb
          exact ih s1 t1 r1 hb1

theorem scanAll_blockLocals (C : Nat) (s t : State) (l : List MachineInstr)
    (h : blockLocals s = blockLocals t) :
    (scanAll C s l).map blockLocals = (scanAll C t l).map blockLocals := by
  have := scan_blockLocals C l.length s t l h
  unfold scanAll
  cases hs : scan C l.length s l with
  | error e =>
    rw [hs] at this
    cases ht : scan C l.length t l with
    | error e1 => rw [ht] at this; simpa [Except.map] using this
    | ok q => rw [ht] at this; simp [Except.map] at this
  | ok p =>
    rw [hs] at this
    cases ht : scan C l.length t l with
    | error e1 => rw [ht] at this; simp [Except.map] at this
    | ok q =>
      rw [ht] at this
      obtain ⟨s1, r1⟩ := p
      obtain ⟨t1, r2⟩ := q
      simp only [Except.map, Except.ok.injEq, Prod.mk.injEq] at this
      obtain ⟨h1, rfl⟩ := this
      cases r1 with
      | nil => simp [Except.map, h1]
      | cons a r => simp [Except.map]

/-- The rewritten block behind its `STACK_SIZE` does not depend on the counters at entry. -/
theorem runOnMachineBasicBlock_tail (C ST M X M1 X1 : Nat) (MBB : List MachineInstr) :
    (runOnMachineBasicBlock C ST M X MBB).map (fun r => r.1.tail)
      = (runOnMachineBasicBlock C ST M1 X1 MBB).map (fun r => r.1.tail) := by
  have := scanAll_blockLocals C (blockEntry ST M X MBB).1 (blockEntry ST M1 X1 MBB).1
    (blockEntry ST M X MBB).2 rfl
  unfold runOnMachineBasicBlock scanBlock
  have e : (blockEntry ST M1 X1 MBB).2 = (blockEntry ST M X MBB).2 := rfl
  rw [e]
  cases hs : scanAll C (blockEntry ST M X MBB).1 (blockEntry ST M X MBB).2 with
  | error e1 =>
    rw [hs] at this
    cases ht : scanAll C (blockEntry ST M1 X1 MBB).1 (blockEntry ST M X MBB).2 with
    | error e2 => rw [ht] at this; simpa [Except.map] using this
    | ok t1 => rw [ht] at this; simp [Except.map] at this
  | ok s1 =>
    rw [hs] at this
    cases ht : scanAll C (blockEntry ST M1 X1 MBB).1 (blockEntry ST M X MBB).2 with
    | error e2 => rw [ht] at this; simp [Except.map] at this
    | ok t1 =>
      rw [ht] at this
      simp only [Except.map, Except.ok.injEq, blockLocals, Prod.mk.injEq] at this
      simp [Except.map, this.1]

/-- Every output block is the result of `runOnMachineBasicBlock` on the input block at the
same position, entered with the counters the blocks in front of it have left. -/
theorem runOnBlocks_getElem (C ST : Nat) (MF : List (List MachineInstr)) :
    ∀ (M X : Nat) (Bs : List (List MachineInstr)) (i : Nat) (B : List MachineInstr),
      runOnBlocks C ST M X MF = .ok Bs → MF[i]? = some B →
      ∃ Mi Xi r, runOnMachineBasicBlock C ST Mi Xi B = .ok r ∧ Bs[i]? = some r.1
        ∧ (i = 0 → Mi = M ∧ Xi = X) := by
  induction MF with
  | nil => intro M X Bs i B _ hB; simp at hB
  | cons MBB MF ih =>
    intro M X Bs i B h hB
    simp only [runOnBlocks] at h
    cases hb : runOnMachineBasicBlock C ST M X MBB with
    | error e => rw [hb] at h; cases h
    | ok r =>
      obtain ⟨out, M1, X1⟩ := r
      rw [hb] at h
      simp only [] at h
      cases hr : runOnBlocks C ST M1 X1 MF with
      | error e => rw [hr] at h; cases h
      | ok Bs1 =>
        rw [hr] at h
        injection h with h
        subst h
        cases i with
        | zero =>
          simp only [List.getElem?_cons_zero, Option.some.injEq] at hB
          subst hB
          exact ⟨M, X, _, hb, by simp, fun _ => ⟨rfl, rfl⟩⟩
        | succ j =>
          simp only [List.getElem?_cons_succ] at hB
          obtain ⟨Mi, Xi, r, h1, h2, -⟩ := ih M1 X1 Bs1 j B hr hB
          exact ⟨Mi, Xi, r, h1, by simpa using h2, fun h0 => by omega⟩

theorem runOnBlocks_take (C ST : Nat) (MF : List (List MachineInstr)) :
    ∀ (M X : Nat) (Bs : List (List MachineInstr)) (k : Nat),
      runOnBlocks C ST M X MF = .ok Bs →
      runOnBlocks C ST M X (MF.take k) = .ok (Bs.take k) := by
  induction MF with
  | nil =>
    intro M X Bs k h
    simp only [runOnBlocks] at h
    injection h with h
    subst h
    simp [runOnBlocks]
  | cons MBB MF ih =>
    intro M X Bs k h
    cases k with
    | zero => simp [runOnBlocks]
    | succ k =>
      simp only [runOnBlocks] at h
      cases hb : runOnMachineBasicBlock C ST M X MBB with
      | error e => rw [hb] at h; cases h
      | ok r =>
        obtain ⟨out, M1, X1⟩ := r
        rw [hb] at h
        simp only [] at h
        cases hr : runOnBlocks C ST M1 X1 MF with
        | error e => rw [hr] at h; cases h
        | ok Bs1 =>
          rw [hr] at h
          injection h with h
          subst h
          simp only [List.take_succ_cons, runOnBlocks, hb, ih M1 X1 Bs1 k hr]

theorem runOnMachineFunction_blocks (C ST : Nat) (MF Bs : List (List MachineInstr)) (b : Bool)
    (h : runOnMachineFunction C ST MF = .ok (Bs, b)) : runOnBlocks C ST 0 0 MF = .ok Bs := by
  unfold runOnMachineFunction at h
  cases hr : runOnBlocks C ST 0 0 MF with
  | error e => rw [hr] at h; cases h
  | ok Bs1 =>
    rw [hr] at h
    injection h with h
    injection h with h1 _
    rw [h1]

theorem runOnMachineBasicBlock_head (C ST M X : Nat) (MBB : List MachineInstr)
    (r : List MachineInstr × Nat × Nat) (h : runOnMachineBasicBlock C ST M X MBB = .ok r) :
    r.1 = ⟨.STACK_SIZE, [(r.2.1 : Int)]⟩ :: r.1.tail := by
  unfold runOnMachineBasicBlock at h
  cases hs : scanBlock C ST M X MBB with
  | error e => rw [hs] at h; cases h
  | ok s =>
    rw [hs] at h
    injection h with h
    rw [← h]
    rfl

/-! ## Opcodes are never rewritten -/

theorem opcode_CounterPropagateAddr (x : MachineInstr) (a : Nat) :
    (CounterPropagateAddr x a).opcode = x.opcode := by
  unfold CounterPropagateAddr
  split <;> rfl

theorem map_opcode_set {B : List MachineInstr} (j : Nat) (x y : MachineInstr)
    (hx : B[j]? = some x) (hy : y.opcode = x.opcode) :
    (B.set j y).map (fun MI => MI.opcode) = B.map (fun MI => MI.opcode) := by
  induction B generalizing j with
  | nil => rfl
  | cons b B ih =>
    cases j with
    | zero =>
      simp only [List.getElem?_cons_zero, Option.some.injEq] at hx
      subst hx
      simp [hy]
    | succ j =>
      simp only [List.getElem?_cons_succ] at hx
      simp only [List.set_cons_succ, List.map_cons, ih j hx]

theorem map_opcode_CounterPropagateAddrAt (B : List MachineInstr) (j a : Nat) :
    (CounterPropagateAddrAt B j a).map (fun MI => MI.opcode) = B.map (fun MI => MI.opcode) := by
  unfold CounterPropagateAddrAt
  split
  next x hx => exact map_opcode_set j x _ hx (opcode_CounterPropagateAddr x a)
  next => rfl

theorem map_opcode_CounterPropagateAddrSet (MIs : List Nat) (B : List MachineInstr) (a : Nat) :
    (CounterPropagateAddrSet B MIs a).map (fun MI => MI.opcode)
      = B.map (fun MI => MI.opcode) := by
  unfold CounterPropagateAddrSet
  induction MIs generalizing B with
  | nil => rfl
  | cons i rest ih =>
    simp only [List.foldl_cons]
    rw [ih, map_opcode_CounterPropagateAddrAt]

theorem lowerOpcodes_plain (I : MachineInstr) (h : isStackMarker I = false) :
    lowerOpcodes I = [I.opcode] := by
  obtain ⟨op, args⟩ := I
  cases op <;> simp [isStackMarker, lowerOpcodes] at h ⊢

theorem lowerInstr_opcodes (s s1 : State) (I : MachineInstr) (h : lowerInstr s I = .ok s1) :
    s1.MBB.map (fun MI => MI.opcode) = s.MBB.map (fun MI => MI.opcode) ++ lowerOpcodes I := by
  obtain ⟨B, c, L, T, m, x⟩ := s
  rcases lowerInstr_cases B c L T m x I s1 h with
    ⟨hop, c1, m1, x1, rfl⟩ | ⟨hop, rfl⟩ | ⟨hop, P, LS, rfl, rfl⟩ | ⟨hop, rfl⟩ |
    ⟨hop, J, TS, rfl, rfl⟩ | ⟨hop, J, TS, rfl, rfl⟩ | ⟨hop, P, LS, rfl, rfl⟩ |
    ⟨hop, P, LS, rfl, rfl⟩
  · simp [lowerOpcodes_plain I hop]
  · simp [lowerOpcodes, hop]
  · simp [lowerOpcodes, hop, map_opcode_CounterPropagateAddrSet]
  · simp [lowerOpcodes, hop]
  · simp [lowerOpcodes, hop, map_opcode_CounterPropagateAddrAt]
  · simp [lowerOpcodes, hop, map_opcode_CounterPropagateAddrAt]
  · simp [lowerOpcodes, hop]
  · simp [lowerOpcodes, hop]

theorem lowerInstr_CfCount (s s1 : State) (I : MachineInstr) (hI : isFetch I = false)
    (h : lowerInstr s I = .ok s1) : s1.CfCount = s.CfCount + cfDelta I := by
  obtain ⟨B, c, L, T, m, x⟩ := s
  obtain ⟨op, args⟩ := I
  cases L <;> cases T <;> cases op <;> simp [lowerInstr] at h <;> subst h <;>
    simp [cfDelta, isFetch] at hI ⊢

/-- What one iteration of the scan leaves in front of the iterator. -/
theorem loopBody_opcodes (C : Nat) (s s1 : State) (I : MachineInstr)
    (rest rest1 : List MachineInstr) (h : loopBody C s I rest = .ok (s1, rest1)) :
    s1.MBB.map (fun MI => MI.opcode)
      = s.MBB.map (fun MI => MI.opcode)
        ++ (if isFetch I then
              Opcode.CF_TC :: (fetchClauseLoop C (I :: rest) 0).2.1.map (fun MI => MI.opcode)
            else lowerOpcodes I) := by
  cases hI : isFetch I with
  | true =>
    rw [loopBody_fetch C s I rest hI] at h
    injection h with h
    injection h with h1 _
    rw [← h1]
    simp [MakeFetchClause_fst]
  | false =>
    rw [loopBody_other C s I rest hI] at h
    cases hl : lowerInstr s I with
    | error e => rw [hl] at h; cases h
    | ok s2 =>
      rw [hl] at h
      injection h with h
      injection h with h1 _
      subst h1
      simp [lowerInstr_opcodes s s2 I hl]

theorem loopBody_CfCount (C : Nat) (s s1 : State) (I : MachineInstr)
    (rest rest1 : List MachineInstr) (h : loopBody C s I rest = .ok (s1, rest1)) :
    s1.CfCount = s.CfCount + cfDelta I := by
  cases hI : isFetch I with
  | true =>
    rw [loopBody_fetch C s I rest hI] at h
    injection h with h
    injection h with h1 _
    rw [← h1]
    simp [cfDelta, hI]
  | false =>
    rw [loopBody_other C s I rest hI] at h
    cases hl : lowerInstr s I with
    | error e => rw [hl] at h; cases h
    | ok s2 =>
      rw [hl] at h
      injection h with h
      injection h with h1 _
      subst h1
      exact lowerInstr_CfCount s s2 I hI hl

theorem cfCount_eq_of_opcodes (B B1 : List MachineInstr)
    (h : B.map (fun MI => MI.opcode) = B1.map (fun MI => MI.opcode)) :
    cfCount B = cfCount B1 := by
  have e : ∀ l : List MachineInstr,
      cfCount l = (l.map (fun MI => MI.opcode)).countP cfLevel := by
    intro l
    unfold cfCount
    rw [List.countP_map]
    rfl
  rw [e, e, h]

theorem cfCount_opcodes (B : List MachineInstr) :
    cfCount B = (B.map (fun MI => MI.opcode)).countP cfLevel := by
  unfold cfCount
  rw [List.countP_map]
  rfl

theorem countP_cfLevel_skip (l : List MachineInstr)
    (h : ∀ I ∈ l, isFetch I = true ∨ IsTrivialInst I = true) :
    (l.map (fun MI => MI.opcode)).countP cfLevel = 0 := by
  rw [List.countP_eq_zero]
  intro op hop
  rw [List.mem_map] at hop
  obtain ⟨I, hI, rfl⟩ := hop
  have := h I hI
  obtain ⟨op, args⟩ := I
  cases op <;> simp [isFetch, IsTrivialInst, cfLevel] at this ⊢

theorem countP_cfLevel_lowerOpcodes (I : MachineInstr) (hI : isFetch I = false)
    (hn : isNativeCF I = false) :
    (lowerOpcodes I).countP cfLevel = cfDelta I := by
  obtain ⟨op, args⟩ := I
  cases op <;> simp [isFetch, isNativeCF, lowerOpcodes, cfDelta, cfLevel] at hI hn ⊢

/-- An iteration that does not start at a native control-flow instruction leaves as many new
control-flow-level instructions in front of the iterator as it adds to `CfCount`. -/
theorem loopBody_cfCount (C : Nat) (s s1 : State) (I : MachineInstr)
    (rest rest1 : List MachineInstr) (hn : isNativeCF I = false)
    (h : loopBody C s I rest = .ok (s1, rest1)) :
    cfCount s1.MBB = cfCount s.MBB + cfDelta I := by
  rw [cfCount_opcodes, cfCount_opcodes, loopBody_opcodes C s s1 I rest rest1 h,
    List.countP_append]
  cases hI : isFetch I with
  | true =>
    simp only [if_true, List.countP_cons]
    rw [countP_cfLevel_skip _ (fetchClauseLoop_passed C (I :: rest) 0)]
    simp [cfDelta, hI, cfLevel]
  | false =>
    simp only [Bool.false_eq_true, if_false]
    rw [countP_cfLevel_lowerOpcodes I hI hn]

/-! ## `CfCount` along the iterations -/

theorem loopBody_subset (C : Nat) (s s1 : State) (I : MachineInstr)
    (rest rest1 : List MachineInstr) (h : loopBody C s I rest = .ok (s1, rest1)) :
    ∀ J ∈ rest1, J ∈ I :: rest := by
  cases hI : isFetch I with
  | true =>
    rw [loopBody_fetch C s I rest hI] at h
    injection h with h
    injection h with _ h2
    intro J hJ
    rw [← fetchClauseLoop_append C (I :: rest) 0, List.mem_append]
    right
    rw [h2]
    exact hJ
  | false =>
    rw [loopBody_other C s I rest hI] at h
    cases hl : lowerInstr s I with
    | error e => rw [hl] at h; cases h
    | ok s2 =>
      rw [hl] at h
      injection h with h
      injection h with _ h2
      intro J hJ
      rw [← h2] at hJ
      exact List.mem_cons_of_mem _ hJ

theorem scan_CfCount_le (C : Nat) :
    ∀ (n : Nat) (s0 s : State) (l r : List MachineInstr),
      scan C n s0 l = .ok (s, r) → s0.CfCount ≤ s.CfCount := by
  intro n
  induction n with
  | zero =>
    intro s0 s l r h
    simp only [scan] at h
    injection h with h
    injection h with h1 _
    rw [h1]
  | succ n ih =>
    intro s0 s l r h
    cases l with
    | nil =>
      simp only [scan] at h
      injection h with h
      injection h with h1 _
      rw [h1]
    | cons I rest =>
      simp only [scan] at h
      cases hb : loopBody C s0 I rest with
      | error e => rw [hb] at h; cases h
      | ok p =>
        obtain ⟨s1, rest1⟩ := p
        rw [hb] at h
        have h1 := loopBody_CfCount C s0 s1 I rest rest1 hb
        have h2 := ih s1 s rest1 r h
        omega

theorem scan_cfCount (C : Nat) :
    ∀ (n : Nat) (s0 s : State) (l r : List MachineInstr),
      (∀ I ∈ l, isNativeCF I = false) → scan C n s0 l = .ok (s, r) →
      cfCount s.MBB + s0.CfCount = s.CfCount + cfCount s0.MBB := by
  intro n
  induction n with
  | zero =>
    intro s0 s l r _ h
    simp only [scan] at h
    injection h with h
    injection h with h1 _
    rw [h1]
    omega
  | succ n ih =>
    intro s0 s l r hn h
    cases l with
    | nil =>
      simp only [scan] at h
      injection h with h
      injection h with h1 _
      rw [h1]
      omega
    | cons I rest =>
      simp only [scan] at h
      cases hb : loopBody C s0 I rest with
      | error e => rw [hb] at h; cases h
      | ok p =>
        obtain ⟨s1, rest1⟩ := p
        rw [hb] at h
        have h1 := loopBody_CfCount C s0 s1 I rest rest1 hb
        have h2 := loopBody_cfCount C s0 s1 I rest rest1 (hn I (by simp)) hb
        have h3 := ih s1 s rest1 r
          (fun J hJ => hn J (loopBody_subset C s0 s1 I rest rest1 hb J hJ)) h
        omega

theorem scanAll_ok_scan (C : Nat) (s sF : State) (l : List MachineInstr)
    (h : scanAll C s l = .ok sF) : scan C l.length s l = .ok (sF, []) := by
  unfold scanAll at h
  cases hs : scan C l.length s l with
  | error e => rw [hs] at h; cases h
  | ok p =>
    obtain ⟨s1, r⟩ := p
    rw [hs] at h
    cases r with
    | nil =>
      simp only [] at h
      injection h with h
      rw [h]
    | cons a r => cases h

/-- With the stage-entry instruction, the scan after its first iteration. -/
theorem scan_blockEntry_succ (C n M X : Nat) (MBB : List MachineInstr) :
    scan C (n + 1) (blockEntry 1 M X MBB).1 (blockEntry 1 M X MBB).2
      = scan C n ⟨[⟨.CF_CALL_FS, []⟩], 1, [], [], M, X⟩ MBB := rfl

theorem scan_block_cfCount (C ST M X : Nat) (MBB : List MachineInstr) (n : Nat) (s : State)
    (r : List MachineInstr) (hn : ∀ I ∈ MBB, isNativeCF I = false)
    (h : scan C n (blockEntry ST M X MBB).1 (blockEntry ST M X MBB).2 = .ok (s, r)) :
    cfCount s.MBB + (if ST = 1 ∧ n = 0 then 1 else 0) = s.CfCount := by
  by_cases hST : ST = 1
  · subst hST
    cases n with
    | zero =>
      simp only [scan] at h
      injection h with h
      injection h with h1 _
      rw [← h1]
      rfl
    | succ n =>
      rw [scan_blockEntry_succ] at h
      have := scan_cfCount C n _ s MBB r hn h
      simp only [cfCount, List.countP_cons, List.countP_nil, cfLevel] at this ⊢
      simp
      simp at this
      omega
  · have e1 : (blockEntry ST M X MBB).1 = ⟨[], 0, [], [], M, X⟩ := by
      simp [blockEntry, hST]
    have e2 : (blockEntry ST M X MBB).2 = MBB := by simp [blockEntry, hST]
    rw [e1, e2] at h
    have := scan_cfCount C n _ s MBB r hn h
    simp only [cfCount, List.countP_nil] at this ⊢
    simp [hST]
    omega

/-- The instructions in front of the iterator keep their opcodes, and the instructions an
iteration adds hold as many control-flow-level instructions as it adds to `CfCount`. -/
theorem loopBody_emitted (C : Nat) (s s1 : State) (I : MachineInstr)
    (rest rest1 : List MachineInstr) (hn : isNativeCF I = false)
    (h : loopBody C s I rest = .ok (s1, rest1)) :
    (s1.MBB.take s.MBB.length).map (fun MI => MI.opcode) = s.MBB.map (fun MI => MI.opcode)
      ∧ cfCount (s1.MBB.drop s.MBB.length) = cfDelta I := by
  have ho := loopBody_opcodes C s s1 I rest rest1 h
  have hc := loopBody_cfCount C s s1 I rest rest1 hn h
  have hlen : (s.MBB.map (fun MI => MI.opcode)).length = s.MBB.length := List.length_map _ _
  have htake : (s1.MBB.take s.MBB.length).map (fun MI => MI.opcode)
      = s.MBB.map (fun MI => MI.opcode) := by
    rw [List.map_take, ho, ← hlen, List.take_left']
    rfl
  refine ⟨htake, ?_⟩
  have hsplit : cfCount s1.MBB
      = cfCount (s1.MBB.take s.MBB.length) + cfCount (s1.MBB.drop s.MBB.length) := by
    unfold cfCount
    rw [← List.countP_append, List.take_append_drop]
  have := cfCount_eq_of_opcodes _ _ htake
  omega

/-! ## Openers and closers of the if/else stack -/

theorem lowerInstr_ifOpen (s s1 : State) (m : MachineInstr)
    (hm : m.opcode = .IF_PREDICATE_SET ∨ m.opcode = .ELSE) (hinv : Inv s)
    (h : lowerInstr s m = .ok s1) :
    ∃ S, Inv s1 ∧ s1.IfThenElseStack.drop 0 = s.MBB.length :: S
      ∧ s1.MBB[s.MBB.length]? = some (ifNative m 0) := by
  have inv1 := lowerInstr_Inv s s1 m h hinv
  obtain ⟨B, c, L, T, mx, x⟩ := s
  rcases lowerInstr_cases B c L T mx x m s1 h with
    ⟨hop, -⟩ | ⟨hop, -⟩ | ⟨hop, -⟩ | ⟨hop, rfl⟩ | ⟨hop, J, TS, hJ, rfl⟩ | ⟨hop, -⟩ | ⟨hop, -⟩ |
    ⟨hop, -⟩
  · rcases hm with hm | hm <;> simp [isStackMarker, hm] at hop
  · rcases hm with hm | hm <;> (rw [hm] at hop; cases hop)
  · rcases hm with hm | hm <;> (rw [hm] at hop; cases hop)
  · refine ⟨T, inv1, rfl, ?_⟩
    simp [ifNative, hop]
  · refine ⟨TS, inv1, rfl, ?_⟩
    simp only [ifNative, hop, if_true]
    rw [List.getElem?_append_right (by rw [length_CounterPropagateAddrAt]),
      length_CounterPropagateAddrAt, Nat.sub_self]
    rfl
  · rcases hm with hm | hm <;> (rw [hm] at hop; cases hop)
  · rcases hm with hm | hm <;> (rw [hm] at hop; cases hop)
  · rcases hm with hm | hm <;> (rw [hm] at hop; cases hop)

theorem lowerInstr_ifClose (j : Nat) (S : List Nat) (v : MachineInstr) (s s1 : State)
    (m : MachineInstr) (hm : m.opcode = .ELSE ∨ m.opcode = .ENDIF)
    (hR : Inv s ∧ s.IfThenElseStack.drop 0 = j :: S ∧ s.MBB[j]? = some v)
    (h : lowerInstr s m = .ok s1) :
    Inv s1 ∧ j ∉ owned s1 ∧ s1.MBB[j]? = some (CounterPropagateAddr v s.CfCount) := by
  obtain ⟨hinv, hdrop, hv⟩ := hR
  have inv1 := lowerInstr_Inv s s1 m h hinv
  obtain ⟨B, c, L, T, mx, x⟩ := s
  simp only [List.drop_zero] at hdrop hv
  subst hdrop
  have hj : j < B.length := lt_of_getElem?_some B _ _ hv
  have hnd := hinv.1
  simp only [owned_mk, List.cons_append, List.nodup_cons] at hnd
  have hval : ∀ extra : List MachineInstr,
      (CounterPropagateAddrAt B j c ++ extra)[j]? = some (CounterPropagateAddr v c) := by
    intro extra
    rw [List.getElem?_append_left (by rw [length_CounterPropagateAddrAt]; exact hj),
      getElem?_CounterPropagateAddrAt_self, hv]
    rfl
  rcases lowerInstr_cases B c L _ mx x m s1 h with
    ⟨hop, -⟩ | ⟨hop, -⟩ | ⟨hop, -⟩ | ⟨hop, -⟩ | ⟨hop, J, TS, hJ, rfl⟩ | ⟨hop, J, TS, hJ, rfl⟩ |
    ⟨hop, -⟩ | ⟨hop, -⟩
  · rcases hm with hm | hm <;> simp [isStackMarker, hm] at hop
  · rcases hm with hm | hm <;> (rw [hm] at hop; cases hop)
  · rcases hm with hm | hm <;> (rw [hm] at hop; cases hop)
  · rcases hm with hm | hm <;> (rw [hm] at hop; cases hop)
  · injection hJ with hJ1 hJ2
    subst hJ1; subst hJ2
    refine ⟨inv1, ?_, hval _⟩
    simp only [owned_mk, List.cons_append, List.mem_cons, not_or]
    exact ⟨by omega, hnd.1⟩
  · injection hJ with hJ1 hJ2
    subst hJ1; subst hJ2
    exact ⟨inv1, by simpa only [owned_mk] using hnd.1, hval _⟩
  · rcases hm with hm | hm <;> (rw [hm] at hop; cases hop)
  · rcases hm with hm | hm <;> (rw [hm] at hop; cases hop)

theorem CounterPropagateAddr_ifNative (m : MachineInstr) (c : Nat) :
    CounterPropagateAddr (ifNative m 0) c = ifNative m (c : Int) := by
  unfold ifNative
  split <;> simp [CounterPropagateAddr]

/-- The instruction pushed on the if/else stack by an `IF_PREDICATE_SET` or an `ELSE` keeps
address 0 up to the `ELSE` or `ENDIF` that closes it, and carries `CfCount` at that closer
when the scan ends. -/
theorem scanAll_if_close (C : Nat) (hC : 0 < C) (s0 sF : State)
    (l1 body post : List MachineInstr) (mO mC : MachineInstr)
    (hO : mO.opcode = .IF_PREDICATE_SET ∨ mO.opcode = .ELSE)
    (hCl : mC.opcode = .ELSE ∨ mC.opcode = .ENDIF)
    (hinv : Inv s0) (hbal : ifBalanced body)
    (h : scanAll C s0 (l1 ++ mO :: (body ++ mC :: post)) = .ok sF) :
    ∃ s1 s2, scanAll C s0 l1 = .ok s1
      ∧ scanAll C s0 (l1 ++ mO :: body) = .ok s2
      ∧ scanAll C s2 (mC :: post) = .ok sF
      ∧ Inv s2
      ∧ s2.MBB[s1.MBB.length]? = some (ifNative mO 0)
      ∧ s2.IfThenElseStack.head? = some s1.MBB.length
      ∧ sF.MBB[s1.MBB.length]? = some (ifNative mO (s2.CfCount : Int))
      ∧ ∃ s3, lowerInstr s2 mC = .ok s3 ∧ scanAll C s3 post = .ok sF
          ∧ s1.MBB.length ∉ owned s3
          ∧ s3.MBB[s1.MBB.length]? = some (ifNative mO (s2.CfCount : Int)) := by
  have fO : isFetch mO = false := by
    rcases hO with hO | hO
    · exact isFetch_of_opcode mO _ hO rfl
    · exact isFetch_of_opcode mO _ hO rfl
  have tO : IsTrivialInst mO = false := by
    rcases hO with hO | hO
    · exact isTrivial_of_opcode mO _ hO rfl
    · exact isTrivial_of_opcode mO _ hO rfl
  have fC : isFetch mC = false := by
    rcases hCl with hCl | hCl
    · exact isFetch_of_opcode mC _ hCl rfl
    · exact isFetch_of_opcode mC _ hCl rfl
  have tC : IsTrivialInst mC = false := by
    rcases hCl with hCl | hCl
    · exact isTrivial_of_opcode mC _ hCl rfl
    · exact isTrivial_of_opcode mC _ hCl rfl
  obtain ⟨s1, sa, h1, hla, hrest⟩ := scanAll_split C hC s0 sF l1 _ mO fO tO h
  obtain ⟨s2, sb, h2, hlb, hpost⟩ := scanAll_split C hC sa sF body post mC fC tC hrest
  have inv1 := scanAll_Inv C hC l1 s0 s1 hinv h1
  obtain ⟨S, O1⟩ := lowerInstr_ifOpen s1 sa mO hO inv1 hla
  have O2 := scanAll_ifFrame C hC _ S _ body 0 0 sa s2 O1 h2 hbal
  have O3 := lowerInstr_ifClose _ S _ s2 sb mC hCl O2 hlb
  have O4 := scanAll_unowned C hC _ _ post sb sF O3 hpost
  refine ⟨s1, s2, h1, scanAll_join C hC s0 s1 sa s2 l1 body mO fO tO h1 hla h2, ?_, O2.1,
    O2.2.2, ?_, ?_, sb, hlb, hpost, O3.2.1, ?_⟩
  · rw [scanAll_cons_other C hC s2 mC post fC, hlb]
    exact hpost
  · have := O2.2.1
    simp only [List.drop_zero] at this
    rw [this]
    rfl
  · rw [O4.2.2, CounterPropagateAddr_ifNative]
  · rw [O3.2.2, CounterPropagateAddr_ifNative]

/-- The `CF_CONTINUE` or `LOOP_BREAK` of an exit keeps address 0 up to the `ENDLOOP` of the
innermost loop, and carries `CfCount` at that `ENDLOOP` when the scan ends. -/
theorem scanAll_exit_close (C : Nat) (hC : 0 < C) (s0 sF : State)
    (l1 body post : List MachineInstr) (m mE : MachineInstr)
    (hm : m.opcode = .CONTINUE ∨ m.opcode = .PREDICATED_BREAK) (hE : mE.opcode = .ENDLOOP)
    (hinv : Inv s0) (hbal : loopBalanced body)
    (h : scanAll C s0 (l1 ++ m :: (body ++ mE :: post)) = .ok sF) :
    ∃ s1 s2, scanAll C s0 l1 = .ok s1
      ∧ scanAll C s0 (l1 ++ m :: body) = .ok s2
      ∧ scanAll C s2 (mE :: post) = .ok sF
      ∧ s2.MBB[exitIndex s1 m]? = some ⟨exitOpcode m, [0]⟩
      ∧ (∃ e LS, s2.LoopStack = e :: LS ∧ exitIndex s1 m ∈ e.2)
      ∧ sF.MBB[exitIndex s1 m]? = some ⟨exitOpcode m, [(s2.CfCount : Int)]⟩
      ∧ ∃ s3, lowerInstr s2 mE = .ok s3 ∧ scanAll C s3 post = .ok sF
          ∧ exitIndex s1 m ∉ owned s3
          ∧ s3.MBB[exitIndex s1 m]? = some ⟨exitOpcode m, [(s2.CfCount : Int)]⟩ := by
  obtain ⟨fm, tm⟩ := isFetch_exit m hm
  have fE := isFetch_of_opcode mE _ hE rfl
  have tE := isTrivial_of_opcode mE _ hE rfl
  obtain ⟨s1, sa, h1, hla, hrest⟩ := scanAll_split C hC s0 sF l1 _ m fm tm h
  obtain ⟨s2, sb, h2, hlb, hpost⟩ := scanAll_split C hC sa sF body post mE fE tE hrest
  have inv1 := scanAll_Inv C hC l1 s0 s1 hinv h1
  obtain ⟨-, P, LS, hP, -⟩ := lowerInstr_exit s1 sa m hm hla
  have X1 := lowerInstr_exit_tracked P.1 s1 sa m hm inv1 ⟨P, by rw [hP, List.getElem?_cons_zero], rfl⟩ hla
  have X2 := scanAll_loopFrame C hC _ _ _ body 0 0 sa s2 X1 h2 hbal
  have X3 := lowerInstr_endloop _ _ _ s2 sb mE hE X2 hlb
  have X4 := scanAll_unowned C hC _ _ post sb sF X3.1 hpost
  refine ⟨s1, s2, h1, scanAll_join C hC s0 s1 sa s2 l1 body m fm tm h1 hla h2, ?_, X2.2.2,
    ?_, ?_, sb, hlb, hpost, X3.1.2.1, ?_⟩
  · rw [scanAll_cons_other C hC s2 mE post fE, hlb]
    exact hpost
  · obtain ⟨e, he, -, hk⟩ := X2.2.1
    cases hLS : s2.LoopStack with
    | nil => rw [hLS] at he; cases he
    | cons e0 LS0 =>
      rw [hLS, List.getElem?_cons_zero] at he
      injection he with he
      subst he
      exact ⟨e0, LS0, rfl, hk⟩
  · rw [X4.2.2]
    simp [CounterPropagateAddr]
  · rw [X3.1.2.2]
    simp [CounterPropagateAddr]

/-- The `WHILE_LOOP` of a loop carries `CfCount` at its `ENDLOOP` plus 2 when the scan ends,
and the `END_LOOP` carries `CfCount` at the `WHILELOOP` plus 1. -/
theorem scanAll_loop_close (C : Nat) (hC : 0 < C) (s0 sF : State)
    (l1 body post : List MachineInstr) (mW mE : MachineInstr)
    (hW : mW.opcode = .WHILELOOP) (hE : mE.opcode = .ENDLOOP)
    (hinv : Inv s0) (hbal : loopBalanced body)
    (h : scanAll C s0 (l1 ++ mW :: (body ++ mE :: post)) = .ok sF) :
    ∃ sW sE, scanAll C s0 l1 = .ok sW
      ∧ scanAll C s0 (l1 ++ mW :: body) = .ok sE
      ∧ scanAll C sE (mE :: post) = .ok sF
      ∧ Inv sE
      ∧ sE.MBB[sW.MBB.length]? = some ⟨.WHILE_LOOP, [2]⟩
      ∧ (∃ e LS, sE.LoopStack = e :: LS ∧ e.1 = sW.CfCount ∧ sW.MBB.length ∈ e.2)
      ∧ sF.MBB[sW.MBB.length]? = some ⟨.WHILE_LOOP, [(sE.CfCount : Int) + 2]⟩
      ∧ sF.MBB[sE.MBB.length]? = some ⟨.END_LOOP, [((sW.CfCount + 1 : Nat) : Int)]⟩ := by
  have fW := isFetch_of_opcode mW _ hW rfl
  have tW := isTrivial_of_opcode mW _ hW rfl
  have fE := isFetch_of_opcode mE _ hE rfl
  have tE := isTrivial_of_opcode mE _ hE rfl
  obtain ⟨sW, sa, h1, hla, hrest⟩ := scanAll_split C hC s0 sF l1 _ mW fW tW h
  obtain ⟨sE, sb, h2, hlb, hpost⟩ := scanAll_split C hC sa sF body post mE fE tE hrest
  have inv1 := scanAll_Inv C hC l1 s0 sW hinv h1
  have W1 := lowerInstr_whileloop sW sa mW hW inv1 hla
  have W2 := scanAll_loopFrame C hC _ _ _ body 0 0 sa sE W1 h2 hbal
  have W3 := lowerInstr_endloop _ _ _ sE sb mE hE W2 hlb
  have W4 := scanAll_unowned C hC _ _ post sb sF W3.1 hpost
  have W5 := scanAll_unowned C hC _ _ post sb sF ⟨W3.2.1, W3.2.2.1, W3.2.2.2⟩ hpost
  refine ⟨sW, sE, h1, scanAll_join C hC s0 sW sa sE l1 body mW fW tW h1 hla h2, ?_, W2.1,
    W2.2.2, ?_, ?_, W5.2.2⟩
  · rw [scanAll_cons_other C hC sE mE post fE, hlb]
    exact hpost
  · obtain ⟨e, he, hc, hk⟩ := W2.2.1
    cases hLS : sE.LoopStack with
    | nil => rw [hLS] at he; cases he
    | cons e0 LS0 =>
      rw [hLS, List.getElem?_cons_zero] at he
      injection he with he
      subst he
      exact ⟨e0, LS0, rfl, hc, hk⟩
  · rw [W4.2.2]
    simp [CounterPropagateAddr]

/-- An `ENDLOOP` pops the innermost entry of the loop stack and leaves every instruction
that an enclosing loop or the if/else stack points to as it is. -/
theorem lowerInstr_endloop_frame (s s1 : State) (m : MachineInstr) (hm : m.opcode = .ENDLOOP)
    (hinv : Inv s) (h : lowerInstr s m = .ok s1) :
    s1.LoopStack = s.LoopStack.tail
      ∧ s1.IfThenElseStack = s.IfThenElseStack
      ∧ (∀ e ∈ s1.LoopStack, ∀ k ∈ e.2, s1.MBB[k]? = s.MBB[k]?)
      ∧ (∀ k ∈ s1.IfThenElseStack, s1.MBB[k]? = s.MBB[k]?) := by
  obtain ⟨B, c, L, T, mx, x⟩ := s
  rcases lowerInstr_cases B c L T mx x m s1 h with
    ⟨hop, -⟩ | ⟨hop, -⟩ | ⟨-, P, LS, hP, rfl⟩ | ⟨hop, -⟩ | ⟨hop, -⟩ | ⟨hop, -⟩ | ⟨hop, -⟩ |
    ⟨hop, -⟩
  · simp [isStackMarker, hm] at hop
  · rw [hm] at hop; cases hop
  rotate_left
  · rw [hm] at hop; cases hop
  · rw [hm] at hop; cases hop
  · rw [hm] at hop; cases hop
  · rw [hm] at hop; cases hop
  · rw [hm] at hop; cases hop
  subst hP
  have hnd := hinv.1
  have hlt := hinv.2
  simp only [owned_mk] at hnd hlt
  have key : ∀ k, (k ∈ T ∨ ∃ e ∈ LS, k ∈ e.2) →
      (CounterPropagateAddrSet B P.2 c ++
        [(⟨.END_LOOP, [((P.1 + 1 : Nat) : Int)]⟩ : MachineInstr)])[k]? = B[k]? := by
    intro k hk
    have hnot := not_mem_head_set T P LS hnd k hk
    have hk1 : k < B.length := by
      apply hlt
      rcases hk with hk | ⟨e, he, hke⟩
      · exact List.mem_append_left _ hk
      · apply List.mem_append_right
        simp only [List.map_cons, List.flatten_cons, List.mem_append, List.mem_flatten,
          List.mem_map]
        exact Or.inr ⟨e.2, ⟨e, he, rfl⟩, hke⟩
    rw [List.getElem?_append_left (by rw [length_CounterPropagateAddrSet]; exact hk1),
      getElem?_CounterPropagateAddrSet_not_mem _ _ _ _ hnot]
  refine ⟨rfl, rfl, ?_, ?_⟩
  · intro e he k hk
    exact key k (Or.inr ⟨e, he, hk⟩)
  · intro k hk
    exact key k (Or.inl hk)

/-! ## Matching closers in a well-formed block -/

theorem nestStep_cases (st st1 : List Nest) (I : MachineInstr) (h : nestStep st I = some st1) :
    (isStackMarker I = false ∧ st1 = st)
    ∨ (I.opcode = .WHILELOOP ∧ st1 = .loop :: st)
    ∨ (I.opcode = .ENDLOOP ∧ st = .loop :: st1)
    ∨ (I.opcode = .IF_PREDICATE_SET ∧ st1 = .ifThen :: st)
    ∨ (I.opcode = .ELSE ∧ ∃ t, st = .ifThen :: t ∧ st1 = .ifElse :: t)
    ∨ (I.opcode = .ENDIF ∧ (st = .ifThen :: st1 ∨ st = .ifElse :: st1))
    ∨ ((I.opcode = .PREDICATED_BREAK ∨ I.opcode = .CONTINUE) ∧ .loop ∈ st ∧ st1 = st) := by
  obtain ⟨op, args⟩ := I
  cases op <;> simp only [nestStep] at h
  case WHILELOOP => injection h with h; exact Or.inr (Or.inl ⟨rfl, h.symm⟩)
  case ENDLOOP =>
    split at h
    · injection h with h; subst h
      exact Or.inr (Or.inr (Or.inl ⟨rfl, rfl⟩))
    · cases h
  case IF_PREDICATE_SET =>
    injection h with h
    exact Or.inr (Or.inr (Or.inr (Or.inl ⟨rfl, h.symm⟩)))
  case ELSE =>
    split at h
    · injection h with h; subst h
      exact Or.inr (Or.inr (Or.inr (Or.inr (Or.inl ⟨rfl, _, rfl, rfl⟩))))
    · cases h
  case ENDIF =>
    split at h
    · injection h with h; subst h
      exact Or.inr (Or.inr (Or.inr (Or.inr (Or.inr (Or.inl ⟨rfl, Or.inl rfl⟩)))))
    · injection h with h; subst h
      exact Or.inr (Or.inr (Or.inr (Or.inr (Or.inr (Or.inl ⟨rfl, Or.inr rfl⟩)))))
    · cases h
  case PREDICATED_BREAK =>
    split at h
    · injection h with h
      exact Or.inr (Or.inr (Or.inr (Or.inr (Or.inr (Or.inr ⟨Or.inl rfl, by assumption,
        h.symm⟩)))))
    · cases h
  case CONTINUE =>
    split at h
    · injection h with h
      exact Or.inr (Or.inr (Or.inr (Or.inr (Or.inr (Or.inr ⟨Or.inr rfl, by assumption,
        h.symm⟩)))))
    · cases h
  all_goals
    injection h with h
    exact Or.inl ⟨rfl, h.symm⟩

theorem ghostRun_cons_some {G : Type} (gstep : G → MachineInstr → Option G) (g g1 : G)
    (I : MachineInstr) (rest : List MachineInstr) (h : gstep g I = some g1) :
    ghostRun gstep g (I :: rest) = ghostRun gstep g1 rest := by
  simp only [ghostRun, h]

theorem ghostRun_cons_inv {G : Type} (gstep : G → MachineInstr → Option G) (g r : G)
    (I : MachineInstr) (rest : List MachineInstr)
    (h : ghostRun gstep g (I :: rest) = some r) :
    ∃ g1, gstep g I = some g1 ∧ ghostRun gstep g1 rest = some r := by
  simp only [ghostRun] at h
  cases hg : gstep g I with
  | none => rw [hg] at h; cases h
  | some g1 => rw [hg] at h; exact ⟨g1, rfl, h⟩

/-- In a run of the nesting discipline that ends below an open if (`ifThen`) or else
(`ifElse`), the construct is closed: the instructions up to its closer are balanced in ifs
relative to the ifs opened above it, and the closer is an `ELSE` or `ENDIF` for an open if,
an `ENDIF` for an open else. -/
theorem nest_if_closer (l : List MachineInstr) :
    ∀ (T : List Nest) (tag : Nest) (st r : List Nest), tag ≠ .loop →
      ghostRun nestStep (T ++ tag :: st) l = some r → r.length ≤ st.length →
      ∃ mid c post, l = mid ++ c :: post
        ∧ ghostRun ifDepthStep (T.count .ifThen + T.count .ifElse) mid = some 0
        ∧ (c.opcode = .ENDIF ∨ (tag = .ifThen ∧ c.opcode = .ELSE)) := by
  induction l with
  | nil =>
    intro T tag st r _ h hlen
    simp only [ghostRun] at h
    injection h with h
    subst h
    simp at hlen
    omega
  | cons I rest ih =>
    intro T tag st r htag h hlen
    obtain ⟨X, hstep, hrun⟩ := ghostRun_cons_inv nestStep _ r I rest h
    have keep : ∀ T1 : List Nest, X = T1 ++ tag :: st →
        ifDepthStep (T.count .ifThen + T.count .ifElse) I
          = some (T1.count .ifThen + T1.count .ifElse) →
        ∃ mid c post, I :: rest = mid ++ c :: post
          ∧ ghostRun ifDepthStep (T.count .ifThen + T.count .ifElse) mid = some 0
          ∧ (c.opcode = .ENDIF ∨ (tag = .ifThen ∧ c.opcode = .ELSE)) := by
      intro T1 hX hd
      rw [hX] at hrun
      obtain ⟨mid, c, post, hl, hbal, hc⟩ := ih T1 tag st r htag hrun hlen
      refine ⟨I :: mid, c, post, by rw [hl]; rfl, ?_, hc⟩
      rw [ghostRun_cons_some ifDepthStep _ _ I mid hd]
      exact hbal
    rcases nestStep_cases _ _ I hstep with
      ⟨hop, hX⟩ | ⟨hop, hX⟩ | ⟨hop, hX⟩ | ⟨hop, hX⟩ | ⟨hop, t, hst, hX⟩ | ⟨hop, hX⟩ |
      ⟨hop, -, hX⟩
    · exact keep T hX (ifDepthStep_plain _ I hop)
    · exact keep (.loop :: T) (by rw [hX]; rfl) (by simp [ifDepthStep, hop])
    · cases T with
      | nil =>
        simp only [List.nil_append, List.cons.injEq] at hX
        exact absurd hX.1 htag
      | cons t0 T0 =>
        simp only [List.cons_append, List.cons.injEq] at hX
        obtain ⟨rfl, rfl⟩ := hX
        exact keep T0 rfl (by simp [ifDepthStep, hop])
    · exact keep (.ifThen :: T) (by rw [hX]; rfl) (by simp [ifDepthStep, hop]; omega)
    · cases T with
      | nil =>
        simp only [List.nil_append, List.cons.injEq] at hst
        obtain ⟨rfl, -⟩ := hst
        exact ⟨[], I, rest, rfl, rfl, Or.inr ⟨rfl, hop⟩⟩
      | cons t0 T0 =>
        simp only [List.cons_append, List.cons.injEq] at hst
        obtain ⟨rfl, rfl⟩ := hst
        exact keep (.ifElse :: T0) (by rw [hX]; rfl) (by simp [ifDepthStep, hop]; omega)
    · cases T with
      | nil => exact ⟨[], I, rest, rfl, rfl, Or.inl hop⟩
      | cons t0 T0 =>
        simp only [List.cons_append, List.cons.injEq] at hX
        rcases hX with ⟨rfl, rfl⟩ | ⟨rfl, rfl⟩
        · exact keep T0 rfl (by simp [ifDepthStep, hop])
        · exact keep T0 rfl (by simp [ifDepthStep, hop])
    · refine keep T hX ?_
      rcases hop with hop | hop <;> simp [ifDepthStep, hop]

/-- In a run of the nesting discipline that ends below an open loop, the loop is closed: the
instructions up to its `ENDLOOP` are balanced in loops relative to the loops opened above
it. -/
theorem nest_loop_closer (l : List MachineInstr) :
    ∀ (T : List Nest) (st r : List Nest),
      ghostRun nestStep (T ++ .loop :: st) l = some r → r.length ≤ st.length →
      ∃ mid c post, l = mid ++ c :: post
        ∧ ghostRun loopDepthStep (T.count .loop) mid = some 0
        ∧ c.opcode = .ENDLOOP := by
  induction l with
  | nil =>
    intro T st r h hlen
    simp only [ghostRun] at h
    injection h with h
    subst h
    simp at hlen
    omega
  | cons I rest ih =>
    intro T st r h hlen
    obtain ⟨X, hstep, hrun⟩ := ghostRun_cons_inv nestStep _ r I rest h
    have keep : ∀ T1 : List Nest, X = T1 ++ .loop :: st →
        loopDepthStep (T.count .loop) I = some (T1.count .loop) →
        ∃ mid c post, I :: rest = mid ++ c :: post
          ∧ ghostRun loopDepthStep (T.count .loop) mid = some 0
          ∧ c.opcode = .ENDLOOP := by
      intro T1 hX hd
      rw [hX] at hrun
      obtain ⟨mid, c, post, hl, hbal, hc⟩ := ih T1 st r hrun hlen
      refine ⟨I :: mid, c, post, by rw [hl]; rfl, ?_, hc⟩
      rw [ghostRun_cons_some loopDepthStep _ _ I mid hd]
      exact hbal
    rcases nestStep_cases _ _ I hstep with
      ⟨hop, hX⟩ | ⟨hop, hX⟩ | ⟨hop, hX⟩ | ⟨hop, hX⟩ | ⟨hop, t, hst, hX⟩ | ⟨hop, hX⟩ |
      ⟨hop, -, hX⟩
    · exact keep T hX (loopDepthStep_plain _ I hop)
    · exact keep (.loop :: T) (by rw [hX]; rfl) (by simp [loopDepthStep, hop])
    · cases T with
      | nil => exact ⟨[], I, rest, rfl, rfl, hop⟩
      | cons t0 T0 =>
        simp only [List.cons_append, List.cons.injEq] at hX
        obtain ⟨rfl, rfl⟩ := hX
        exact keep T0 rfl (by simp [loopDepthStep, hop])
    · exact keep (.ifThen :: T) (by rw [hX]; rfl) (by simp [loopDepthStep, hop])
    · cases T with
      | nil =>
        simp only [List.nil_append, List.cons.injEq] at hst
        exact absurd hst.1 (by decide)
      | cons t0 T0 =>
        simp only [List.cons_append, List.cons.injEq] at hst
        obtain ⟨rfl, rfl⟩ := hst
        exact keep (.ifElse :: T0) (by rw [hX]; rfl) (by simp [loopDepthStep, hop])
    · cases T with
      | nil =>
        simp only [List.nil_append, List.cons.injEq] at hX
        rcases hX with ⟨h1, -⟩ | ⟨h1, -⟩ <;> exact absurd h1 (by decide)
      | cons t0 T0 =>
        simp only [List.cons_append, List.cons.injEq] at hX
        rcases hX with ⟨rfl, rfl⟩ | ⟨rfl, rfl⟩
        · exact keep T0 rfl (by simp [loopDepthStep, hop])
        · exact keep T0 rfl (by simp [loopDepthStep, hop])
    · refine keep T hX ?_
      rcases hop with hop | hop <;> simp [loopDepthStep, hop]

theorem ghostRun_append_some {G : Type} (gstep : G → MachineInstr → Option G)
    (l1 l2 : List MachineInstr) (g r : G) (h : ghostRun gstep g (l1 ++ l2) = some r) :
    ∃ g1, ghostRun gstep g l1 = some g1 ∧ ghostRun gstep g1 l2 = some r := by
  induction l1 generalizing g with
  | nil => exact ⟨g, rfl, h⟩
  | cons I rest ih =>
    obtain ⟨g1, hstep, hrun⟩ := ghostRun_cons_inv gstep g r I (rest ++ l2) h
    obtain ⟨g2, h1, h2⟩ := ih g1 hrun
    exact ⟨g2, by rw [ghostRun_cons_some gstep g g1 I rest hstep]; exact h1, h2⟩

/-! ## Invariants along single iterations of the scan -/

/-- A predicate kept by fetch clauses and by the lowering of every instruction is kept by
every number of iterations of the scan. -/
theorem scan_preserves (C : Nat) (R : State → Prop)
    (hclause : ∀ s extra c, R s → R { s with MBB := s.MBB ++ extra, CfCount := c })
    (hstep : ∀ s s1 I, R s → lowerInstr s I = .ok s1 → R s1) :
    ∀ (n : Nat) (s s1 : State) (l r : List MachineInstr), R s →
      scan C n s l = .ok (s1, r) → R s1 := by
  intro n
  induction n with
  | zero =>
    intro s s1 l r hR h
    simp only [scan] at h
    injection h with h
    injection h with h1 _
    rw [← h1]; exact hR
  | succ n ih =>
    intro s s1 l r hR h
    cases l with
    | nil =>
      simp only [scan] at h
      injection h with h
      injection h with h1 _
      rw [← h1]; exact hR
    | cons I rest =>
      simp only [scan] at h
      cases hb : loopBody C s I rest with
      | error e => rw [hb] at h; cases h
      | ok p =>
        obtain ⟨s', rest'⟩ := p
        rw [hb] at h
        refine ih s' s1 rest' r ?_ h
        cases hI : isFetch I with
        | true =>
          rw [loopBody_fetch C s I rest hI] at hb
          injection hb with hb
          injection hb with hb1 _
          rw [← hb1, MakeFetchClause_fst]
          exact hclause s _ _ hR
        | false =>
          rw [loopBody_other C s I rest hI] at hb
          cases hl : lowerInstr s I with
          | error e => rw [hl] at hb; cases hb
          | ok s2 =>
            rw [hl] at hb
            injection hb with hb
            injection hb with hb1 _
            rw [← hb1]
            exact hstep s s2 I hR hl

theorem scan_Inv (C : Nat) (n : Nat) (s s1 : State) (l r : List MachineInstr) (hR : Inv s)
    (h : scan C n s l = .ok (s1, r)) : Inv s1 :=
  scan_preserves C Inv (fun s extra c hs => Inv_clause s extra c hs)
    (fun s s1 I hs hl => lowerInstr_Inv s s1 I hl hs) n s s1 l r hR h

theorem scan_unowned (C : Nat) (k : Nat) (v : MachineInstr) (n : Nat) (s s1 : State)
    (l r : List MachineInstr) (hR : Inv s ∧ k ∉ owned s ∧ s.MBB[k]? = some v)
    (h : scan C n s l = .ok (s1, r)) :
    Inv s1 ∧ k ∉ owned s1 ∧ s1.MBB[k]? = some v :=
  scan_preserves C (fun s => Inv s ∧ k ∉ owned s ∧ s.MBB[k]? = some v)
    (fun s extra c hs =>
      ⟨Inv_clause s extra c hs.1, hs.2.1, getElem?_append_of_some _ _ _ _ hs.2.2⟩)
    (fun s s1 I hs hl => lowerInstr_unowned k v s s1 I hs hl) n s s1 l r hR h

/-- The scan goes on from every state it passes through. -/
theorem scan_scanAll (C : Nat) (hC : 0 < C) :
    ∀ (n : Nat) (s s1 : State) (l r : List MachineInstr),
      scan C n s l = .ok (s1, r) → scanAll C s l = scanAll C s1 r := by
  intro n
  induction n with
  | zero =>
    intro s s1 l r h
    simp only [scan] at h
    injection h with h
    injection h with h1 h2
    rw [h1, h2]
  | succ n ih =>
    intro s s1 l r h
    cases l with
    | nil =>
      simp only [scan] at h
      injection h with h
      injection h with h1 h2
      rw [h1, h2]
    | cons I rest =>
      simp only [scan] at h
      rw [scanAll_cons C hC s I rest]
      cases hb : loopBody C s I rest with
      | error e => rw [hb] at h; cases h
      | ok p =>
        obtain ⟨s', rest'⟩ := p
        rw [hb] at h
        exact ih s' s1 rest' r h

/-- A position at the end of the block is not pointed to by any stack. -/
theorem length_not_owned (s : State) (hinv : Inv s) (j : Nat) :
    s.MBB.length + j ∉ owned s := by
  intro hmem
  have := hinv.2 _ hmem
  omega

/-- The iteration of the scan that starts on a fetch instruction. -/
theorem loopBody_fetch_shape (C : Nat) (s : State) (I : MachineInstr)
    (rest : List MachineInstr) (hI : isFetch I = true) :
    ∃ s1, loopBody C s I rest = .ok (s1, (fetchClauseLoop C (I :: rest) 0).2.2)
      ∧ s1.MBB = s.MBB ++ ⟨.CF_TC, [0, ((fetchClauseLoop C (I :: rest) 0).1 : Int)]⟩
                  :: (fetchClauseLoop C (I :: rest) 0).2.1
      ∧ s1.CfCount = s.CfCount + 1
      ∧ s1.LoopStack = s.LoopStack ∧ s1.IfThenElseStack = s.IfThenElseStack
      ∧ s1.MaxStack = s.MaxStack ∧ s1.CurrentStack = s.CurrentStack := by
  refine ⟨_, loopBody_fetch C s I rest hI, ?_, rfl, rfl, rfl, rfl, rfl⟩
  simp only [MakeFetchClause_fst]
  simp

theorem Inv_of_append (s s1 : State) (extra : List MachineInstr) (hinv : Inv s)
    (hB : s1.MBB = s.MBB ++ extra) (hL : s1.LoopStack = s.LoopStack)
    (hT : s1.IfThenElseStack = s.IfThenElseStack) : Inv s1 := by
  unfold Inv owned at hinv ⊢
  rw [hB, hL, hT]
  refine ⟨hinv.1, fun k hk => ?_⟩
  have := hinv.2 k hk
  simp only [List.length_append]
  omega

/-! ## Counting the instructions of one opcode along the scan -/

theorem countOp_append (op : Opcode) (l1 l2 : List MachineInstr) :
    countOp op (l1 ++ l2) = countOp op l1 + countOp op l2 := by
  unfold countOp
  rw [List.countP_append]

theorem countOp_opcodes (op : Opcode) (B : List MachineInstr) :
    countOp op B = (B.map (fun MI => MI.opcode)).countP (fun o => decide (o = op)) := by
  unfold countOp
  rw [List.countP_map]
  rfl

theorem countP_lowerOpcodes (op : Opcode) (hop : op = .STACK_SIZE ∨ op = .CF_CALL_FS)
    (I : MachineInstr) :
    (lowerOpcodes I).countP (fun o => decide (o = op)) = countOp op [I] := by
  obtain ⟨o, args⟩ := I
  rcases hop with rfl | rfl <;> cases o <;> simp [lowerOpcodes, countOp]

/-- An iteration of the scan neither adds nor removes a `STACK_SIZE` or a `CF_CALL_FS`. -/
theorem loopBody_countOp (C : Nat) (op : Opcode) (hop : op = .STACK_SIZE ∨ op = .CF_CALL_FS)
    (s s1 : State) (I : MachineInstr) (rest rest1 : List MachineInstr)
    (h : loopBody C s I rest = .ok (s1, rest1)) :
    countOp op s1.MBB + countOp op rest1 = countOp op s.MBB + countOp op (I :: rest) := by
  have ho := loopBody_opcodes C s s1 I rest rest1 h
  rw [countOp_opcodes op s1.MBB, ho, List.countP_append, ← countOp_opcodes]
  cases hI : isFetch I with
  | true =>
    obtain ⟨s2, hb, -⟩ := loopBody_fetch_shape C s I rest hI
    rw [hb] at h
    injection h with h
    injection h with _ h2
    have happ := fetchClauseLoop_append C (I :: rest) 0
    have hsplit : countOp op (I :: rest)
        = countOp op (fetchClauseLoop C (I :: rest) 0).2.1
          + countOp op (fetchClauseLoop C (I :: rest) 0).2.2 := by
      rw [← countOp_append, happ]
    rw [hsplit, ← h2]
    simp only [if_true, List.countP_cons]
    rw [← countOp_opcodes]
    have : decide (Opcode.CF_TC = op) = false := by
      rcases hop with rfl | rfl <;> rfl
    rw [this]
    simp only [Bool.false_eq_true, if_false]
    omega
  | false =>
    rw [loopBody_other C s I rest hI] at h
    cases hl : lowerInstr s I with
    | error e => rw [hl] at h; cases h
    | ok s2 =>
      rw [hl] at h
      injection h with h
      injection h with _ h2
      simp only [Bool.false_eq_true, if_false]
      rw [countP_lowerOpcodes op hop I, countOp_cons op I rest, ← h2]
      omega

/-- A relation between the state and the remaining instructions that every iteration keeps
holds after every number of iterations. -/
theorem scan_preserves_rel (C : Nat) (R : State → List MachineInstr → Prop)
    (hbody : ∀ s I rest s1 rest1, R s (I :: rest) → loopBody C s I rest = .ok (s1, rest1) →
      R s1 rest1) :
    ∀ (n : Nat) (s s1 : State) (l r : List MachineInstr), R s l →
      scan C n s l = .ok (s1, r) → R s1 r := by
  intro n
  induction n with
  | zero =>
    intro s s1 l r hR h
    simp only [scan] at h
    injection h with h
    injection h with h1 h2
    rw [← h1, ← h2]; exact hR
  | succ n ih =>
    intro s s1 l r hR h
    cases l with
    | nil =>
      simp only [scan] at h
      injection h with h
      injection h with h1 h2
      rw [← h1, ← h2]; exact hR
    | cons I rest =>
      simp only [scan] at h
      cases hb : loopBody C s I rest with
      | error e => rw [hb] at h; cases h
      | ok p =>
        obtain ⟨s', rest'⟩ := p
        rw [hb] at h
        exact ih s' s1 rest' r (hbody s I rest s' rest' hR hb) h

theorem scanAll_countOp (C : Nat) (op : Opcode) (hop : op = .STACK_SIZE ∨ op = .CF_CALL_FS)
    (s sF : State) (l : List MachineInstr) (h : scanAll C s l = .ok sF) :
    countOp op sF.MBB = countOp op s.MBB + countOp op l := by
  have hs := scanAll_ok_scan C s sF l h
  have := scan_preserves_rel C
    (fun s1 r => countOp op s1.MBB + countOp op r = countOp op s.MBB + countOp op l)
    (fun s1 I rest s2 rest2 hR hb => by
      have := loopBody_countOp C op hop s1 s2 I rest rest2 hb
      simp only at hR ⊢
      omega)
    l.length s sF l [] rfl hs
  simpa [countOp] using this

/-! ## The instructions that are not markers stay where they are -/

theorem selected_append (B B1 : List MachineInstr) (keep keep1 : List Bool)
    (h : keep.length = B.length) :
    selected (B ++ B1) (keep ++ keep1) = selected B keep ++ selected B1 keep1 := by
  unfold selected
  rw [List.zip_append h.symm, List.filter_append, List.map_append]

theorem selected_replicate_false (B : List MachineInstr) (n : Nat) :
    selected B (List.replicate n false) = [] := by
  induction B generalizing n with
  | nil => simp [selected]
  | cons x B ih =>
    cases n with
    | zero => simp [selected]
    | succ n =>
      have := ih n
      simp only [selected, List.replicate_succ, List.zip_cons_cons] at this ⊢
      rw [List.filter_cons_of_neg (by simp)]
      exact this

theorem selected_replicate_true (B : List MachineInstr) :
    selected B (List.replicate B.length true) = B := by
  induction B with
  | nil => simp [selected]
  | cons x B ih =>
    simp only [selected, List.length_cons, List.replicate_succ, List.zip_cons_cons] at ih ⊢
    rw [List.filter_cons_of_pos (by simp), List.map_cons, ih]

theorem selected_congr (keep : List Bool) :
    ∀ (B B1 : List MachineInstr), B.length = keep.length → B1.length = keep.length →
      (∀ k : Nat, keep[k]? = some true → B1[k]? = B[k]?) → selected B1 keep = selected B keep := by
  induction keep with
  | nil =>
    intro B B1 h h1 _
    simp [selected]
  | cons b keep ih =>
    intro B B1 h h1 hk
    cases B with
    | nil => simp at h
    | cons x B =>
      cases B1 with
      | nil => simp at h1
      | cons y B1 =>
        simp only [List.length_cons, Nat.add_right_cancel_iff] at h h1
        have hrec := ih B B1 h h1 (fun k hkk => by
          have := hk (k + 1) (by simpa using hkk)
          simpa using this)
        simp only [selected, List.zip_cons_cons] at hrec ⊢
        cases b with
        | false =>
          rw [List.filter_cons_of_neg (by simp), List.filter_cons_of_neg (by simp)]
          exact hrec
        | true =>
          have h0 := hk 0 (by simp)
          simp only [List.getElem?_cons_zero, Option.some.injEq] at h0
          rw [List.filter_cons_of_pos (by simp), List.filter_cons_of_pos (by simp),
            List.map_cons, List.map_cons, hrec, h0]

theorem selected_sublist (B : List MachineInstr) (keep : List Bool)
    (h : keep.length = B.length) : List.Sublist (selected B keep) B := by
  unfold selected
  have h1 : List.Sublist (((B.zip keep).filter (fun p => p.2)).map Prod.fst)
      ((B.zip keep).map Prod.fst) :=
    List.Sublist.map _ (List.filter_sublist _)
  rw [List.map_fst_zip _ _ (by omega)] at h1
  exact h1

theorem payload_append (l1 l2 : List MachineInstr) :
    payload (l1 ++ l2) = payload l1 ++ payload l2 := by
  unfold payload
  rw [List.filter_append]

theorem payload_skip (l : List MachineInstr)
    (h : ∀ I ∈ l, isFetch I = true ∨ IsTrivialInst I = true) : payload l = l := by
  unfold payload
  rw [List.filter_eq_self]
  intro I hI
  rw [isStackMarker_of_skip I (h I hI)]
  rfl

theorem lowerInstr_length_le (s s1 : State) (I : MachineInstr) (h : lowerInstr s I = .ok s1) :
    s.MBB.length ≤ s1.MBB.length := by
  have := congrArg List.length (lowerInstr_opcodes s s1 I h)
  simp only [List.length_map, List.length_append] at this
  omega

/-- The lowering of an instruction keeps the marked instructions where they are; none of
the instructions it adds needs to be marked. -/
theorem lowerInstr_Keeps_marker (s s1 : State) (I : MachineInstr) (keep : List Bool)
    (P : List MachineInstr) (hK : Keeps s keep P) (h : lowerInstr s I = .ok s1) :
    Keeps s1 (keep ++ List.replicate (s1.MBB.length - s.MBB.length) false) P := by
  obtain ⟨hinv, hlen, hown, hsel⟩ := hK
  have hle := lowerInstr_length_le s s1 I h
  have inv1 := lowerInstr_Inv s s1 I h hinv
  have hold : ∀ k : Nat, (keep ++ List.replicate (s1.MBB.length - s.MBB.length) false)[k]?
      = some true → keep[k]? = some true := by
    intro k hk
    by_cases hkl : k < keep.length
    · rwa [List.getElem?_append_left hkl] at hk
    · rw [List.getElem?_append_right (by omega)] at hk
      have hm := List.getElem?_mem hk
      simp at hm
  have hstay : ∀ k : Nat, keep[k]? = some true → k ∉ owned s1 ∧ s1.MBB[k]? = s.MBB[k]? := by
    intro k hk
    have hkl : k < s.MBB.length := by
      rw [← hlen]; exact lt_of_getElem?_some keep _ _ hk
    have hv : s.MBB[k]? = some (s.MBB.get ⟨k, hkl⟩) := List.getElem?_eq_getElem hkl
    have := lowerInstr_unowned k _ s s1 I ⟨hinv, hown k hk, hv⟩ h
    exact ⟨this.2.1, by rw [this.2.2, hv]⟩
  refine ⟨inv1, ?_, fun k hk => (hstay k (hold k hk)).1, ?_⟩
  · simp only [List.length_append, List.length_replicate]
    omega
  · have hsplit : s1.MBB = s1.MBB.take s.MBB.length ++ s1.MBB.drop s.MBB.length :=
      (List.take_append_drop _ _).symm
    have htl : (s1.MBB.take s.MBB.length).length = s.MBB.length := by
      rw [List.length_take]; omega
    rw [hsplit, selected_append _ _ _ _ (by rw [htl, hlen]), selected_replicate_false,
      List.append_nil, ← hsel]
    refine selected_congr keep _ _ hlen.symm (by rw [htl, hlen]) (fun k hk => ?_)
    have hkl : k < s.MBB.length := by
      rw [← hlen]; exact lt_of_getElem?_some keep _ _ hk
    rw [List.getElem?_take]
    simp only [hkl, if_true]
    exact (hstay k hk).2

/-- An instruction that is not a marker is appended and marked. -/
theorem lowerInstr_Keeps_plain (s s1 : State) (I : MachineInstr) (keep : List Bool)
    (P : List MachineInstr) (hK : Keeps s keep P) (hI : isStackMarker I = false)
    (h : lowerInstr s I = .ok s1) :
    Keeps s1 (keep ++ [true]) (P ++ [I]) := by
  obtain ⟨hinv, hlen, hown, hsel⟩ := hK
  have inv1 := lowerInstr_Inv s s1 I h hinv
  obtain ⟨B, c, L, T, mx, x⟩ := s
  rcases lowerInstr_cases B c L T mx x I s1 h with
    ⟨-, c1, m1, x1, rfl⟩ | ⟨hop, -⟩ | ⟨hop, -⟩ | ⟨hop, -⟩ | ⟨hop, -⟩ | ⟨hop, -⟩ | ⟨hop, -⟩ |
    ⟨hop, -⟩
  · refine ⟨inv1, by simp [hlen], ?_, ?_⟩
    · intro k hk
      simp only [owned_mk] at hown ⊢
      by_cases hkl : k < keep.length
      · rw [List.getElem?_append_left hkl] at hk
        exact hown k hk
      · intro hmem
        have := hinv.2 k (by simpa only [owned_mk] using hmem)
        simp only at this hlen
        omega
    · simp only at hlen hsel ⊢
      rw [selected_append _ _ _ _ hlen, hsel]
      rfl
  all_goals simp [isStackMarker, hop] at hI

/-- A fetch clause: the header is not marked, the instructions of the clause are. -/
theorem Keeps_clause (s s1 : State) (hdr : MachineInstr) (passed : List MachineInstr)
    (keep : List Bool) (P : List MachineInstr) (hK : Keeps s keep P)
    (hB : s1.MBB = s.MBB ++ hdr :: passed) (hL : s1.LoopStack = s.LoopStack)
    (hT : s1.IfThenElseStack = s.IfThenElseStack) :
    Keeps s1 (keep ++ false :: List.replicate passed.length true) (P ++ passed) := by
  obtain ⟨hinv, hlen, hown, hsel⟩ := hK
  have hown1 : owned s1 = owned s := by unfold owned; rw [hL, hT]
  refine ⟨Inv_of_append s s1 _ hinv hB hL hT, ?_, ?_, ?_⟩
  · rw [hB]; simp [hlen]
  · intro k hk
    rw [hown1]
    by_cases hkl : k < keep.length
    · rw [List.getElem?_append_left hkl] at hk
      exact hown k hk
    · intro hmem
      have := hinv.2 k hmem
      omega
  · rw [hB, selected_append _ _ _ _ hlen, hsel]
    congr 1
    have := selected_replicate_true passed
    simp only [selected, List.zip_cons_cons] at this ⊢
    rw [List.filter_cons_of_neg (by simp)]
    exact this

/-- One iteration of the scan keeps the marked instructions and marks the instructions that
are not markers among those it passes. -/
theorem loopBody_Keeps (C : Nat) (total : List MachineInstr) (s s1 : State) (I : MachineInstr)
    (rest rest1 : List MachineInstr)
    (hR : ∃ keep P, Keeps s keep P ∧ P ++ payload (I :: rest) = total)
    (h : loopBody C s I rest = .ok (s1, rest1)) :
    ∃ keep P, Keeps s1 keep P ∧ P ++ payload rest1 = total := by
  obtain ⟨keep, P, hK, htot⟩ := hR
  cases hI : isFetch I with
  | true =>
    obtain ⟨s2, hb, hB, -, hL, hT, -, -⟩ := loopBody_fetch_shape C s I rest hI
    rw [hb] at h
    injection h with h
    injection h with h1 h2
    subst h1; subst h2
    refine ⟨_, _, Keeps_clause s s2 _ _ keep P hK hB hL hT, ?_⟩
    rw [← htot, List.append_assoc]
    congr 1
    have happ := fetchClauseLoop_append C (I :: rest) 0
    have hpassed := fetchClauseLoop_passed C (I :: rest) 0
    conv_rhs => rw [← happ]
    rw [payload_append, payload_skip _ hpassed]
  | false =>
    rw [loopBody_other C s I rest hI] at h
    cases hl : lowerInstr s I with
    | error e => rw [hl] at h; cases h
    | ok s2 =>
      rw [hl] at h
      injection h with h
      injection h with h1 h2
      subst h1; subst h2
      have hcons : payload (I :: rest) = payload [I] ++ payload rest :=
        payload_append [I] rest
      cases hm : isStackMarker I with
      | true =>
        refine ⟨_, P, lowerInstr_Keeps_marker s s2 I keep P hK hl, ?_⟩
        rw [← htot, hcons]
        simp [payload, hm]
      | false =>
        refine ⟨_, _, lowerInstr_Keeps_plain s s2 I keep P hK hm hl, ?_⟩
        rw [← htot, hcons]
        simp [payload, hm]

theorem scanAll_payload (C : Nat) (s sF : State) (l : List MachineInstr) (hinv : Inv s)
    (hnil : s.MBB = []) (h : scanAll C s l = .ok sF) :
    List.Sublist (payload l) sF.MBB := by
  have hs := scanAll_ok_scan C s sF l h
  have h0 : ∃ keep P, Keeps s keep P ∧ P ++ payload l = payload l := by
    refine ⟨[], [], ⟨hinv, by rw [hnil]; rfl, fun k hk => by simp at hk, ?_⟩, rfl⟩
    rw [hnil]; rfl
  obtain ⟨keep, P, hK, htot⟩ := scan_preserves_rel C
    (fun s1 r => ∃ keep P, Keeps s1 keep P ∧ P ++ payload r = payload l)
    (fun s1 I rest s2 rest2 hR hb => loopBody_Keeps C (payload l) s1 s2 I rest rest2 hR hb)
    l.length s sF l [] h0 hs
  have : P = payload l := by simpa [payload] using htot
  rw [← this, ← hK.2.2.2]
  exact selected_sublist _ _ hK.2.1

/-! ## No marker is left -/

theorem lowerOpcodes_noMarker (I : MachineInstr) :
    ∀ o ∈ lowerOpcodes I, isStackMarker ⟨o, []⟩ = false := by
  obtain ⟨op, args⟩ := I
  cases op <;> simp [lowerOpcodes, isStackMarker]

theorem isStackMarker_opcode (x : MachineInstr) :
    isStackMarker x = isStackMarker ⟨x.opcode, []⟩ := rfl

theorem loopBody_noMarker (C : Nat) (s s1 : State) (I : MachineInstr)
    (rest rest1 : List MachineInstr) (hR : ∀ x ∈ s.MBB, isStackMarker x = false)
    (h : loopBody C s I rest = .ok (s1, rest1)) :
    ∀ x ∈ s1.MBB, isStackMarker x = false := by
  have ho := loopBody_opcodes C s s1 I rest rest1 h
  intro x hx
  have hmem : x.opcode ∈ s1.MBB.map (fun MI => MI.opcode) := List.mem_map_of_mem _ hx
  rw [ho, List.mem_append] at hmem
  rw [isStackMarker_opcode]
  rcases hmem with hmem | hmem
  · rw [List.mem_map] at hmem
    obtain ⟨y, hy, hxy⟩ := hmem
    rw [← hxy, ← isStackMarker_opcode]
    exact hR y hy
  · cases hI : isFetch I with
    | true =>
      rw [hI] at hmem
      simp only [if_true, List.mem_cons, List.mem_map] at hmem
      rcases hmem with hmem | ⟨y, hy, hxy⟩
      · rw [hmem]; rfl
      · rw [← hxy, ← isStackMarker_opcode]
        exact isStackMarker_of_skip y (fetchClauseLoop_passed C (I :: rest) 0 y hy)
    | false =>
      rw [hI] at hmem
      simp only [Bool.false_eq_true, if_false] at hmem
      exact lowerOpcodes_noMarker I _ hmem

theorem scanAll_noMarker (C : Nat) (s sF : State) (l : List MachineInstr)
    (hR : ∀ x ∈ s.MBB, isStackMarker x = false) (h : scanAll C s l = .ok sF) :
    ∀ x ∈ sF.MBB, isStackMarker x = false :=
  scan_preserves_rel C (fun s1 _ => ∀ x ∈ s1.MBB, isStackMarker x = false)
    (fun s1 I rest s2 rest2 hR hb => loopBody_noMarker C s1 s2 I rest rest2 hR hb)
    l.length s sF l [] hR (scanAll_ok_scan C s sF l h)

/-- C11, counterexample: the functions `[[CF_ALU_PUSH_BEFORE], []]` and `[[], []]` agree on
their second block (empty) and on the settings, but the second output block is
`[STACK_SIZE 1]` for the first function and `[STACK_SIZE 0]` for the second. -/
theorem C11_counterexample :
    runOnMachineFunction 16 0 [[⟨.CF_ALU_PUSH_BEFORE, []⟩], []]
        = .ok ([[⟨.STACK_SIZE, [1]⟩, ⟨.CF_ALU_PUSH_BEFORE, []⟩], [⟨.STACK_SIZE, [1]⟩]], false)
      ∧ runOnMachineFunction 16 0 [[], []]
        = .ok ([[⟨.STACK_SIZE, [0]⟩], [⟨.STACK_SIZE, [0]⟩]], false) :=
  ⟨rfl, rfl⟩

/-- C11, as amended: `MaxStack` and `CurrentStack` start at 0 for the first block only and
are carried from block to block.  Two functions that agree on block `i`, on the
shader-stage tag and on the capacity, and are both processed, yield output blocks `i` that
consist of a `STACK_SIZE` followed by the same instructions: they agree in everything but
the operand of `STACK_SIZE`.  The output blocks `i` are the same, this operand included,
when the functions also agree on the blocks in front of block `i`, in particular for
`i = 0`. -/
theorem C11_block_independence_up_to_stack_size (C ST : Nat)
    (MF1 MF2 Bs1 Bs2 : List (List MachineInstr)) (b1 b2 : Bool) (i : Nat)
    (B : List MachineInstr)
    (h1 : runOnMachineFunction C ST MF1 = .ok (Bs1, b1))
    (h2 : runOnMachineFunction C ST MF2 = .ok (Bs2, b2))
    (hB1 : MF1[i]? = some B) (hB2 : MF2[i]? = some B) :
    (∃ (m1 m2 : Nat) (rest : List MachineInstr),
        Bs1[i]? = some (⟨.STACK_SIZE, [(m1 : Int)]⟩ :: rest)
        ∧ Bs2[i]? = some (⟨.STACK_SIZE, [(m2 : Int)]⟩ :: rest))
      ∧ (MF1.take i = MF2.take i → Bs1[i]? = Bs2[i]?)
      ∧ (i = 0 → Bs1[i]? = Bs2[i]?) := by
  have r1 := runOnMachineFunction_blocks C ST MF1 Bs1 b1 h1
  have r2 := runOnMachineFunction_blocks C ST MF2 Bs2 b2 h2
  obtain ⟨M1, X1, o1, ho1, hb1, -⟩ := runOnBlocks_getElem C ST MF1 0 0 Bs1 i B r1 hB1
  obtain ⟨M2, X2, o2, ho2, hb2, -⟩ := runOnBlocks_getElem C ST MF2 0 0 Bs2 i B r2 hB2
  have ht := runOnMachineBasicBlock_tail C ST M1 X1 M2 X2 B
  rw [ho1, ho2] at ht
  simp only [Except.map, Except.ok.injEq] at ht
  have e1 := runOnMachineBasicBlock_head C ST M1 X1 B o1 ho1
  have e2 := runOnMachineBasicBlock_head C ST M2 X2 B o2 ho2
  have hpre : MF1.take i = MF2.take i → Bs1[i]? = Bs2[i]? := by
    intro hp
    have hp1 : MF1.take (i + 1) = MF2.take (i + 1) := by
      rw [List.take_succ, List.take_succ, hp, hB1, hB2]
    have t1 := runOnBlocks_take C ST MF1 0 0 Bs1 (i + 1) r1
    have t2 := runOnBlocks_take C ST MF2 0 0 Bs2 (i + 1) r2
    rw [hp1, t2] at t1
    injection t1 with t1
    have g1 : (Bs1.take (i + 1))[i]? = Bs1[i]? := by rw [List.getElem?_take]; simp
    have g2 : (Bs2.take (i + 1))[i]? = Bs2[i]? := by rw [List.getElem?_take]; simp
    rw [← g1, ← g2, t1]
  refine ⟨⟨o1.2.1, o2.2.1, o1.1.tail, ?_, ?_⟩, hpre, ?_⟩
  · rw [hb1, ← e1]
  · rw [hb2, ht, ← e2]
  · intro h0
    subst h0
    exact hpre rfl

/-- C11, witness: the functions `[[CF_ALU_PUSH_BEFORE], [CF_ALU]]` and `[[], [CF_ALU]]` at
their second block. -/
theorem C11_block_independence_up_to_stack_size_witness :
    runOnMachineFunction 16 0 [[⟨.CF_ALU_PUSH_BEFORE, []⟩], [⟨.CF_ALU, []⟩]]
        = .ok ([[⟨.STACK_SIZE, [1]⟩, ⟨.CF_ALU_PUSH_BEFORE, []⟩],
                [⟨.STACK_SIZE, [1]⟩, ⟨.CF_ALU, []⟩]], false)
      ∧ runOnMachineFunction 16 0 [[], [⟨.CF_ALU, []⟩]]
        = .ok ([[⟨.STACK_SIZE, [0]⟩], [⟨.STACK_SIZE, [0]⟩, ⟨.CF_ALU, []⟩]], false)
      ∧ ∃ (m1 m2 : Nat) (rest : List MachineInstr),
          [[(⟨.STACK_SIZE, [1]⟩ : MachineInstr), ⟨.CF_ALU_PUSH_BEFORE, []⟩],
            [⟨.STACK_SIZE, [1]⟩, ⟨.CF_ALU, []⟩]][1]?
            = some (⟨.STACK_SIZE, [(m1 : Int)]⟩ :: rest)
          ∧ [[(⟨.STACK_SIZE, [0]⟩ : MachineInstr)], [⟨.STACK_SIZE, [0]⟩, ⟨.CF_ALU, []⟩]][1]?
            = some (⟨.STACK_SIZE, [(m2 : Int)]⟩ :: rest) :=
  ⟨rfl, rfl,
   (C11_block_independence_up_to_stack_size 16 0
      [[⟨.CF_ALU_PUSH_BEFORE, []⟩], [⟨.CF_ALU, []⟩]] [[], [⟨.CF_ALU, []⟩]] _ _ false false 1
      [⟨.CF_ALU, []⟩] rfl rfl rfl rfl).1⟩

/-- C12, counterexample: in the block `[WHILELOOP, PREDICATED_BREAK, ENDLOOP]` the output
holds five control-flow-level instructions, the third being `LOOP_BREAK`, but `CfCount`
goes 0, 1, 4, 5 and is never 2: the three instructions of the predicated-break are emitted
together, after `CfCount` was advanced by 3. -/
theorem C12_counterexample :
    scanBlock 16 0 0 0 [⟨.WHILELOOP, []⟩, ⟨.PREDICATED_BREAK, []⟩, ⟨.ENDLOOP, []⟩]
        = .ok ⟨[⟨.WHILE_LOOP, [6]⟩, ⟨.CF_JUMP, [4, 1]⟩, ⟨.LOOP_BREAK, [4]⟩, ⟨.POP, [4, 1]⟩,
                ⟨.END_LOOP, [1]⟩], 5, [], [], 1, 4294967295⟩
      ∧ ∀ n s r,
          scan 16 n (blockEntry 0 0 0 [⟨.WHILELOOP, []⟩, ⟨.PREDICATED_BREAK, []⟩,
              ⟨.ENDLOOP, []⟩]).1
            (blockEntry 0 0 0 [⟨.WHILELOOP, []⟩, ⟨.PREDICATED_BREAK, []⟩, ⟨.ENDLOOP, []⟩]).2
            = .ok (s, r) → s.CfCount ≠ 2 := by
  refine ⟨rfl, ?_⟩
  intro n s r h
  have key : ∀ k, 3 ≤ k →
      scan 16 k (blockEntry 0 0 0 [⟨.WHILELOOP, []⟩, ⟨.PREDICATED_BREAK, []⟩,
          ⟨.ENDLOOP, []⟩]).1
        (blockEntry 0 0 0 [⟨.WHILELOOP, []⟩, ⟨.PREDICATED_BREAK, []⟩, ⟨.ENDLOOP, []⟩]).2
        = .ok (⟨[⟨.WHILE_LOOP, [6]⟩, ⟨.CF_JUMP, [4, 1]⟩, ⟨.LOOP_BREAK, [4]⟩, ⟨.POP, [4, 1]⟩,
                ⟨.END_LOOP, [1]⟩], 5, [], [], 1, 4294967295⟩, []) := by
    intro k hk
    rw [scan_fuel 16 (by decide) k 3 _ _ (by simpa using hk) (by decide)]
    rfl
  match n with
  | 0 =>
    injection h with h
    injection h with h1 _
    rw [← h1]
    decide
  | 1 =>
    injection h with h
    injection h with h1 _
    rw [← h1]
    decide
  | 2 =>
    injection h with h
    injection h with h1 _
    rw [← h1]
    decide
  | k + 3 =>
    rw [key (k + 3) (by omega)] at h
    injection h with h
    injection h with h1 _
    rw [← h1]
    decide

/-- C12, as amended: within a block `CfCount` starts at 0, is 1 after the stage-entry
instruction, never decreases, and every iteration of the scan changes it by the documented
amount (`cfDelta`): +1 for a fetch clause, a plain or push-before ALU marker, loop-start,
loop-end, if-predicate-set, else, endif and continue, +3 for a predicated-break, 0 for every
other instruction.  For an input block without native control-flow opcodes, after every
iteration `CfCount` is the number of control-flow-level instructions in front of the
iterator (the pending stage-entry instruction counted), so the final `CfCount` is their
number in the output block; an iteration never changes the opcodes in front of the iterator
and adds as many control-flow-level instructions as it adds to `CfCount`, so those it adds
when `CfCount` is `c` are the `(c+1)`-th and, for a predicated-break, also the `(c+2)`-th
and `(c+3)`-th. -/
theorem C12_cfcount_deltas :
    (∀ ST M X MBB, (blockEntry ST M X MBB).1.CfCount = if ST = 1 then 1 else 0)
    ∧ (∀ C s I rest s1 rest1, loopBody C s I rest = .ok (s1, rest1) →
        s1.CfCount = s.CfCount + cfDelta I)
    ∧ (∀ C n s0 s l r, scan C n s0 l = .ok (s, r) → s0.CfCount ≤ s.CfCount)
    ∧ (∀ C s I rest s1 rest1, isNativeCF I = false → loopBody C s I rest = .ok (s1, rest1) →
        (s1.MBB.take s.MBB.length).map (fun MI => MI.opcode)
            = s.MBB.map (fun MI => MI.opcode)
          ∧ cfCount (s1.MBB.drop s.MBB.length) = cfDelta I)
    ∧ (∀ C ST M X MBB n s r, (∀ I ∈ MBB, isNativeCF I = false) →
        scan C n (blockEntry ST M X MBB).1 (blockEntry ST M X MBB).2 = .ok (s, r) →
        cfCount s.MBB + (if ST = 1 ∧ n = 0 then 1 else 0) = s.CfCount)
    ∧ (∀ C ST M X MBB sF, (∀ I ∈ MBB, isNativeCF I = false) →
        scanBlock C ST M X MBB = .ok sF →
        runOnMachineBasicBlock C ST M X MBB
            = .ok (⟨.STACK_SIZE, [(sF.MaxStack : Int)]⟩ :: sF.MBB, sF.MaxStack,
                   sF.CurrentStack)
          ∧ cfCount (⟨.STACK_SIZE, [(sF.MaxStack : Int)]⟩ :: sF.MBB) = sF.CfCount) := by
  refine ⟨?_, ?_, ?_, ?_, ?_, ?_⟩
  · intro ST M X MBB
    rfl
  · intro C s I rest s1 rest1 h
    exact loopBody_CfCount C s s1 I rest rest1 h
  · intro C n s0 s l r h
    exact scan_CfCount_le C n s0 s l r h
  · intro C s I rest s1 rest1 hn h
    exact loopBody_emitted C s s1 I rest rest1 hn h
  · intro C ST M X MBB n s r hn h
    exact scan_block_cfCount C ST M X MBB n s r hn h
  · intro C ST M X MBB sF hn h
    refine ⟨runOnMachineBasicBlock_of_scanBlock C ST M X MBB sF h, ?_⟩
    have hs := scanAll_ok_scan C _ sF _ h
    have := scan_block_cfCount C ST M X MBB _ sF [] hn hs
    have hlen : ¬ (ST = 1 ∧ (blockEntry ST M X MBB).2.length = 0) := by
      rintro ⟨h1, h2⟩
      simp [blockEntry, h1] at h2
    simp only [hlen, if_false, Nat.add_zero] at this
    simp only [cfCount, List.countP_cons, cfLevel] at this ⊢
    simpa using this

/-- C12, witness: the block `[TEX_SAMPLE, WHILELOOP, PREDICATED_BREAK, ENDLOOP]` with the
stage-entry instruction. -/
theorem C12_cfcount_deltas_witness :
    (∀ I ∈ [(⟨.TEX_SAMPLE, []⟩ : MachineInstr), ⟨.WHILELOOP, []⟩, ⟨.PREDICATED_BREAK, []⟩,
        ⟨.ENDLOOP, []⟩], isNativeCF I = false)
      ∧ scanBlock 16 1 0 0 [⟨.TEX_SAMPLE, []⟩, ⟨.WHILELOOP, []⟩, ⟨.PREDICATED_BREAK, []⟩,
          ⟨.ENDLOOP, []⟩]
        = .ok ⟨[⟨.CF_CALL_FS, []⟩, ⟨.CF_TC, [0, 1]⟩, ⟨.TEX_SAMPLE, []⟩, ⟨.WHILE_LOOP, [8]⟩,
                ⟨.CF_JUMP, [6, 1]⟩, ⟨.LOOP_BREAK, [6]⟩, ⟨.POP, [6, 1]⟩, ⟨.END_LOOP, [3]⟩],
               7, [], [], 1, 4294967295⟩
      ∧ cfCount (⟨.STACK_SIZE, [((1 : Nat) : Int)]⟩ ::
          [⟨.CF_CALL_FS, []⟩, ⟨.CF_TC, [0, 1]⟩, ⟨.TEX_SAMPLE, []⟩, ⟨.WHILE_LOOP, [8]⟩,
           ⟨.CF_JUMP, [6, 1]⟩, ⟨.LOOP_BREAK, [6]⟩, ⟨.POP, [6, 1]⟩, ⟨.END_LOOP, [3]⟩]) = 7 :=
  ⟨by decide, rfl,
   (C12_cfcount_deltas.2.2.2.2.2 16 1 0 0 [⟨.TEX_SAMPLE, []⟩, ⟨.WHILELOOP, []⟩,
      ⟨.PREDICATED_BREAK, []⟩, ⟨.ENDLOOP, []⟩] _ (by decide) rfl).2⟩

/-- C13: for a well-formed block (markers balanced and properly nested, every break and
continue inside a loop) the pass completes with both stacks empty, and every instruction
created with address 0 is patched at its closer: the `CF_JUMP` of an `IF_PREDICATE_SET` and
the `CF_ELSE` of an `ELSE` have a closer in the block (`ELSE` or `ENDIF` for the if, `ENDIF`
for the else) behind a part balanced in ifs, the `CF_CONTINUE` of a `CONTINUE` and the
`LOOP_BREAK` of a `PREDICATED_BREAK` have an `ENDLOOP` behind a part balanced in loops; the
emitted instruction still has address 0 when the scan reaches the closer, the closer sets
its address to the value of `CfCount` at the closer and removes the pointer to it from the
stacks, and that is its address in the output. -/
theorem C13_no_outstanding_placeholders (C ST M X : Nat) (MBB : List MachineInstr)
    (hC : 0 < C) (hwf : wellFormed MBB) :
    ∃ sF, scanBlock C ST M X MBB = .ok sF
      ∧ runOnMachineBasicBlock C ST M X MBB
          = .ok (⟨.STACK_SIZE, [(sF.MaxStack : Int)]⟩ :: sF.MBB, sF.MaxStack, sF.CurrentStack)
      ∧ sF.LoopStack = [] ∧ sF.IfThenElseStack = []
      ∧ (∀ pre m rest, MBB = pre ++ m :: rest →
          (m.opcode = .IF_PREDICATE_SET ∨ m.opcode = .ELSE) →
          ∃ mid c post s1 s2, rest = mid ++ c :: post ∧ ifBalanced mid
            ∧ (c.opcode = .ENDIF ∨ (m.opcode = .IF_PREDICATE_SET ∧ c.opcode = .ELSE))
            ∧ scanBlock C ST M X pre = .ok s1
            ∧ scanBlock C ST M X (pre ++ m :: mid) = .ok s2
            ∧ s2.MBB[s1.MBB.length]? = some (ifNative m 0)
            ∧ sF.MBB[s1.MBB.length]? = some (ifNative m (s2.CfCount : Int))
            ∧ ∃ s3, lowerInstr s2 c = .ok s3 ∧ scanAll C s3 post = .ok sF
                ∧ s1.MBB.length ∉ owned s3
                ∧ s3.MBB[s1.MBB.length]? = some (ifNative m (s2.CfCount : Int)))
      ∧ (∀ pre m rest, MBB = pre ++ m :: rest →
          (m.opcode = .CONTINUE ∨ m.opcode = .PREDICATED_BREAK) →
          ∃ mid c post s1 s2, rest = mid ++ c :: post ∧ loopBalanced mid
            ∧ c.opcode = .ENDLOOP
            ∧ scanBlock C ST M X pre = .ok s1
            ∧ scanBlock C ST M X (pre ++ m :: mid) = .ok s2
            ∧ s2.MBB[exitIndex s1 m]? = some ⟨exitOpcode m, [0]⟩
            ∧ sF.MBB[exitIndex s1 m]? = some ⟨exitOpcode m, [(s2.CfCount : Int)]⟩
            ∧ ∃ s3, lowerInstr s2 c = .ok s3 ∧ scanAll C s3 post = .ok sF
                ∧ exitIndex s1 m ∉ owned s3
                ∧ s3.MBB[exitIndex s1 m]? = some ⟨exitOpcode m, [(s2.CfCount : Int)]⟩) := by
  have hd := ghostRun_nest_depth MBB [] [] hwf
  rw [← ghostRun_depthStep_blockEntry ST M X MBB] at hd
  obtain ⟨sF, hrun, hsz⟩ := scanAll_depth_ok C hC (blockEntry ST M X MBB).2
    (blockEntry ST M X MBB).1 _ hd
  have hrunB : scanBlock C ST M X MBB = .ok sF := hrun
  have hL : sF.LoopStack = [] := by
    have := congrArg Prod.fst hsz
    simpa [stackSizes] using this
  have hT : sF.IfThenElseStack = [] := by
    have := congrArg Prod.snd hsz
    simpa [stackSizes] using this
  refine ⟨sF, hrunB, runOnMachineBasicBlock_of_scanBlock C ST M X MBB sF hrunB, hL, hT, ?_, ?_⟩
  · intro pre m rest hMBB hm
    subst hMBB
    obtain ⟨g1, -, hrest⟩ := ghostRun_append_some nestStep pre (m :: rest) [] [] hwf
    obtain ⟨g2, hstep, hrun2⟩ := ghostRun_cons_inv nestStep g1 [] m rest hrest
    have hclose : ∃ mid c post, rest = mid ++ c :: post ∧ ifBalanced mid
        ∧ (c.opcode = .ENDIF ∨ (m.opcode = .IF_PREDICATE_SET ∧ c.opcode = .ELSE)) := by
      rcases hm with hm | hm
      · have hg2 : g2 = .ifThen :: g1 := by
          simp only [nestStep, hm] at hstep
          injection hstep with hstep
          exact hstep.symm
        rw [hg2] at hrun2
        obtain ⟨mid, c, post, hl, hbal, hc⟩ :=
          nest_if_closer rest [] .ifThen g1 [] (by decide) hrun2 (Nat.zero_le _)
        refine ⟨mid, c, post, hl, hbal, ?_⟩
        rcases hc with hc | ⟨-, hc⟩
        · exact Or.inl hc
        · exact Or.inr ⟨hm, hc⟩
      · rcases nestStep_cases _ _ m hstep with
          ⟨hop, -⟩ | ⟨hop, -⟩ | ⟨hop, -⟩ | ⟨hop, -⟩ | ⟨-, t, hst, hX⟩ | ⟨hop, -⟩ |
          ⟨hop, -⟩
        · simp [isStackMarker, hm] at hop
        · rw [hm] at hop; cases hop
        · rw [hm] at hop; cases hop
        · rw [hm] at hop; cases hop
        · rw [hX] at hrun2
          obtain ⟨mid, c, post, hl, hbal, hc⟩ :=
            nest_if_closer rest [] .ifElse t [] (by decide) hrun2 (Nat.zero_le _)
          refine ⟨mid, c, post, hl, hbal, ?_⟩
          rcases hc with hc | ⟨h1, -⟩
          · exact Or.inl hc
          · cases h1
        · rw [hm] at hop; cases hop
        · rcases hop with hop | hop <;> (rw [hm] at hop; cases hop)
    obtain ⟨mid, c, post, hl, hbal, hc⟩ := hclose
    subst hl
    have hc' : c.opcode = .ELSE ∨ c.opcode = .ENDIF := by
      rcases hc with hc | ⟨-, hc⟩
      · exact Or.inr hc
      · exact Or.inl hc
    rw [scanBlock_append] at hrunB
    obtain ⟨s1, s2, h1, h2, -, -, hv, -, hF, hS⟩ :=
      scanAll_if_close C hC _ sF _ mid post m c hm hc' (blockEntry_Inv ST M X pre) hbal hrunB
    refine ⟨mid, c, post, s1, s2, rfl, hbal, hc, h1, ?_, hv, hF, hS⟩
    rw [scanBlock_append]; exact h2
  · intro pre m rest hMBB hm
    subst hMBB
    obtain ⟨g1, -, hrest⟩ := ghostRun_append_some nestStep pre (m :: rest) [] [] hwf
    obtain ⟨g2, hstep, hrun2⟩ := ghostRun_cons_inv nestStep g1 [] m rest hrest
    have hin : Nest.loop ∈ g1 ∧ g2 = g1 := by
      rcases nestStep_cases _ _ m hstep with
        ⟨hop, -⟩ | ⟨hop, -⟩ | ⟨hop, -⟩ | ⟨hop, -⟩ | ⟨hop, -⟩ | ⟨hop, -⟩ | ⟨-, h1, h2⟩
      · rcases hm with hm | hm <;> simp [isStackMarker, hm] at hop
      · rcases hm with hm | hm <;> (rw [hm] at hop; cases hop)
      · rcases hm with hm | hm <;> (rw [hm] at hop; cases hop)
      · rcases hm with hm | hm <;> (rw [hm] at hop; cases hop)
      · rcases hm with hm | hm <;> (rw [hm] at hop; cases hop)
      · rcases hm with hm | hm <;> (rw [hm] at hop; cases hop)
      · exact ⟨h1, h2⟩
    obtain ⟨hmem, hg2⟩ := hin
    obtain ⟨T, st, hsplit, hnot⟩ := List.eq_append_cons_of_mem hmem
    rw [hg2, hsplit] at hrun2
    obtain ⟨mid, c, post, hl, hbal, hc⟩ := nest_loop_closer rest T st [] hrun2 (Nat.zero_le _)
    rw [List.count_eq_zero.mpr hnot] at hbal
    subst hl
    rw [scanBlock_append] at hrunB
    obtain ⟨s1, s2, h1, h2, -, hv, -, hF, hS⟩ :=
      scanAll_exit_close C hC _ sF _ mid post m c hm hc (blockEntry_Inv ST M X pre) hbal hrunB
    refine ⟨mid, c, post, s1, s2, rfl, hbal, hc, h1, ?_, hv, hF, hS⟩
    rw [scanBlock_append]; exact h2

/-- C13, witness: `[WHILELOOP, IF_PREDICATE_SET, PREDICATED_BREAK, ELSE, CONTINUE, ENDIF,
ENDLOOP]`. -/
theorem C13_no_outstanding_placeholders_witness :
    wellFormed [⟨.WHILELOOP, []⟩, ⟨.IF_PREDICATE_SET, []⟩, ⟨.PREDICATED_BREAK, []⟩,
        ⟨.ELSE, []⟩, ⟨.CONTINUE, []⟩, ⟨.ENDIF, []⟩, ⟨.ENDLOOP, []⟩]
      ∧ scanBlock 16 0 0 0 [⟨.WHILELOOP, []⟩, ⟨.IF_PREDICATE_SET, []⟩,
          ⟨.PREDICATED_BREAK, []⟩, ⟨.ELSE, []⟩, ⟨.CONTINUE, []⟩, ⟨.ENDIF, []⟩, ⟨.ENDLOOP, []⟩]
        = .ok ⟨[⟨.WHILE_LOOP, [10]⟩, ⟨.CF_JUMP, [5, 0]⟩, ⟨.CF_JUMP, [5, 1]⟩,
                ⟨.LOOP_BREAK, [8]⟩, ⟨.POP, [5, 1]⟩, ⟨.CF_ELSE, [7, 1]⟩, ⟨.CF_CONTINUE, [8]⟩,
                ⟨.POP, [8, 1]⟩, ⟨.END_LOOP, [1]⟩], 9, [], [], 1, 4294967294⟩
      ∧ ∃ sF, scanBlock 16 0 0 0 [⟨.WHILELOOP, []⟩, ⟨.IF_PREDICATE_SET, []⟩,
          ⟨.PREDICATED_BREAK, []⟩, ⟨.ELSE, []⟩, ⟨.CONTINUE, []⟩, ⟨.ENDIF, []⟩, ⟨.ENDLOOP, []⟩]
          = .ok sF ∧ sF.LoopStack = [] ∧ sF.IfThenElseStack = [] :=
  ⟨by decide, rfl,
   (C13_no_outstanding_placeholders 16 0 0 0 [⟨.WHILELOOP, []⟩, ⟨.IF_PREDICATE_SET, []⟩,
      ⟨.PREDICATED_BREAK, []⟩, ⟨.ELSE, []⟩, ⟨.CONTINUE, []⟩, ⟨.ENDIF, []⟩, ⟨.ENDLOOP, []⟩]
      (by decide) (by decide)).imp (fun _ h => ⟨h.1, h.2.2.1, h.2.2.2.1⟩)⟩

/-- C14: when the pass completes on a block, no instruction of the output block is a
structural marker (`WHILELOOP`, `ENDLOOP`, `IF_PREDICATE_SET`, `ELSE`, `ENDIF`,
`PREDICATED_BREAK`, `CONTINUE`), and the instructions of the input that are not structural
markers occur in the output with their opcodes and operands, in the same order (as a
sublist). -/
theorem C14_markers_removed_payload_kept (C ST M X : Nat) (MBB out : List MachineInstr)
    (M1 X1 : Nat) (hrun : runOnMachineBasicBlock C ST M X MBB = .ok (out, M1, X1)) :
    (∀ x ∈ out, isStackMarker x = false) ∧ List.Sublist (payload MBB) out := by
  unfold runOnMachineBasicBlock at hrun
  cases hs : scanBlock C ST M X MBB with
  | error e => rw [hs] at hrun; cases hrun
  | ok sF =>
    rw [hs] at hrun
    injection hrun with hrun
    injection hrun with hout _
    subst hout
    have hscan : scanAll C (blockEntry ST M X MBB).1 (blockEntry ST M X MBB).2 = .ok sF := hs
    constructor
    · intro x hx
      rcases List.mem_cons.mp hx with hx | hx
      · rw [hx]; rfl
      · exact scanAll_noMarker C _ sF _ (fun y hy => by cases hy) hscan x hx
    · have hsub := scanAll_payload C _ sF _ (blockEntry_Inv ST M X MBB) rfl hscan
      have hin : List.Sublist (payload MBB) (payload (blockEntry ST M X MBB).2) := by
        unfold blockEntry
        split_ifs
        · exact List.sublist_cons_self _ _
        · exact List.Sublist.refl _
      exact (hin.trans hsub).trans (List.sublist_cons_self _ _)

/-- C14, witness: `[WHILELOOP, TEX_SAMPLE, KILL, IF_PREDICATE_SET, CF_ALU, PREDICATED_BREAK,
ENDIF, other 7, ENDLOOP]` with operands on the instructions that are kept. -/
theorem C14_markers_removed_payload_kept_witness :
    runOnMachineBasicBlock 16 0 0 0 [⟨.WHILELOOP, []⟩, ⟨.TEX_SAMPLE, [3]⟩, ⟨.KILL, []⟩,
        ⟨.IF_PREDICATE_SET, []⟩, ⟨.CF_ALU, [5, 6]⟩, ⟨.PREDICATED_BREAK, []⟩, ⟨.ENDIF, []⟩,
        ⟨.other 7, [9]⟩, ⟨.ENDLOOP, []⟩]
      = .ok ([⟨.STACK_SIZE, [1]⟩, ⟨.WHILE_LOOP, [10]⟩, ⟨.CF_TC, [0, 1]⟩, ⟨.TEX_SAMPLE, [3]⟩,
              ⟨.KILL, []⟩, ⟨.CF_JUMP, [7, 0]⟩, ⟨.CF_ALU, [5, 6]⟩, ⟨.CF_JUMP, [7, 1]⟩,
              ⟨.LOOP_BREAK, [8]⟩, ⟨.POP, [7, 1]⟩, ⟨.POP, [8, 1]⟩, ⟨.other 7, [9]⟩,
              ⟨.END_LOOP, [1]⟩], 1, 4294967294)
    ∧ List.Sublist
        (payload [⟨.WHILELOOP, []⟩, ⟨.TEX_SAMPLE, [3]⟩, ⟨.KILL, []⟩,
          ⟨.IF_PREDICATE_SET, []⟩, ⟨.CF_ALU, [5, 6]⟩, ⟨.PREDICATED_BREAK, []⟩, ⟨.ENDIF, []⟩,
          ⟨.other 7, [9]⟩, ⟨.ENDLOOP, []⟩])
        [⟨.STACK_SIZE, [1]⟩, ⟨.WHILE_LOOP, [10]⟩, ⟨.CF_TC, [0, 1]⟩, ⟨.TEX_SAMPLE, [3]⟩,
          ⟨.KILL, []⟩, ⟨.CF_JUMP, [7, 0]⟩, ⟨.CF_ALU, [5, 6]⟩, ⟨.CF_JUMP, [7, 1]⟩,
          ⟨.LOOP_BREAK, [8]⟩, ⟨.POP, [7, 1]⟩, ⟨.POP, [8, 1]⟩, ⟨.other 7, [9]⟩,
          ⟨.END_LOOP, [1]⟩] :=
  ⟨rfl,
   (C14_markers_removed_payload_kept 16 0 0 0 [⟨.WHILELOOP, []⟩, ⟨.TEX_SAMPLE, [3]⟩,
      ⟨.KILL, []⟩, ⟨.IF_PREDICATE_SET, []⟩, ⟨.CF_ALU, [5, 6]⟩, ⟨.PREDICATED_BREAK, []⟩,
      ⟨.ENDIF, []⟩, ⟨.other 7, [9]⟩, ⟨.ENDLOOP, []⟩] _ 1 4294967294 rfl).2⟩

/-- C15: when the pass completes on a block, the output is a `STACK_SIZE` whose only
operand is `MaxStack` at the end of the scan, followed by the scanned block; the pass adds
no other `STACK_SIZE` (the output has one more than the input).  With `ShaderType = 1` the
output has one `CF_CALL_FS` more than the input, it stands right behind the `STACK_SIZE`,
and the instructions of the input are scanned behind it starting with `CfCount = 1`; with
another `ShaderType` no `CF_CALL_FS` is added and the scan starts with `CfCount = 0`.  The
pass completes on the empty block, whose output is the `STACK_SIZE` with the incoming
`MaxStack`, followed by the `CF_CALL_FS` when `ShaderType = 1`. -/
theorem C15_stack_reservation (C ST M X : Nat) (MBB out : List MachineInstr) (M1 X1 : Nat)
    (hC : 0 < C) (hrun : runOnMachineBasicBlock C ST M X MBB = .ok (out, M1, X1)) :
    (∃ sF, scanBlock C ST M X MBB = .ok sF
      ∧ M1 = sF.MaxStack
      ∧ out = ⟨.STACK_SIZE, [(sF.MaxStack : Int)]⟩ :: sF.MBB
      ∧ countOp .STACK_SIZE out = 1 + countOp .STACK_SIZE MBB
      ∧ countOp .CF_CALL_FS out = (if ST = 1 then 1 else 0) + countOp .CF_CALL_FS MBB
      ∧ (ST = 1 → out[1]? = some ⟨.CF_CALL_FS, []⟩
            ∧ scanAll C ⟨[⟨.CF_CALL_FS, []⟩], 1, [], [], M, X⟩ MBB = .ok sF)
      ∧ (ST ≠ 1 → scanAll C ⟨[], 0, [], [], M, X⟩ MBB = .ok sF))
    ∧ runOnMachineBasicBlock C ST M X []
        = .ok (⟨.STACK_SIZE, [(M : Int)]⟩ :: (if ST = 1 then [⟨.CF_CALL_FS, []⟩] else []),
               M, X) := by
  constructor
  · unfold runOnMachineBasicBlock at hrun
    cases hs : scanBlock C ST M X MBB with
    | error e => rw [hs] at hrun; cases hrun
    | ok sF =>
      rw [hs] at hrun
      injection hrun with hrun
      injection hrun with hout hrest
      injection hrest with hM1 _
      have hscan : scanAll C (blockEntry ST M X MBB).1 (blockEntry ST M X MBB).2 = .ok sF := hs
      have c1 := scanAll_countOp C .STACK_SIZE (Or.inl rfl) _ sF _ hscan
      have c2 := scanAll_countOp C .CF_CALL_FS (Or.inr rfl) _ sF _ hscan
      refine ⟨sF, rfl, hM1.symm, hout.symm, ?_, ?_, ?_, ?_⟩
      · rw [← hout, countOp_cons, c1]
        unfold blockEntry
        split_ifs <;> simp [countOp]
      · rw [← hout, countOp_cons, c2]
        unfold blockEntry
        split_ifs
        · simp [countOp]; omega
        · simp [countOp]
      · intro hST
        subst hST
        have hcons : scanAll C ⟨[⟨.CF_CALL_FS, []⟩], 1, [], [], M, X⟩ MBB = .ok sF := by
          have := hscan
          simp only [blockEntry, if_true] at this
          rw [scanAll_cons_other C hC _ ⟨.CF_CALL_FS, []⟩ MBB rfl] at this
          exact this
        refine ⟨?_, hcons⟩
        have hR : Inv (⟨[⟨.CF_CALL_FS, []⟩], 1, [], [], M, X⟩ : State)
            ∧ 0 ∉ owned (⟨[⟨.CF_CALL_FS, []⟩], 1, [], [], M, X⟩ : State)
            ∧ (⟨[⟨.CF_CALL_FS, []⟩], 1, [], [], M, X⟩ : State).MBB[0]?
                = some ⟨.CF_CALL_FS, []⟩ :=
          ⟨⟨List.nodup_nil, fun k hk => by cases hk⟩, (fun hk => by cases hk), rfl⟩
        have := (scanAll_unowned C hC 0 _ MBB _ sF hR hcons).2.2
        rw [← hout]
        simpa using this
      · intro hST
        have := hscan
        simp only [blockEntry, if_neg hST] at this
        exact this
  · unfold runOnMachineBasicBlock scanBlock blockEntry
    split_ifs <;> rfl

/-- C15, witness: `[CF_ALU_PUSH_BEFORE, CF_ALU]` with the stage-entry instruction. -/
theorem C15_stack_reservation_witness :
    runOnMachineBasicBlock 16 1 0 0 [⟨.CF_ALU_PUSH_BEFORE, []⟩, ⟨.CF_ALU, []⟩]
        = .ok ([⟨.STACK_SIZE, [1]⟩, ⟨.CF_CALL_FS, []⟩, ⟨.CF_ALU_PUSH_BEFORE, []⟩,
                ⟨.CF_ALU, []⟩], 1, 1)
      ∧ ∃ sF, scanBlock 16 1 0 0 [⟨.CF_ALU_PUSH_BEFORE, []⟩, ⟨.CF_ALU, []⟩] = .ok sF
        ∧ 1 = sF.MaxStack
        ∧ [(⟨.STACK_SIZE, [1]⟩ : MachineInstr), ⟨.CF_CALL_FS, []⟩, ⟨.CF_ALU_PUSH_BEFORE, []⟩,
            ⟨.CF_ALU, []⟩] = ⟨.STACK_SIZE, [(sF.MaxStack : Int)]⟩ :: sF.MBB :=
  ⟨rfl,
   (C15_stack_reservation 16 1 0 0 [⟨.CF_ALU_PUSH_BEFORE, []⟩, ⟨.CF_ALU, []⟩] _ 1 1
      (by decide) rfl).1.imp (fun _ h => ⟨h.1, h.2.1, h.2.2.1⟩)⟩

end R600

namespace Internalize

theorem internalizeLoop_eq {L : Type} [DecidableEq L] (InternalLinkage : L)
    (Names : List String) (l : List (GlobalValue L)) (Changed : Bool) :
    internalizeLoop InternalLinkage Names l Changed
      = (l.map (fun I => if toInternalize InternalLinkage Names I
                         then setLinkage I InternalLinkage else I),
         Changed || l.any (toInternalize InternalLinkage Names)) := by
  induction l generalizing Changed with
  | nil => simp [internalizeLoop]
  | cons I rest ih =>
    unfold internalizeLoop
    by_cases h : toInternalize InternalLinkage Names I = true
    · simp [h, ih]
    · simp only [Bool.not_eq_true] at h
      simp [h, ih]

theorem mem_anchor_insert (Names : List String) (n : String) :
    n ∈ anchorNames.foldl (fun S n => List.insert n S) Names ↔ n ∈ Names ∨ n ∈ anchorNames := by
  simp only [anchorNames, List.foldl_cons, List.foldl_nil, List.mem_insert_iff, List.mem_cons,
    List.mem_singleton, List.not_mem_nil, or_false]
  tauto

theorem getFunction_name {L : Type} (M : Module L) (n : String) (F : GlobalValue L)
    (h : getFunction M n = some F) : F.Name = n := by
  unfold getFunction at h
  have := List.find?_some h
  simpa using this

theorem map_specLinkage_eq_self {L : Type} [DecidableEq L] (InternalLinkage : L)
    (P : InternalizePass) (anchors : Bool) (l : List (GlobalValue L)) :
    l.map (specLinkage InternalLinkage P anchors) = l
      ↔ ∀ I ∈ l, specInternalized InternalLinkage P anchors I = false := by
  induction l with
  | nil => simp
  | cons I rest ih =>
    simp only [List.map_cons, List.cons.injEq, ih, List.mem_cons, forall_eq_or_imp]
    refine and_congr_left (fun _ => ?_)
    unfold specLinkage
    cases hI : specInternalized InternalLinkage P anchors I with
    | false => simp
    | true =>
      simp only [if_true, Bool.true_eq_false, iff_false]
      intro h
      have h1 : InternalLinkage = I.Linkage := congrArg GlobalValue.Linkage h
      simp [specInternalized, h1] at hI

theorem internalizeModule_eq {L : Type} [DecidableEq L] (InternalLinkage : L)
    (P : InternalizePass) (Names : List String) (M : Module L)
    (hN : ∀ n, n ∈ Names ↔ specPreserved P false n = true) :
    internalizeModule InternalLinkage Names M
      = (⟨M.functions.map (specLinkage InternalLinkage P false),
          M.globals.map (specLinkage InternalLinkage P true),
          M.aliases.map (specLinkage InternalLinkage P true)⟩,
         (M.functions.any (specInternalized InternalLinkage P false)
           || M.globals.any (specInternalized InternalLinkage P true))
           || M.aliases.any (specInternalized InternalLinkage P true)) := by
  have hf : ∀ I : GlobalValue L, toInternalize InternalLinkage Names I
      = specInternalized InternalLinkage P false I := by
    intro I
    have := hN I.Name
    unfold toInternalize specInternalized hasInternalLinkage
    by_cases hm : I.Name ∈ Names
    · rw [this.mp hm]; simp [hm]
    · have : specPreserved P false I.Name = false := by
        cases hp : specPreserved P false I.Name with
        | false => rfl
        | true => exact absurd (this.mpr hp) hm
      rw [this]; simp [hm]
  have hg : ∀ I : GlobalValue L,
      toInternalize InternalLinkage
          (anchorNames.foldl (fun S n => List.insert n S) Names) I
        = specInternalized InternalLinkage P true I := by
    intro I
    have h1 := hN I.Name
    have h2 := mem_anchor_insert Names I.Name
    have hp : specPreserved P true I.Name
        = (specPreserved P false I.Name || decide (I.Name ∈ anchorNames)) := by
      simp [specPreserved]
    unfold toInternalize specInternalized hasInternalLinkage
    rw [hp]
    by_cases hm : I.Name ∈ anchorNames.foldl (fun S n => List.insert n S) Names
    · have : (specPreserved P false I.Name || decide (I.Name ∈ anchorNames)) = true := by
        rcases h2.mp hm with h | h
        · simp [h1.mp h]
        · simp [h]
      rw [this]; simp [hm]
    · have : (specPreserved P false I.Name || decide (I.Name ∈ anchorNames)) = false := by
        have ha : I.Name ∉ anchorNames := fun h => hm (h2.mpr (Or.inr h))
        have hb : specPreserved P false I.Name = false := by
          cases hp : specPreserved P false I.Name with
          | false => rfl
          | true => exact absurd (h2.mpr (Or.inl (h1.mpr hp))) hm
        simp [ha, hb]
      rw [this]; simp [hm]
  have hfa : toInternalize InternalLinkage Names = specInternalized InternalLinkage P false :=
    funext hf
  have hga : toInternalize InternalLinkage
      (anchorNames.foldl (fun S n => List.insert n S) Names)
        = specInternalized InternalLinkage P true := funext hg
  simp only [internalizeModule, internalizeLoop_eq, hfa, hga, Bool.false_or]
  rfl

theorem runOnModule_nothing {L : Type} [DecidableEq L] (InternalLinkage : L)
    (P : InternalizePass) (M : Module L) (h : specNothingToDo P M = true) :
    runOnModule InternalLinkage P M = (M, false) := by
  unfold specNothingToDo specMainDefined at h
  unfold runOnModule
  simp only [Bool.and_eq_true, Bool.or_eq_true, Bool.not_eq_true'] at h
  obtain ⟨h1, h2⟩ := h
  rw [if_pos h1]
  rcases h2 with h2 | h2
  · simp [h2]
  · cases hA : P.AllButMain with
    | false => simp
    | true =>
      cases hm : getFunction M "main" with
      | none => simp
      | some F =>
        rw [hm] at h2
        simp only [Bool.not_eq_false'] at h2
        simp [h2]

theorem runOnModule_something {L : Type} [DecidableEq L] (InternalLinkage : L)
    (P : InternalizePass) (M : Module L) (h : specNothingToDo P M = false) :
    ∃ Names, (∀ n, n ∈ Names ↔ specPreserved P false n = true)
      ∧ runOnModule InternalLinkage P M = internalizeModule InternalLinkage Names M := by
  unfold specNothingToDo specMainDefined at h
  unfold runOnModule
  cases hE : P.ExternalNames.isEmpty with
  | false =>
    refine ⟨P.ExternalNames, ?_, by simp⟩
    intro n
    simp [specPreserved, hE]
  | true =>
    rw [hE] at h
    simp only [Bool.true_and, Bool.or_eq_false_iff, Bool.not_eq_false'] at h
    obtain ⟨hA, hm⟩ := h
    cases hF : getFunction M "main" with
    | none => rw [hF] at hm; cases hm
    | some F =>
      rw [hF] at hm
      simp only [Bool.not_eq_true'] at hm
      have hname := getFunction_name M "main" F hF
      have hnil : P.ExternalNames = [] := List.isEmpty_iff.mp hE
      refine ⟨List.insert F.Name P.ExternalNames, ?_, by simp [hA, hm]⟩
      intro n
      simp [specPreserved, hnil, hname]

/-- C16: `InternalizePass::runOnModule`.  With no names given and all-but-main mode off or no
defined `main`, the module is returned as it is and the result is `false`.  Otherwise
every symbol that is defined, not already internal and not preserved gets internal linkage
(preserved: a name given, or `main` when none was given; for global variables and aliases
also the anchor names), every other symbol is left as it is, and the result is `true`
exactly when some symbol is defined, not internal and not preserved.  In both cases the
result is `true` exactly when the module has changed. -/
theorem C16_linkage_contract {L : Type} [DecidableEq L] (InternalLinkage : L)
    (P : InternalizePass) (M : Module L) :
    (specNothingToDo P M = true → runOnModule InternalLinkage P M = (M, false))
    ∧ (specNothingToDo P M = false →
        (runOnModule InternalLinkage P M).1
            = ⟨M.functions.map (specLinkage InternalLinkage P false),
               M.globals.map (specLinkage InternalLinkage P true),
               M.aliases.map (specLinkage InternalLinkage P true)⟩
          ∧ ((runOnModule InternalLinkage P M).2 = true ↔
              (∃ I ∈ M.functions, specInternalized InternalLinkage P false I = true)
              ∨ (∃ I ∈ M.globals, specInternalized InternalLinkage P true I = true)
              ∨ (∃ I ∈ M.aliases, specInternalized InternalLinkage P true I = true)))
    ∧ ((runOnModule InternalLinkage P M).2 = true ↔ (runOnModule InternalLinkage P M).1 ≠ M) := by
  have hsome : specNothingToDo P M = false →
      (runOnModule InternalLinkage P M).1
            = ⟨M.functions.map (specLinkage InternalLinkage P false),
               M.globals.map (specLinkage InternalLinkage P true),
               M.aliases.map (specLinkage InternalLinkage P true)⟩
          ∧ ((runOnModule InternalLinkage P M).2 = true ↔
              (∃ I ∈ M.functions, specInternalized InternalLinkage P false I = true)
              ∨ (∃ I ∈ M.globals, specInternalized InternalLinkage P true I = true)
              ∨ (∃ I ∈ M.aliases, specInternalized InternalLinkage P true I = true)) := by
    intro h
    obtain ⟨Names, hN, hrun⟩ := runOnModule_something InternalLinkage P M h
    rw [hrun, internalizeModule_eq InternalLinkage P Names M hN]
    refine ⟨rfl, ?_⟩
    simp only [Bool.or_eq_true, List.any_eq_true, or_assoc]
  refine ⟨runOnModule_nothing InternalLinkage P M, hsome, ?_⟩
  cases h : specNothingToDo P M with
  | true =>
    rw [runOnModule_nothing InternalLinkage P M h]
    simp
  | false =>
    obtain ⟨h1, h2⟩ := hsome h
    rw [h2, h1]
    have hf := map_specLinkage_eq_self InternalLinkage P false M.functions
    have hg := map_specLinkage_eq_self InternalLinkage P true M.globals
    have ha := map_specLinkage_eq_self InternalLinkage P true M.aliases
    constructor
    · intro hex hM
      have hM1 := congrArg Module.functions hM
      have hM2 := congrArg Module.globals hM
      have hM3 := congrArg Module.aliases hM
      simp only at hM1 hM2 hM3
      rcases hex with ⟨I, hI, hI1⟩ | ⟨I, hI, hI1⟩ | ⟨I, hI, hI1⟩
      · rw [hf.mp hM1 I hI] at hI1; cases hI1
      · rw [hg.mp hM2 I hI] at hI1; cases hI1
      · rw [ha.mp hM3 I hI] at hI1; cases hI1
    · intro hne
      by_contra hno
      simp only [not_or, not_exists, not_and, Bool.not_eq_true] at hno
      apply hne
      obtain ⟨n1, n2, n3⟩ := hno
      have e1 := hf.mpr n1
      have e2 := hg.mpr n2
      have e3 := ha.mpr n3
      rw [e1, e2, e3]

/-- C16, witness: a module with a defined `main`, a defined external function, a declaration,
an internal function, a defined global and the anchor `llvm.used`; linkages are numbers,
0 being internal linkage. -/
theorem C16_linkage_contract_witness :
    specNothingToDo ⟨[], true⟩
        (⟨[⟨"main", false, 1⟩, ⟨"f", false, 1⟩, ⟨"g", true, 1⟩, ⟨"h", false, 0⟩],
          [⟨"v", false, 2⟩, ⟨"llvm.used", false, 3⟩], [⟨"a", false, 1⟩]⟩ : Module Nat) = false
      ∧ (runOnModule 0 ⟨[], true⟩
          (⟨[⟨"main", false, 1⟩, ⟨"f", false, 1⟩, ⟨"g", true, 1⟩, ⟨"h", false, 0⟩],
            [⟨"v", false, 2⟩, ⟨"llvm.used", false, 3⟩], [⟨"a", false, 1⟩]⟩ : Module Nat)).1
        = ⟨[⟨"main", false, 1⟩, ⟨"f", false, 0⟩, ⟨"g", true, 1⟩, ⟨"h", false, 0⟩],
            [⟨"v", false, 0⟩, ⟨"llvm.used", false, 3⟩], [⟨"a", false, 0⟩]⟩ :=
  ⟨by decide,
   ((C16_linkage_contract (0 : Nat) ⟨[], true⟩
      ⟨[⟨"main", false, 1⟩, ⟨"f", false, 1⟩, ⟨"g", true, 1⟩, ⟨"h", false, 0⟩],
        [⟨"v", false, 2⟩, ⟨"llvm.used", false, 3⟩], [⟨"a", false, 1⟩]⟩).2.1
      (by decide)).1.trans (by decide)⟩

end Internalize

namespace R600

/-- C17: in a block `pre ++ IF_PREDICATE_SET :: b1 ++ ELSE :: b2 ++ ENDIF :: post` with `b1`
and `b2` balanced in ifs, the `ELSE` is reached with the `CF_JUMP` of the if on top of the
if/else stack, still with operands `0, 0`; processing the `ELSE` adds `CfCount` to the
address operand of that `CF_JUMP`, emits `CF_ELSE` with operands `0, 1` and puts it on the
stack in place of the `CF_JUMP`, so the stack keeps its depth; it leaves `CurrentStack`,
`MaxStack` and the loop stack alone and adds 1 to `CfCount`.  When the scan ends the
`CF_JUMP` carries `CfCount` at the `ELSE` and the `CF_ELSE` carries `CfCount` at the
`ENDIF`. -/
theorem C17_else_lowering (C ST M X : Nat) (pre b1 b2 post : List MachineInstr)
    (mIf mElse mEnd : MachineInstr) (sF : State) (hC : 0 < C)
    (hIf : mIf.opcode = .IF_PREDICATE_SET) (hElse : mElse.opcode = .ELSE)
    (hEnd : mEnd.opcode = .ENDIF) (hb1 : ifBalanced b1) (hb2 : ifBalanced b2)
    (hrun : scanBlock C ST M X (pre ++ mIf :: (b1 ++ mElse :: (b2 ++ mEnd :: post)))
      = .ok sF) :
    ∃ s1 s2 s2e s3,
      scanBlock C ST M X pre = .ok s1
      ∧ scanBlock C ST M X (pre ++ mIf :: b1) = .ok s2
      ∧ lowerInstr s2 mElse = .ok s2e
      ∧ scanBlock C ST M X (pre ++ mIf :: (b1 ++ mElse :: b2)) = .ok s3
      ∧ scanAll C s3 (mEnd :: post) = .ok sF
      ∧ s2.IfThenElseStack.head? = some s1.MBB.length
      ∧ s2.MBB[s1.MBB.length]? = some ⟨.CF_JUMP, [0, 0]⟩
      ∧ s2e.MBB = CounterPropagateAddrAt s2.MBB s1.MBB.length s2.CfCount
                    ++ [⟨.CF_ELSE, [0, 1]⟩]
      ∧ s2e.MBB[s1.MBB.length]? = some ⟨.CF_JUMP, [(s2.CfCount : Int), 0]⟩
      ∧ s2e.IfThenElseStack = s2.MBB.length :: s2.IfThenElseStack.tail
      ∧ s2e.IfThenElseStack.length = s2.IfThenElseStack.length
      ∧ s2e.CurrentStack = s2.CurrentStack
      ∧ s2e.MaxStack = s2.MaxStack
      ∧ s2e.LoopStack = s2.LoopStack
      ∧ s2e.CfCount = s2.CfCount + 1
      ∧ sF.MBB[s1.MBB.length]? = some ⟨.CF_JUMP, [(s2.CfCount : Int), 0]⟩
      ∧ sF.MBB[s2.MBB.length]? = some ⟨.CF_ELSE, [(s3.CfCount : Int), 1]⟩ := by
  have fElse := isFetch_of_opcode mElse _ hElse rfl
  rw [scanBlock_append] at hrun
  obtain ⟨s1, s2, h1, h2, h3, inv2, hv2, hhead, hF, -⟩ :=
    scanAll_if_close C hC _ sF _ b1 (b2 ++ mEnd :: post) mIf mElse (Or.inl hIf) (Or.inl hElse)
      (blockEntry_Inv ST M X pre) hb1 hrun
  have hre : (blockEntry ST M X pre).2 ++ mIf :: (b1 ++ mElse :: (b2 ++ mEnd :: post))
      = ((blockEntry ST M X pre).2 ++ mIf :: b1) ++ mElse :: (b2 ++ mEnd :: post) := by
    simp
  rw [hre] at hrun
  obtain ⟨s2', s3, g1, g2, g3, -, -, -, gF, -⟩ :=
    scanAll_if_close C hC _ sF _ b2 post mElse mEnd (Or.inr hElse) (Or.inr hEnd)
      (blockEntry_Inv ST M X pre) hb2 hrun
  rw [h2] at g1
  injection g1 with g1
  subst g1
  obtain ⟨s2e, hl, -⟩ := scanAll_cons_marker C hC s2 sF mElse _ fElse h3
  have hIfN : ∀ a : Int, ifNative mIf a = ⟨.CF_JUMP, [a, 0]⟩ := by
    intro a; simp [ifNative, hIf]
  have hElN : ∀ a : Int, ifNative mElse a = ⟨.CF_ELSE, [a, 1]⟩ := by
    intro a; simp [ifNative, hElse]
  rw [hIfN] at hv2 hF
  rw [hElN] at gF
  have hs2 : scanBlock C ST M X (pre ++ mIf :: b1) = .ok s2 := by
    rw [scanBlock_append]; exact h2
  have hs3 : scanBlock C ST M X (pre ++ mIf :: (b1 ++ mElse :: b2)) = .ok s3 := by
    rw [scanBlock_append]
    have : (blockEntry ST M X pre).2 ++ mIf :: (b1 ++ mElse :: b2)
        = ((blockEntry ST M X pre).2 ++ mIf :: b1) ++ mElse :: b2 := by simp
    rw [this]; exact g2
  refine ⟨s1, s2, s2e, s3, h1, hs2, hl, hs3, g3, hhead, hv2, ?_⟩
  obtain ⟨B2, c2, L2, T2, m2, x2⟩ := s2
  rcases lowerInstr_cases B2 c2 L2 T2 m2 x2 mElse s2e hl with
    ⟨hop, -⟩ | ⟨hop, -⟩ | ⟨hop, -⟩ | ⟨hop, -⟩ | ⟨-, J, TS, hJ, rfl⟩ | ⟨hop, -⟩ | ⟨hop, -⟩ |
    ⟨hop, -⟩
  · simp [isStackMarker, hElse] at hop
  · rw [hElse] at hop; cases hop
  · rw [hElse] at hop; cases hop
  · rw [hElse] at hop; cases hop
  rotate_left
  · rw [hElse] at hop; cases hop
  · rw [hElse] at hop; cases hop
  · rw [hElse] at hop; cases hop
  subst hJ
  simp only [List.head?_cons, Option.some.injEq] at hhead
  subst hhead
  have hlt : s1.MBB.length < B2.length := lt_of_getElem?_some B2 _ _ hv2
  refine ⟨rfl, ?_, rfl, rfl, rfl, rfl, rfl, rfl, hF, gF⟩
  simp only at hv2 ⊢
  rw [List.getElem?_append_left (by rw [length_CounterPropagateAddrAt]; exact hlt),
    getElem?_CounterPropagateAddrAt_self, hv2]
  simp [CounterPropagateAddr]

/-- C17, witness: `[IF_PREDICATE_SET, CF_ALU, ELSE, CF_ALU, ENDIF]`. -/
theorem C17_else_lowering_witness :
    scanBlock 16 0 0 0 ([] ++ ⟨.IF_PREDICATE_SET, []⟩ :: ([⟨.CF_ALU, []⟩] ++ ⟨.ELSE, []⟩ ::
        ([⟨.CF_ALU, []⟩] ++ ⟨.ENDIF, []⟩ :: [])))
      = .ok ⟨[⟨.CF_JUMP, [2, 0]⟩, ⟨.CF_ALU, []⟩, ⟨.CF_ELSE, [4, 1]⟩, ⟨.CF_ALU, []⟩,
              ⟨.POP, [5, 1]⟩], 5, [], [], 0, 4294967295⟩
    ∧ ∃ s1 s2 s2e s3,
      scanBlock 16 0 0 0 [] = .ok s1
      ∧ scanBlock 16 0 0 0 ([] ++ ⟨.IF_PREDICATE_SET, []⟩ :: [⟨.CF_ALU, []⟩]) = .ok s2
      ∧ lowerInstr s2 ⟨.ELSE, []⟩ = .ok s2e
      ∧ scanBlock 16 0 0 0 ([] ++ ⟨.IF_PREDICATE_SET, []⟩ :: ([⟨.CF_ALU, []⟩] ++ ⟨.ELSE, []⟩ ::
          [⟨.CF_ALU, []⟩])) = .ok s3
      ∧ scanAll 16 s3 (⟨.ENDIF, []⟩ :: [])
          = .ok ⟨[⟨.CF_JUMP, [2, 0]⟩, ⟨.CF_ALU, []⟩, ⟨.CF_ELSE, [4, 1]⟩, ⟨.CF_ALU, []⟩,
              ⟨.POP, [5, 1]⟩], 5, [], [], 0, 4294967295⟩
      ∧ s2.IfThenElseStack.head? = some s1.MBB.length
      ∧ s2.MBB[s1.MBB.length]? = some ⟨.CF_JUMP, [0, 0]⟩
      ∧ s2e.MBB = CounterPropagateAddrAt s2.MBB s1.MBB.length s2.CfCount
                    ++ [⟨.CF_ELSE, [0, 1]⟩]
      ∧ s2e.MBB[s1.MBB.length]? = some ⟨.CF_JUMP, [(s2.CfCount : Int), 0]⟩
      ∧ s2e.IfThenElseStack = s2.MBB.length :: s2.IfThenElseStack.tail
      ∧ s2e.IfThenElseStack.length = s2.IfThenElseStack.length
      ∧ s2e.CurrentStack = s2.CurrentStack
      ∧ s2e.MaxStack = s2.MaxStack
      ∧ s2e.LoopStack = s2.LoopStack
      ∧ s2e.CfCount = s2.CfCount + 1
      ∧ [(⟨.CF_JUMP, [2, 0]⟩ : MachineInstr), ⟨.CF_ALU, []⟩, ⟨.CF_ELSE, [4, 1]⟩,
          ⟨.CF_ALU, []⟩, ⟨.POP, [5, 1]⟩][s1.MBB.length]?
          = some ⟨.CF_JUMP, [(s2.CfCount : Int), 0]⟩
      ∧ [(⟨.CF_JUMP, [2, 0]⟩ : MachineInstr), ⟨.CF_ALU, []⟩, ⟨.CF_ELSE, [4, 1]⟩,
          ⟨.CF_ALU, []⟩, ⟨.POP, [5, 1]⟩][s2.MBB.length]?
          = some ⟨.CF_ELSE, [(s3.CfCount : Int), 1]⟩ :=
  ⟨rfl,
   C17_else_lowering 16 0 0 0 [] [⟨.CF_ALU, []⟩] [⟨.CF_ALU, []⟩] []
     ⟨.IF_PREDICATE_SET, []⟩ ⟨.ELSE, []⟩ ⟨.ENDIF, []⟩ _ (by decide) rfl rfl rfl
     (by decide) (by decide) rfl⟩

/-- C18: in a block `pre ++ WHILELOOP :: body ++ ENDLOOP :: post` with `body` balanced in
loops (every loop opened in `body` is closed in it, so the `ENDLOOP` meets the entry of this
`WHILELOOP` on top of the loop stack), the `WHILE_LOOP` stands with operand 2 in the patch
set of its own loop until the `ENDLOOP`; when the scan ends it carries `e + 2` and the
`END_LOOP` carries `s + 1`, where `s` and `e` are the values of `CfCount` when the
`WHILELOOP` and the `ENDLOOP` are reached.  The `ENDLOOP` pops only that entry and leaves
alone every instruction in the patch set of an enclosing loop. -/
theorem C18_loop_operands (C ST M X : Nat) (pre body post : List MachineInstr)
    (mW mE : MachineInstr) (sF : State) (hC : 0 < C)
    (hW : mW.opcode = .WHILELOOP) (hE : mE.opcode = .ENDLOOP) (hbal : loopBalanced body)
    (hrun : scanBlock C ST M X (pre ++ mW :: (body ++ mE :: post)) = .ok sF) :
    ∃ sW sE sE1,
      scanBlock C ST M X pre = .ok sW
      ∧ scanBlock C ST M X (pre ++ mW :: body) = .ok sE
      ∧ lowerInstr sE mE = .ok sE1
      ∧ scanAll C sE1 post = .ok sF
      ∧ sE.MBB[sW.MBB.length]? = some ⟨.WHILE_LOOP, [2]⟩
      ∧ (∃ e LS, sE.LoopStack = e :: LS ∧ e.1 = sW.CfCount ∧ sW.MBB.length ∈ e.2)
      ∧ sF.MBB[sW.MBB.length]? = some ⟨.WHILE_LOOP, [((sE.CfCount + 2 : Nat) : Int)]⟩
      ∧ sF.MBB[sE.MBB.length]? = some ⟨.END_LOOP, [((sW.CfCount + 1 : Nat) : Int)]⟩
      ∧ sE1.LoopStack = sE.LoopStack.tail
      ∧ (∀ e ∈ sE1.LoopStack, ∀ k ∈ e.2, sE1.MBB[k]? = sE.MBB[k]?) := by
  have fE := isFetch_of_opcode mE _ hE rfl
  rw [scanBlock_append] at hrun
  obtain ⟨sW, sE, h1, h2, h3, invE, hv, hent, hFW, hFE⟩ :=
    scanAll_loop_close C hC _ sF _ body post mW mE hW hE (blockEntry_Inv ST M X pre) hbal hrun
  obtain ⟨sE1, hl, hpost⟩ := scanAll_cons_marker C hC sE sF mE post fE h3
  obtain ⟨f1, -, f3, -⟩ := lowerInstr_endloop_frame sE sE1 mE hE invE hl
  refine ⟨sW, sE, sE1, h1, ?_, hl, hpost, hv, hent, ?_, hFE, f1, f3⟩
  · rw [scanBlock_append]; exact h2
  · rw [hFW]
    push_cast
    rw [add_comm]

/-- C18, witness: a loop nested in a loop, `[WHILELOOP, WHILELOOP, CF_ALU, ENDLOOP, ENDLOOP]`,
at the outer loop. -/
theorem C18_loop_operands_witness :
    scanBlock 16 0 0 0 ([] ++ ⟨.WHILELOOP, []⟩ ::
        ([⟨.WHILELOOP, []⟩, ⟨.CF_ALU, []⟩, ⟨.ENDLOOP, []⟩] ++ ⟨.ENDLOOP, []⟩ :: []))
      = .ok ⟨[⟨.WHILE_LOOP, [6]⟩, ⟨.WHILE_LOOP, [5]⟩, ⟨.CF_ALU, []⟩, ⟨.END_LOOP, [2]⟩,
              ⟨.END_LOOP, [1]⟩], 5, [], [], 2, 0⟩
    ∧ ∃ sW sE sE1,
      scanBlock 16 0 0 0 [] = .ok sW
      ∧ scanBlock 16 0 0 0 ([] ++ ⟨.WHILELOOP, []⟩ ::
          [⟨.WHILELOOP, []⟩, ⟨.CF_ALU, []⟩, ⟨.ENDLOOP, []⟩]) = .ok sE
      ∧ lowerInstr sE ⟨.ENDLOOP, []⟩ = .ok sE1
      ∧ scanAll 16 sE1 []
          = .ok ⟨[⟨.WHILE_LOOP, [6]⟩, ⟨.WHILE_LOOP, [5]⟩, ⟨.CF_ALU, []⟩, ⟨.END_LOOP, [2]⟩,
              ⟨.END_LOOP, [1]⟩], 5, [], [], 2, 0⟩
      ∧ sE.MBB[sW.MBB.length]? = some ⟨.WHILE_LOOP, [2]⟩
      ∧ (∃ e LS, sE.LoopStack = e :: LS ∧ e.1 = sW.CfCount ∧ sW.MBB.length ∈ e.2)
      ∧ [(⟨.WHILE_LOOP, [6]⟩ : MachineInstr), ⟨.WHILE_LOOP, [5]⟩, ⟨.CF_ALU, []⟩,
          ⟨.END_LOOP, [2]⟩, ⟨.END_LOOP, [1]⟩][sW.MBB.length]?
          = some ⟨.WHILE_LOOP, [((sE.CfCount + 2 : Nat) : Int)]⟩
      ∧ [(⟨.WHILE_LOOP, [6]⟩ : MachineInstr), ⟨.WHILE_LOOP, [5]⟩, ⟨.CF_ALU, []⟩,
          ⟨.END_LOOP, [2]⟩, ⟨.END_LOOP, [1]⟩][sE.MBB.length]?
          = some ⟨.END_LOOP, [((sW.CfCount + 1 : Nat) : Int)]⟩
      ∧ sE1.LoopStack = sE.LoopStack.tail
      ∧ (∀ e ∈ sE1.LoopStack, ∀ k ∈ e.2, sE1.MBB[k]? = sE.MBB[k]?) :=
  ⟨rfl,
   C18_loop_operands 16 0 0 0 [] [⟨.WHILELOOP, []⟩, ⟨.CF_ALU, []⟩, ⟨.ENDLOOP, []⟩] []
     ⟨.WHILELOOP, []⟩ ⟨.ENDLOOP, []⟩ _ (by decide) rfl rfl (by decide) rfl⟩

/-- C19: a `PREDICATED_BREAK` met when the loop stack is not empty and `CfCount = c` is one
iteration of the scan that consumes the marker alone and puts in its place `CF_JUMP` with
operands `c + 3, 1`, `LOOP_BREAK` with operand `0` and `POP` with operands `c + 3, 1`, in
this order; the `LOOP_BREAK` is added to the patch set of the innermost loop, every other
entry of the loop stack and the if/else stack stay as they are, and no other patch set held
that pointer; `CfCount` becomes `c + 3`, `MaxStack` is unchanged, and `CurrentStack` is
decremented by 1 as an `unsigned` (modulo `2 ^ 32`). -/
theorem C19_predicated_break (C : Nat) (s : State) (m : MachineInstr)
    (rest : List MachineInstr) (P : Nat × List Nat) (LS : List (Nat × List Nat))
    (hm : m.opcode = .PREDICATED_BREAK) (hL : s.LoopStack = P :: LS) :
    loopBody C s m rest
        = .ok (⟨s.MBB ++ [⟨.CF_JUMP, [((s.CfCount + 3 : Nat) : Int), 1]⟩, ⟨.LOOP_BREAK, [0]⟩,
                          ⟨.POP, [((s.CfCount + 3 : Nat) : Int), 1]⟩],
                s.CfCount + 3, (P.1, List.insert (s.MBB.length + 1) P.2) :: LS,
                s.IfThenElseStack, s.MaxStack, decr32 s.CurrentStack⟩, rest)
      ∧ (s.MBB ++ [⟨.CF_JUMP, [((s.CfCount + 3 : Nat) : Int), 1]⟩, ⟨.LOOP_BREAK, [0]⟩,
                   ⟨.POP, [((s.CfCount + 3 : Nat) : Int), 1]⟩])[s.MBB.length + 1]?
          = some ⟨.LOOP_BREAK, [0]⟩
      ∧ (decr32 s.CurrentStack + 1) % 2 ^ 32 = s.CurrentStack % 2 ^ 32
      ∧ (0 < s.CurrentStack → s.CurrentStack < 2 ^ 32 →
          decr32 s.CurrentStack = s.CurrentStack - 1)
      ∧ (Inv s → s.MBB.length + 1 ∉ s.IfThenElseStack
          ∧ (∀ e ∈ s.LoopStack, s.MBB.length + 1 ∉ e.2)
          ∧ Inv ⟨s.MBB ++ [⟨.CF_JUMP, [((s.CfCount + 3 : Nat) : Int), 1]⟩, ⟨.LOOP_BREAK, [0]⟩,
                          ⟨.POP, [((s.CfCount + 3 : Nat) : Int), 1]⟩],
                s.CfCount + 3, (P.1, List.insert (s.MBB.length + 1) P.2) :: LS,
                s.IfThenElseStack, s.MaxStack, decr32 s.CurrentStack⟩) := by
  have fm := isFetch_of_opcode m _ hm rfl
  have hlow : lowerInstr s m
      = .ok ⟨s.MBB ++ [⟨.CF_JUMP, [((s.CfCount + 3 : Nat) : Int), 1]⟩, ⟨.LOOP_BREAK, [0]⟩,
                          ⟨.POP, [((s.CfCount + 3 : Nat) : Int), 1]⟩],
                s.CfCount + 3, (P.1, List.insert (s.MBB.length + 1) P.2) :: LS,
                s.IfThenElseStack, s.MaxStack, decr32 s.CurrentStack⟩ := by
    unfold lowerInstr
    rw [hm]
    simp only [hL]
  refine ⟨?_, ?_, ?_, ?_, ?_⟩
  · rw [loopBody_other C s m rest fm, hlow]
  · rw [List.getElem?_append_right (by omega)]
    simp
  · unfold decr32
    omega
  · intro h0 h1
    unfold decr32
    omega
  · intro hinv
    have hb : ∀ k ∈ owned s, k < s.MBB.length := hinv.2
    refine ⟨?_, ?_, lowerInstr_Inv s _ m hlow hinv⟩
    · intro hmem
      have := hb _ (by unfold owned; exact List.mem_append_left _ hmem)
      omega
    · intro e he hmem
      have := hb (s.MBB.length + 1) (by
        unfold owned
        apply List.mem_append_right
        simp only [List.mem_flatten, List.mem_map]
        exact ⟨e.2, ⟨e, he, rfl⟩, hmem⟩)
      omega

/-- C19, witness: a `PREDICATED_BREAK` met with `CfCount = 1` after a `WHILELOOP`. -/
theorem C19_predicated_break_witness :
    loopBody 16 ⟨[⟨.WHILE_LOOP, [2]⟩], 1, [(0, [0])], [], 1, 1⟩ ⟨.PREDICATED_BREAK, []⟩
        [⟨.ENDLOOP, []⟩]
      = .ok (⟨[⟨.WHILE_LOOP, [2]⟩, ⟨.CF_JUMP, [4, 1]⟩, ⟨.LOOP_BREAK, [0]⟩, ⟨.POP, [4, 1]⟩],
              4, [(0, [2, 0])], [], 1, 0⟩, [⟨.ENDLOOP, []⟩]) :=
  (C19_predicated_break 16 ⟨[⟨.WHILE_LOOP, [2]⟩], 1, [(0, [0])], [], 1, 1⟩
    ⟨.PREDICATED_BREAK, []⟩ [⟨.ENDLOOP, []⟩] (0, [0]) [] rfl rfl).1

/-- C20: at every iteration of the scan of a block that starts on a fetch instruction, the
clause header `CF_TC` is created with address 0 and the clause size; no stack is changed by
that iteration, no stack ever points to the header afterwards, and the header is the same
at every later iteration and in the output.  At every iteration on an `ENDIF`, reached with
`CfCount = c`, the emitted `POP` has operands `c + 1, 1`; no stack ever points to it and it
is the same at every later iteration and in the output. -/
theorem C20_unpatched_addresses (C ST M X : Nat) (MBB : List MachineInstr) (sF : State)
    (hC : 0 < C) (hrun : scanBlock C ST M X MBB = .ok sF) :
    (∀ n s I rest,
        scan C n (blockEntry ST M X MBB).1 (blockEntry ST M X MBB).2 = .ok (s, I :: rest) →
        isFetch I = true →
        ∃ s1 rest1, loopBody C s I rest = .ok (s1, rest1)
          ∧ s1.MBB[s.MBB.length]?
              = some ⟨.CF_TC, [0, ((fetchClauseLoop C (I :: rest) 0).1 : Int)]⟩
          ∧ s1.LoopStack = s.LoopStack ∧ s1.IfThenElseStack = s.IfThenElseStack
          ∧ (∀ j s2 r2, scan C j s1 rest1 = .ok (s2, r2) →
              s.MBB.length ∉ owned s2
              ∧ s2.MBB[s.MBB.length]?
                  = some ⟨.CF_TC, [0, ((fetchClauseLoop C (I :: rest) 0).1 : Int)]⟩)
          ∧ sF.MBB[s.MBB.length]?
              = some ⟨.CF_TC, [0, ((fetchClauseLoop C (I :: rest) 0).1 : Int)]⟩)
    ∧ (∀ n s I rest,
        scan C n (blockEntry ST M X MBB).1 (blockEntry ST M X MBB).2 = .ok (s, I :: rest) →
        I.opcode = .ENDIF →
        ∃ s1, loopBody C s I rest = .ok (s1, rest)
          ∧ s1.MBB[s.MBB.length]? = some ⟨.POP, [((s.CfCount + 1 : Nat) : Int), 1]⟩
          ∧ (∀ j s2 r2, scan C j s1 rest = .ok (s2, r2) →
              s.MBB.length ∉ owned s2
              ∧ s2.MBB[s.MBB.length]? = some ⟨.POP, [((s.CfCount + 1 : Nat) : Int), 1]⟩)
          ∧ sF.MBB[s.MBB.length]? = some ⟨.POP, [((s.CfCount + 1 : Nat) : Int), 1]⟩) := by
  constructor
  · intro n s I rest hscan hI
    have inv_s := scan_Inv C n _ s _ _ (blockEntry_Inv ST M X MBB) hscan
    obtain ⟨s1, hb, hB, -, hL, hT, -, -⟩ := loopBody_fetch_shape C s I rest hI
    have hall : scanAll C s (I :: rest) = .ok sF := by
      rw [← scan_scanAll C hC n _ s _ _ hscan]; exact hrun
    rw [scanAll_cons C hC s I rest, hb] at hall
    simp only [] at hall
    have hval : s1.MBB[s.MBB.length]?
        = some ⟨.CF_TC, [0, ((fetchClauseLoop C (I :: rest) 0).1 : Int)]⟩ := by
      rw [hB, List.getElem?_append_right (le_refl _), Nat.sub_self]
      simp
    have hown : s.MBB.length ∉ owned s1 := by
      have := length_not_owned s inv_s 0
      unfold owned at this ⊢
      rw [hL, hT]
      exact this
    have hR : Inv s1 ∧ s.MBB.length ∉ owned s1 ∧ s1.MBB[s.MBB.length]?
        = some ⟨.CF_TC, [0, ((fetchClauseLoop C (I :: rest) 0).1 : Int)]⟩ :=
      ⟨Inv_of_append s s1 _ inv_s hB hL hT, hown, hval⟩
    refine ⟨s1, _, hb, hval, hL, hT, ?_, ?_⟩
    · intro j s2 r2 hj
      exact (scan_unowned C _ _ j _ s2 _ r2 hR hj).2
    · exact (scanAll_unowned C hC _ _ _ _ sF hR hall).2.2
  · intro n s I rest hscan hI
    have fI := isFetch_of_opcode I _ hI rfl
    have inv_s := scan_Inv C n _ s _ _ (blockEntry_Inv ST M X MBB) hscan
    have hall : scanAll C s (I :: rest) = .ok sF := by
      rw [← scan_scanAll C hC n _ s _ _ hscan]; exact hrun
    obtain ⟨s1, hl, hpost⟩ := scanAll_cons_marker C hC s sF I rest fI hall
    have inv1 := lowerInstr_Inv s s1 I hl inv_s
    have hb : loopBody C s I rest = .ok (s1, rest) := by
      rw [loopBody_other C s I rest fI, hl]
    have hR : Inv s1 ∧ s.MBB.length ∉ owned s1
        ∧ s1.MBB[s.MBB.length]? = some ⟨.POP, [((s.CfCount + 1 : Nat) : Int), 1]⟩ := by
      refine ⟨inv1, ?_, ?_⟩
      · obtain ⟨B, c, L, T, mx, x⟩ := s
        rcases lowerInstr_cases B c L T mx x I s1 hl with
          ⟨hop, -⟩ | ⟨hop, -⟩ | ⟨hop, -⟩ | ⟨hop, -⟩ | ⟨hop, -⟩ | ⟨-, J, TS, hJ, rfl⟩ |
          ⟨hop, -⟩ | ⟨hop, -⟩
        · simp [isStackMarker, hI] at hop
        · rw [hI] at hop; cases hop
        · rw [hI] at hop; cases hop
        · rw [hI] at hop; cases hop
        · rw [hI] at hop; cases hop
        rotate_left
        · rw [hI] at hop; cases hop
        · rw [hI] at hop; cases hop
        subst hJ
        intro hmem
        have h0 := length_not_owned _ inv_s 0
        apply h0
        simp only [owned_mk, List.cons_append, List.mem_cons, Nat.add_zero] at hmem ⊢
        exact Or.inr hmem
      · obtain ⟨B, c, L, T, mx, x⟩ := s
        rcases lowerInstr_cases B c L T mx x I s1 hl with
          ⟨hop, -⟩ | ⟨hop, -⟩ | ⟨hop, -⟩ | ⟨hop, -⟩ | ⟨hop, -⟩ | ⟨-, J, TS, hJ, rfl⟩ |
          ⟨hop, -⟩ | ⟨hop, -⟩
        · simp [isStackMarker, hI] at hop
        · rw [hI] at hop; cases hop
        · rw [hI] at hop; cases hop
        · rw [hI] at hop; cases hop
        · rw [hI] at hop; cases hop
        rotate_left
        · rw [hI] at hop; cases hop
        · rw [hI] at hop; cases hop
        simp only
        rw [List.getElem?_append_right (by rw [length_CounterPropagateAddrAt]),
          length_CounterPropagateAddrAt, Nat.sub_self]
        rfl
    refine ⟨s1, hb, hR.2.2, ?_, ?_⟩
    · intro j s2 r2 hj
      exact (scan_unowned C _ _ j _ s2 _ r2 hR hj).2
    · exact (scanAll_unowned C hC _ _ _ _ sF hR hpost).2.2

/-- C20, witness: the block `[IF_PREDICATE_SET, TEX_SAMPLE, TEX_LD, ENDIF, CF_ALU]`; the
header of the clause stands at position 1 of the scanned part, the `POP` at position 4. -/
theorem C20_unpatched_addresses_witness :
    scanBlock 16 0 0 0 [⟨.IF_PREDICATE_SET, []⟩, ⟨.TEX_SAMPLE, []⟩, ⟨.TEX_LD, []⟩,
        ⟨.ENDIF, []⟩, ⟨.CF_ALU, []⟩]
      = .ok ⟨[⟨.CF_JUMP, [2, 0]⟩, ⟨.CF_TC, [0, 2]⟩, ⟨.TEX_SAMPLE, []⟩, ⟨.TEX_LD, []⟩,
              ⟨.POP, [3, 1]⟩, ⟨.CF_ALU, []⟩], 4, [], [], 0, 4294967295⟩
    ∧ (∃ s1 rest1, loopBody 16 ⟨[⟨.CF_JUMP, [0, 0]⟩], 1, [], [0], 0, 0⟩ ⟨.TEX_SAMPLE, []⟩
          [⟨.TEX_LD, []⟩, ⟨.ENDIF, []⟩, ⟨.CF_ALU, []⟩] = .ok (s1, rest1)
        ∧ s1.MBB[1]? = some ⟨.CF_TC, [0, 2]⟩)
    ∧ (∃ s1, loopBody 16
          ⟨[⟨.CF_JUMP, [0, 0]⟩, ⟨.CF_TC, [0, 2]⟩, ⟨.TEX_SAMPLE, []⟩, ⟨.TEX_LD, []⟩], 2, [],
            [0], 0, 0⟩ ⟨.ENDIF, []⟩ [⟨.CF_ALU, []⟩] = .ok (s1, [⟨.CF_ALU, []⟩])
        ∧ s1.MBB[4]? = some ⟨.POP, [3, 1]⟩) :=
  ⟨rfl,
   ((C20_unpatched_addresses 16 0 0 0 [⟨.IF_PREDICATE_SET, []⟩, ⟨.TEX_SAMPLE, []⟩,
      ⟨.TEX_LD, []⟩, ⟨.ENDIF, []⟩, ⟨.CF_ALU, []⟩] _ (by decide) rfl).1 1
      ⟨[⟨.CF_JUMP, [0, 0]⟩], 1, [], [0], 0, 0⟩ ⟨.TEX_SAMPLE, []⟩
      [⟨.TEX_LD, []⟩, ⟨.ENDIF, []⟩, ⟨.CF_ALU, []⟩] rfl rfl).imp
      (fun _ h => h.imp (fun _ h1 => ⟨h1.1, h1.2.1⟩)),
   ((C20_unpatched_addresses 16 0 0 0 [⟨.IF_PREDICATE_SET, []⟩, ⟨.TEX_SAMPLE, []⟩,
      ⟨.TEX_LD, []⟩, ⟨.ENDIF, []⟩, ⟨.CF_ALU, []⟩] _ (by decide) rfl).2 2
      ⟨[⟨.CF_JUMP, [0, 0]⟩, ⟨.CF_TC, [0, 2]⟩, ⟨.TEX_SAMPLE, []⟩, ⟨.TEX_LD, []⟩], 2, [],
        [0], 0, 0⟩ ⟨.ENDIF, []⟩ [⟨.CF_ALU, []⟩] rfl rfl).imp
      (fun _ h => ⟨h.1, h.2.1⟩)⟩

end R600
